import Mathlib

/-!
KVTranslator (kct-viewer): the translation engine.

A shallow embedding of `src/src/KVTranslator.cpp`.

* `QString` is Lean's `String`, `QByteArray` a list of bytes.
* The engine object is the record `KVTranslator`; every method takes the
  record and returns the record it leaves behind together with the list of
  `Event`s it caused (signals emitted, network requests issued).
* Helpers the translation unit calls but does not define (`unescape` of
  `KVUtil.h`, `QString::toFloat`, the date conversions of `QDateTime`) are
  the fields of `Platform`.
* The Qt JSON classes and zlib's `crc32` are given executable models.
-/

set_option maxRecDepth 100000

/-! ## Bytes, UTF-8 and CRC-32 -/

/-- The type `QByteArray`: a sequence of bytes. -/
abbrev QByteArray := List UInt8

/-- The call `QString::toUtf8`. -/
def toUtf8 (s : String) : QByteArray :=
  (s.data.map String.utf8EncodeChar).flatten

/-- One bit step of the reflected CRC-32 (polynomial 0xEDB88320). -/
def crc32Bit (c : Nat) : Nat :=
  if c % 2 = 1 then (c / 2) ^^^ 0xEDB88320 else c / 2

/-- One byte step of CRC-32. -/
def crc32Byte (c : Nat) (b : UInt8) : Nat :=
  crc32Bit^[8] (c ^^^ b.toNat)

/-- The zlib call `crc32(crc, buf, len)`: the running value is complemented on
the way in and on the way out. -/
def crc32 (crc : Nat) (buf : QByteArray) : Nat :=
  (buf.foldl crc32Byte (crc ^^^ 0xFFFFFFFF)) ^^^ 0xFFFFFFFF

/-! ## Numbers -/

/-- The payload of a JSON number, kept as the exact decimal `mant / 10 ^ scale`
its literal denotes. Rounding to binary64, signed zero and the range limit of
a C++ `double` are not represented. -/
structure Decimal where
  mant : Int
  scale : Nat
deriving DecidableEq, Repr

namespace Decimal

/-- Drops trailing zero digits of the fraction, so that equal values have one
representation. -/
def reduce : Int → Nat → Decimal
  | m, 0 => ⟨m, 0⟩
  | m, k + 1 => if m % 10 = 0 then reduce (m / 10) k else ⟨m, k + 1⟩

/-- The conversion `(int) d` of C++: truncation toward zero. -/
def toInt (d : Decimal) : Int :=
  Int.tdiv d.mant (10 ^ d.scale)

/-- The text of a number in positional notation, as `QJsonDocument::toJson` and
`QVariant::toString` write a `double` of moderate size: an integral value has
no fraction part. -/
def text (d : Decimal) : String :=
  if d.scale = 0 then toString d.mant
  else
    let a := d.mant.natAbs
    let f := toString (a % 10 ^ d.scale)
    (if d.mant < 0 then "-" else "") ++ toString (a / 10 ^ d.scale) ++ "."
      ++ String.mk (List.replicate (d.scale - f.length) '0') ++ f

end Decimal

/-! ## QVariant and QVariantMap -/

/-- The values a `QVariant` holds in this program: what `QJsonValue::toVariant`
produces, and the invalid variant `QVariant()`. -/
inductive QVariant where
  | invalid
  | null
  | bool (b : Bool)
  | double (d : Decimal)
  | string (s : String)
  | list (l : List QVariant)
  | map (m : List (String × QVariant))

/-- The type `QVariantMap`, that is `QMap<QString, QVariant>`. -/
abbrev QVariantMap := List (String × QVariant)

/-- The type `QVariantList`. -/
abbrev QVariantList := List QVariant

namespace QVariant

/-- The call `QVariant::isNull`. -/
def isNull : QVariant → Bool
  | invalid => true
  | null => true
  | _ => false

/-- The call `QVariant::toString`: containers and null variants give the empty
string. -/
def toString : QVariant → String
  | string s => s
  | bool b => if b then "true" else "false"
  | double d => d.text
  | _ => ""

/-- The call `QVariant::toList`: anything but a list gives the empty list. -/
def toList : QVariant → QVariantList
  | list l => l
  | _ => []

/-- Comparison of a stored variant with `QVariant(key)` for a `QString` key. The
bundled blacklist lists field keys as JSON strings; an entry of another type
is taken not to equal a key. -/
def eqString (v : QVariant) (key : String) : Bool :=
  match v with
  | string s => s == key
  | _ => false

end QVariant

/-- The call `QList<QVariant>::contains(key)` with a `QString` key. -/
def QVariantList.contains (l : QVariantList) (key : String) : Bool :=
  l.any (fun v => v.eqString key)

namespace QVariantMap

/-- The call `QMap::contains`. -/
def contains (m : QVariantMap) (key : String) : Bool :=
  (m.lookup key).isSome

/-- The call `QMap::value`: a default-constructed (invalid) variant when the key
is absent. -/
def value (m : QVariantMap) (key : String) : QVariant :=
  (m.lookup key).getD QVariant.invalid

/-- The call `QMap::isEmpty`. -/
def isEmpty (m : QVariantMap) : Bool :=
  List.isEmpty m

end QVariantMap

/-! ## QJsonValue, QJsonObject, QJsonDocument -/

/-- The type `QJsonValue`. The members of an object are held in the order in
which `QJsonObject` iterates them. -/
inductive QJsonValue where
  | null
  | bool (b : Bool)
  | double (d : Decimal)
  | string (s : String)
  | array (a : List QJsonValue)
  | object (o : List (String × QJsonValue))
  | undefined

/-- The type `QJsonArray`. -/
abbrev QJsonArray := List QJsonValue

/-- The type `QJsonObject`. -/
abbrev QJsonObject := List (String × QJsonValue)

/-- Order of two object keys: by code point, position by position. -/
def keyLt (a b : String) : Bool :=
  decide (a.data.map Char.toNat < b.data.map Char.toNat)

namespace QJsonObject

/-- The call `QJsonObject::insert`: a `QJsonObject` keeps its members sorted by
key and a key occurs once; inserting an existing key replaces its value. -/
def insert : QJsonObject → String → QJsonValue → QJsonObject
  | [], k, v => [(k, v)]
  | (k', v') :: t, k, v =>
    if k == k' then (k, v) :: t
    else if keyLt k k' then (k, v) :: (k', v') :: t
    else (k', v') :: insert t k v

/-- The call `QJsonObject::value`: `Undefined` when the key is absent. -/
def value (o : QJsonObject) (key : String) : QJsonValue :=
  (o.lookup key).getD QJsonValue.undefined

end QJsonObject

namespace QJsonValue

/-- The call `QJsonValue::toDouble`: 0 unless the value is a number. -/
def toDouble : QJsonValue → Decimal
  | double d => d
  | _ => ⟨0, 0⟩

/-- The call `QJsonValue::toString`: empty unless the value is a string. -/
def toString : QJsonValue → String
  | string s => s
  | _ => ""

/-- The call `QJsonValue::toObject`: empty unless the value is an object. -/
def toObject : QJsonValue → QJsonObject
  | object o => o
  | _ => []

/-- The call `QJsonValue::toArray`: empty unless the value is an array. -/
def toArray : QJsonValue → QJsonArray
  | array a => a
  | _ => []

mutual
/-- The call `QJsonValue::toVariant`. -/
def toVariant : QJsonValue → QVariant
  | null => QVariant.null
  | bool b => QVariant.bool b
  | double d => QVariant.double d
  | string s => QVariant.string s
  | array a => QVariant.list (toVariantList a)
  | object o => QVariant.map (toVariantMap o)
  | undefined => QVariant.invalid
/-- The call `QJsonArray::toVariantList`. -/
def toVariantList : List QJsonValue → List QVariant
  | [] => []
  | v :: t => toVariant v :: toVariantList t
/-- The call `QJsonObject::toVariantMap`. -/
def toVariantMap : List (String × QJsonValue) → List (String × QVariant)
  | [] => []
  | (k, v) :: t => (k, toVariant v) :: toVariantMap t
end

end QJsonValue

/-- The type `QJsonDocument`: null, or an array, or an object. -/
inductive QJsonDocument where
  | null
  | array (a : QJsonArray)
  | object (o : QJsonObject)

namespace QJsonDocument

/-- The call `QJsonDocument::object`: the empty object unless the document holds
an object. -/
def toObject : QJsonDocument → QJsonObject
  | object o => o
  | _ => []

end QJsonDocument

/-! ## Writing JSON: `QJsonDocument::toJson(QJsonDocument::Compact)` -/

/-- A lower-case hexadecimal digit. -/
def hexDigit (n : Nat) : UInt8 :=
  if n < 10 then UInt8.ofNat (48 + n) else UInt8.ofNat (87 + n)

/-- The bytes the writer emits for one character of a string: the two-character
escapes, `\u00XX` for the other control characters, UTF-8 otherwise. -/
def escapedChar (c : Char) : QByteArray :=
  let u := c.toNat
  if u < 0x80 then
    if u < 0x20 ∨ u = 0x22 ∨ u = 0x5c then
      92 :: (if u = 0x22 then [34]
        else if u = 0x5c then [92]
        else if u = 0x8 then [98]
        else if u = 0xc then [102]
        else if u = 0xa then [110]
        else if u = 0xd then [114]
        else if u = 0x9 then [116]
        else [117, 48, 48, hexDigit (u / 16), hexDigit (u % 16)])
    else [UInt8.ofNat u]
  else String.utf8EncodeChar c

/-- The writer's `escapedString`. -/
def escapedString (s : String) : QByteArray :=
  (s.data.map escapedChar).flatten

mutual
/-- The writer's `valueToJson` in compact form. -/
def valueToJson : QJsonValue → QByteArray
  | QJsonValue.bool b => toUtf8 (if b then "true" else "false")
  | QJsonValue.double d => toUtf8 d.text
  | QJsonValue.string s => 34 :: escapedString s ++ [34]
  | QJsonValue.array a => 91 :: arrayContentToJson a ++ [93]
  | QJsonValue.object o => 123 :: objectContentToJson o ++ [125]
  | QJsonValue.null => toUtf8 "null"
  | QJsonValue.undefined => toUtf8 "null"
/-- The writer's `arrayContentToJson`: the elements in order, separated by commas. -/
def arrayContentToJson : List QJsonValue → QByteArray
  | [] => []
  | v :: t => valueToJson v ++ (if t.isEmpty then [] else 44 :: arrayContentToJson t)
/-- The writer's `objectContentToJson`: the members in the object's order, each
as `"key":value`, separated by commas. -/
def objectContentToJson : List (String × QJsonValue) → QByteArray
  | [] => []
  | (k, v) :: t =>
    34 :: escapedString k ++ [34, 58] ++ valueToJson v
      ++ (if t.isEmpty then [] else 44 :: objectContentToJson t)
end

/-- The call `QJsonDocument::toJson(QJsonDocument::Compact)`: nothing for a null
document. -/
def QJsonDocument.toJson : QJsonDocument → QByteArray
  | QJsonDocument.null => []
  | QJsonDocument.array a => valueToJson (QJsonValue.array a)
  | QJsonDocument.object o => valueToJson (QJsonValue.object o)

/-! ## Reading JSON: `QJsonDocument::fromJson` -/

/-- JSON white space: space, tab, line feed, carriage return. -/
def isSpace (b : UInt8) : Bool :=
  b == 32 || b == 9 || b == 10 || b == 13

/-- Skips white space. -/
def eatSpace : QByteArray → QByteArray
  | [] => []
  | b :: t => if isSpace b then eatSpace t else b :: t

/-- Strips the literal `p` from the front of `json`, if it is there. -/
def stripLiteral (p : String) (json : QByteArray) : Option QByteArray :=
  if (toUtf8 p).isPrefixOf json then some (json.drop (toUtf8 p).length) else none

/-- The leading decimal digits of the input, and what follows them. -/
def takeDigits : QByteArray → List Nat × QByteArray
  | [] => ([], [])
  | b :: t =>
    if 48 ≤ b.toNat ∧ b.toNat ≤ 57 then ((b.toNat - 48) :: (takeDigits t).1, (takeDigits t).2)
    else ([], b :: t)

/-- The number written by a list of decimal digits. -/
def digitsValue (ds : List Nat) : Nat :=
  ds.foldl (fun a d => 10 * a + d) 0

/-- The fraction part of a number literal: a point followed by at least one
digit, or nothing. -/
def parseFraction : QByteArray → Option (List Nat × QByteArray)
  | 46 :: t =>
    if (takeDigits t).1.isEmpty then none else some (takeDigits t)
  | json => some ([], json)

/-- The exponent part of a number literal: `e` or `E`, an optional sign and at
least one digit, or nothing. -/
def parseExponent (json : QByteArray) : Option (Int × QByteArray) :=
  match json with
  | [] => some (0, [])
  | b :: t =>
    if b = 101 ∨ b = 69 then
      match t with
      | 45 :: u =>
        if (takeDigits u).1.isEmpty then none
        else some (- (digitsValue (takeDigits u).1 : Int), (takeDigits u).2)
      | 43 :: u =>
        if (takeDigits u).1.isEmpty then none
        else some ((digitsValue (takeDigits u).1 : Int), (takeDigits u).2)
      | u =>
        if (takeDigits u).1.isEmpty then none
        else some ((digitsValue (takeDigits u).1 : Int), (takeDigits u).2)
    else some (0, b :: t)

/-- The value `±(ip.fp) * 10 ^ ex` as a reduced `Decimal`. -/
def mkDecimal (neg : Bool) (ip fp : List Nat) (ex : Int) : Decimal :=
  let m : Int := digitsValue (ip ++ fp)
  let m := if neg then -m else m
  match (fp.length : Int) - ex with
  | Int.ofNat k => Decimal.reduce m k
  | Int.negSucc k => Decimal.reduce (m * 10 ^ (k + 1)) 0

/-- The unsigned part of a number literal: `0` or a digit string without a
leading zero, then an optional fraction and an optional exponent. -/
def parseUnsigned (neg : Bool) (json : QByteArray) : Option (Decimal × QByteArray) :=
  let ip := (takeDigits json).1
  if ip.isEmpty || (decide (1 < ip.length) && ip.head? == some 0) then none
  else
    match parseFraction (takeDigits json).2 with
    | none => none
    | some (fp, r) =>
      match parseExponent r with
      | none => none
      | some (ex, r) => some (mkDecimal neg ip fp ex, r)

/-- A JSON number literal. -/
def parseNumber : QByteArray → Option (Decimal × QByteArray)
  | 45 :: t => parseUnsigned true t
  | json => parseUnsigned false json

/-- The value of a hexadecimal digit. -/
def hexVal (b : UInt8) : Option Nat :=
  let n := b.toNat
  if 48 ≤ n ∧ n ≤ 57 then some (n - 48)
  else if 97 ≤ n ∧ n ≤ 102 then some (n - 87)
  else if 65 ≤ n ∧ n ≤ 70 then some (n - 55)
  else none

/-- Four hexadecimal digits, as the UTF-16 unit they write. -/
def parseHex4 : QByteArray → Option (Nat × QByteArray)
  | a :: b :: c :: d :: t =>
    match hexVal a, hexVal b, hexVal c, hexVal d with
    | some a, some b, some c, some d => some (((a * 16 + b) * 16 + c) * 16 + d, t)
    | _, _, _, _ => none
  | _ => none

/-- A continuation byte of UTF-8. -/
def isCont (b : UInt8) : Bool :=
  decide (0x80 ≤ b.toNat ∧ b.toNat < 0xC0)

/-- One well-formed UTF-8 sequence, as its character. -/
def utf8Decode : QByteArray → Option (Char × QByteArray)
  | [] => none
  | b0 :: t =>
    let n0 := b0.toNat
    if n0 < 0x80 then some (Char.ofNat n0, t)
    else if n0 < 0xC2 then none
    else if n0 < 0xE0 then
      match t with
      | b1 :: t =>
        if isCont b1 then some (Char.ofNat ((n0 - 0xC0) * 64 + (b1.toNat - 0x80)), t) else none
      | _ => none
    else if n0 < 0xF0 then
      match t with
      | b1 :: b2 :: t =>
        let cp := ((n0 - 0xE0) * 64 + (b1.toNat - 0x80)) * 64 + (b2.toNat - 0x80)
        if isCont b1 && isCont b2 && decide (0x800 ≤ cp) && !decide (0xD800 ≤ cp ∧ cp < 0xE000)
        then some (Char.ofNat cp, t) else none
      | _ => none
    else if n0 < 0xF5 then
      match t with
      | b1 :: b2 :: b3 :: t =>
        let cp := (((n0 - 0xF0) * 64 + (b1.toNat - 0x80)) * 64 + (b2.toNat - 0x80)) * 64
          + (b3.toNat - 0x80)
        if isCont b1 && isCont b2 && isCont b3 && decide (0x10000 ≤ cp ∧ cp < 0x110000)
        then some (Char.ofNat cp, t) else none
      | _ => none
    else none

/-- The character of a `\uXXXX` escape whose unit is `u`, with the input after
it: a high surrogate followed by an escaped low surrogate is one character, and
a surrogate on its own, which a Lean `String` cannot hold, reads as U+FFFD. -/
def unicodeEscape (u : Nat) (json : QByteArray) : Char × QByteArray :=
  if 0xD800 ≤ u ∧ u < 0xDC00 then
    match json with
    | 92 :: 117 :: t =>
      match parseHex4 t with
      | some (lo, r) =>
        if 0xDC00 ≤ lo ∧ lo < 0xE000 then
          (Char.ofNat (0x10000 + (u - 0xD800) * 0x400 + (lo - 0xDC00)), r)
        else (Char.ofNat 0xFFFD, json)
      | none => (Char.ofNat 0xFFFD, json)
    | _ => (Char.ofNat 0xFFFD, json)
  else if 0xDC00 ≤ u ∧ u < 0xE000 then (Char.ofNat 0xFFFD, json)
  else (Char.ofNat u, json)

/-- The parser's `scanEscapeSequence`, entered after the backslash. A character
that names no escape stands for itself. -/
def scanEscapeSequence : QByteArray → Option (Char × QByteArray)
  | [] => none
  | b :: t =>
    if b = 98 then some (Char.ofNat 0x8, t)
    else if b = 102 then some (Char.ofNat 0xc, t)
    else if b = 110 then some (Char.ofNat 0xa, t)
    else if b = 114 then some (Char.ofNat 0xd, t)
    else if b = 116 then some (Char.ofNat 0x9, t)
    else if b = 117 then
      match parseHex4 t with
      | some (u, r) => some (unicodeEscape u r)
      | none => none
    else utf8Decode (b :: t)

/-- The parser's `parseString`, entered after the opening quote: the characters
up to the closing quote. -/
def parseString : Nat → QByteArray → Option (List Char × QByteArray)
  | 0, _ => none
  | _ + 1, [] => none
  | fuel + 1, b :: t =>
    if b = 34 then some ([], t)
    else
      match (if b = 92 then scanEscapeSequence t else utf8Decode (b :: t)) with
      | none => none
      | some (c, r) =>
        match parseString fuel r with
        | none => none
        | some (cs, r) => some (c :: cs, r)

mutual
/-- The parser's `parseValue`: `depth` counts the enclosing arrays and objects,
of which the parser allows 1024. -/
def parseValue : Nat → Nat → QByteArray → Option (QJsonValue × QByteArray)
  | 0, _, _ => none
  | _ + 1, _, [] => none
  | fuel + 1, depth, b :: t =>
    if b = 34 then
      match parseString (t.length + 1) t with
      | some (cs, r) => some (QJsonValue.string (String.mk cs), r)
      | none => none
    else if b = 91 then
      if 1024 ≤ depth then none
      else
        match eatSpace t with
        | 93 :: r => some (QJsonValue.array [], r)
        | r =>
          match parseElements fuel (depth + 1) r with
          | some (a, r) => some (QJsonValue.array a, r)
          | none => none
    else if b = 123 then
      if 1024 ≤ depth then none
      else
        match eatSpace t with
        | 125 :: r => some (QJsonValue.object [], r)
        | r =>
          match parseMembers fuel (depth + 1) [] r with
          | some (o, r) => some (QJsonValue.object o, r)
          | none => none
    else
      match stripLiteral "null" (b :: t), stripLiteral "true" (b :: t),
        stripLiteral "false" (b :: t) with
      | some r, _, _ => some (QJsonValue.null, r)
      | _, some r, _ => some (QJsonValue.bool true, r)
      | _, _, some r => some (QJsonValue.bool false, r)
      | _, _, _ =>
        match parseNumber (b :: t) with
        | some (d, r) => some (QJsonValue.double d, r)
        | none => none
/-- The elements of an array up to its closing bracket, entered at the first
element. -/
def parseElements : Nat → Nat → QByteArray → Option (List QJsonValue × QByteArray)
  | 0, _, _ => none
  | fuel + 1, depth, json =>
    match parseValue fuel depth json with
    | none => none
    | some (v, r) =>
      match eatSpace r with
      | 93 :: r => some ([v], r)
      | 44 :: r =>
        match parseElements fuel depth (eatSpace r) with
        | some (a, r) => some (v :: a, r)
        | none => none
      | _ => none
/-- The members of an object up to its closing brace, entered at the quote of
the first key; `acc` is the object built so far. -/
def parseMembers : Nat → Nat → QJsonObject → QByteArray → Option (QJsonObject × QByteArray)
  | 0, _, _, _ => none
  | fuel + 1, depth, acc, json =>
    match json with
    | 34 :: t =>
      match parseString (t.length + 1) t with
      | none => none
      | some (k, r) =>
        match eatSpace r with
        | 58 :: r =>
          match parseValue fuel depth (eatSpace r) with
          | none => none
          | some (v, r) =>
            match eatSpace r with
            | 125 :: r => some (QJsonObject.insert acc (String.mk k) v, r)
            | 44 :: r => parseMembers fuel depth (QJsonObject.insert acc (String.mk k) v) (eatSpace r)
            | _ => none
        | _ => none
    | _ => none
end

/-- The parser's entry point: an optional byte-order mark, white space, one
array or object, white space, and then the end of the input. -/
def parseJson (json : QByteArray) : Option QJsonValue :=
  let json :=
    match json with
    | 0xEF :: 0xBB :: 0xBF :: b :: t => b :: t
    | _ => json
  match eatSpace json with
  | b :: t =>
    if b = 91 ∨ b = 123 then
      match parseValue (2 * json.length + 2) 0 (b :: t) with
      | some (v, r) => if (eatSpace r).isEmpty then some v else none
      | none => none
    else none
  | [] => none

/-- The call `QJsonDocument::fromJson(json, &error)`, as the pair of the document
and `error.error != QJsonParseError::NoError`: a rejected input gives the null
document. -/
def QJsonDocument.fromJson (json : QByteArray) : QJsonDocument × Bool :=
  match parseJson json with
  | some (QJsonValue.object o) => (QJsonDocument.object o, false)
  | some (QJsonValue.array a) => (QJsonDocument.array a, false)
  | _ => (QJsonDocument.null, true)

/-! ## The engine -/

/-- The time specification of a `QDateTime`. -/
inductive TimeSpec where
  | localTime
  | utc
deriving DecidableEq, Repr

/-- The type `QDateTime`: a count of seconds read in a time specification;
`valid = false` is the invalid date-time. -/
structure QDateTime where
  valid : Bool
  secs : Int
  spec : TimeSpec
deriving DecidableEq, Repr

namespace QDateTime

/-- The call `QDateTime::addSecs`: a new date-time, the receiver is not changed. -/
def addSecs (t : QDateTime) (s : Int) : QDateTime :=
  { t with secs := t.secs + s }

/-- The call `QDateTime::toLocalTime`. -/
def toLocalTime (t : QDateTime) : QDateTime :=
  { t with spec := TimeSpec.localTime }

end QDateTime

/-- What `KVTranslator.cpp` calls and does not define. -/
structure Platform where
  /-- The helper `unescape` of `KVUtil.h`. -/
  unescape : String → String
  /-- The flag `QString::toFloat` reports through its `bool *ok` argument. -/
  toFloatOk : String → Bool
  /-- The text `QJsonParseError::errorString` gives for a rejected input. -/
  errorString : QByteArray → String
  /-- The call `QDateTime::fromString(time, "yyyy-MM-dd hh:mm:ss")`. -/
  dateFromString : String → QDateTime
  /-- The call `QDateTime::toString("yyyy-MM-dd hh:mm:ss")`. -/
  dateToString : QDateTime → String

/-- The readiness states of the engine. -/
inductive State where
  | created
  | loading
  | loaded
  | failed
deriving DecidableEq, Repr

/-- What a method does to the world outside the engine record. -/
inductive Event where
  /-- The signal `loadFinished()`. -/
  | loadFinished
  /-- The signal `loadFailed(QString)`. -/
  | loadFailed (reason : String)
  /-- The request `manager.get(url)`. -/
  | get (url : String)
  /-- The request `manager.post(req, body)` with the content type set on `req`. -/
  | post (url : String) (contentType : String) (body : QByteArray)
deriving DecidableEq, Repr

/-- Whether an event is a report request. -/
def Event.isReport : Event → Bool
  | Event.post _ _ _ => true
  | _ => false

/-- Whether an event is a `loadFailed` signal. -/
def Event.isLoadFailed : Event → Bool
  | Event.loadFailed _ => true
  | _ => false

/-- A finished `QNetworkReply`: `error = none` is `QNetworkReply::NoError`,
otherwise the error's `errorString()`; `body` is what `readAll()` returns. -/
structure QNetworkReply where
  error : Option String
  body : QByteArray

/-- The members of `KVTranslator`, and the cache file behind `cacheFile`: its
contents when it exists, and whether opening it for writing succeeds. -/
structure KVTranslator where
  reportUntranslated : Bool
  state : State
  translation : QVariantMap
  reportBlacklist : QVariantMap
  cacheFile : Option QByteArray
  cacheWritable : Bool

namespace KVTranslator

/-- The method `isLoaded`. -/
def isLoaded (K : KVTranslator) : Bool :=
  decide (K.state = State.loaded)

/-- The `int success` of `parseTranslationData`:
`(int) root.value("success").toDouble()`. -/
def successOf (root : QJsonObject) : Int :=
  (root.value "success").toDouble.toInt

/-- The method `parseTranslationData`. -/
def parseTranslationData (P : Platform) (K : KVTranslator) (data : QByteArray) :
    Bool × KVTranslator × List Event :=
  let doc := QJsonDocument.fromJson data
  if doc.2 then
    (false, { K with state := State.failed },
      [Event.loadFailed ("JSON Error: " ++ P.errorString data)])
  else
    let root := doc.1.toObject
    let success := successOf root
    if success ≠ 1 then
      (false, { K with state := State.failed },
        [Event.loadFailed ("API Error " ++ toString success)])
    else
      (true,
        { K with
          translation := QJsonValue.toVariantMap (root.value "translation").toObject
          state := State.loaded },
        [Event.loadFinished])

/-- The method `loadTranslation`. -/
def loadTranslation (P : Platform) (K : KVTranslator) (language : String) :
    KVTranslator × List Event :=
  let K := { K with state := State.loading }
  let r :=
    match K.cacheFile with
    | some bytes => ((parseTranslationData P K bytes).2.1, (parseTranslationData P K bytes).2.2)
    | none => (K, [])
  (r.1, r.2 ++ [Event.get ("http://api.comeonandsl.am/translation/" ++ language ++ "/")])

/-- The slot `translationRequestFinished`, run with the reply that finished. -/
def translationRequestFinished (P : Platform) (K : KVTranslator) (reply : QNetworkReply) :
    KVTranslator × List Event :=
  match reply.error with
  | some msg =>
    ({ K with state := State.failed }, [Event.loadFailed ("Network Error: " ++ msg)])
  | none =>
    let body := reply.body
    let r := parseTranslationData P K body
    if r.1 then
      if r.2.1.cacheWritable then ({ r.2.1 with cacheFile := some body }, r.2.2)
      else r.2
    else r.2

/-- The report request of `translate`. -/
def reportRequest (realLine lastPathComponent : String) : Event :=
  Event.post ("http://api.comeonandsl.am/report/" ++ lastPathComponent)
    "application/x-www-form-urlencoded" (toUtf8 ("value=" ++ realLine))

/-- Lines 136 to 193 of `translate`: what it does once the readiness switch has
let it through. -/
def translateLine (P : Platform) (K : KVTranslator) (line lastPathComponent key : String) :
    String × List Event :=
  let realLine := P.unescape line
  if realLine.data.isEmpty || realLine == "-" then (line, [])
  else if P.toFloatOk realLine then (line, [])
  else
    let endpointBlacklist := (K.reportBlacklist.value lastPathComponent).toList
    if endpointBlacklist.contains key then (line, [])
    else
      let utf8 := toUtf8 realLine
      let crc := crc32 0 utf8
      let crcString := toString crc
      if K.translation.contains crcString then
        let value := K.translation.value crcString
        if !value.isNull then (value.toString, [])
        else (line, [])
      else
        if K.reportUntranslated && !lastPathComponent.data.isEmpty
            && !K.reportBlacklist.isEmpty then
          (line, [reportRequest realLine lastPathComponent])
        else (line, [])

/-- The method `translate`. In state `loading` the call runs an event loop until
`loadFinished` or `loadFailed` is emitted: `wake` is the reply whose completion
is delivered in that loop, and with `wake = none` (the fetch never completes)
the call does not return, which is the result `none`. -/
def translate (P : Platform) (K : KVTranslator) (wake : Option QNetworkReply)
    (line lastPathComponent key : String) : Option (String × KVTranslator × List Event) :=
  match K.state with
  | State.created => some (line, K, [])
  | State.failed => some (line, K, [])
  | State.loading =>
    match wake with
    | none => none
    | some reply =>
      let r := translationRequestFinished P K reply
      let out := translateLine P r.1 line lastPathComponent key
      some (out.1, r.1, r.2 ++ out.2)
  | State.loaded =>
    let out := translateLine P K line lastPathComponent key
    some (out.1, K, out.2)

/-- The method `fixTime`. The date-time `addSecs` returns is dropped, as in the
source, where the call is a statement of its own. -/
def fixTime (P : Platform) (time : String) : String :=
  let realTime := P.dateFromString time
  if !realTime.valid then time
  else
    let _unused := realTime.addSecs (-32400)
    let realTime := realTime.toLocalTime
    P.dateToString realTime

end KVTranslator

namespace KVTranslator

mutual
/-- The method `_walk`. The engine record is threaded through the visit, since
`translate` may run the event loop; `none` is a visit that does not return. -/
def _walk (P : Platform) (wake : Option QNetworkReply) :
    KVTranslator → QJsonValue → String → String → Option (QJsonValue × KVTranslator × List Event)
  | K, QJsonValue.object obj, lastPathComponent, _ =>
    match walkObject P wake K obj lastPathComponent with
    | some (obj, K, ev) => some (QJsonValue.object obj, K, ev)
    | none => none
  | K, QJsonValue.array arr, lastPathComponent, key =>
    match walkArray P wake K arr lastPathComponent key with
    | some (arr, K, ev) => some (QJsonValue.array arr, K, ev)
    | none => none
  | K, QJsonValue.string s, lastPathComponent, key =>
    if key == "api_complete_time_str" then some (QJsonValue.string (fixTime P s), K, [])
    else
      match translate P K wake s lastPathComponent key with
      | some (t, K, ev) => some (QJsonValue.string t, K, ev)
      | none => none
  | K, QJsonValue.null, _, _ => some (QJsonValue.null, K, [])
  | K, QJsonValue.bool b, _, _ => some (QJsonValue.bool b, K, [])
  | K, QJsonValue.double d, _, _ => some (QJsonValue.double d, K, [])
  | K, QJsonValue.undefined, _, _ => some (QJsonValue.undefined, K, [])
/-- The loop of `_walk` over the members of an object, first to last: each value
is replaced by its visit under the member's own key. -/
def walkObject (P : Platform) (wake : Option QNetworkReply) :
    KVTranslator → List (String × QJsonValue) → String →
      Option (List (String × QJsonValue) × KVTranslator × List Event)
  | K, [], _ => some ([], K, [])
  | K, (k, v) :: t, lastPathComponent =>
    match _walk P wake K v lastPathComponent k with
    | none => none
    | some (v, K, ev) =>
      match walkObject P wake K t lastPathComponent with
      | none => none
      | some (t, K, ev') => some ((k, v) :: t, K, ev ++ ev')
/-- The loop of `_walk` over the elements of an array, first to last: each
element is replaced by its visit under the key the array was visited with. -/
def walkArray (P : Platform) (wake : Option QNetworkReply) :
    KVTranslator → List QJsonValue → String → String →
      Option (List QJsonValue × KVTranslator × List Event)
  | K, [], _, _ => some ([], K, [])
  | K, v :: t, lastPathComponent, key =>
    match _walk P wake K v lastPathComponent key with
    | none => none
    | some (v, K, ev) =>
      match walkArray P wake K t lastPathComponent key with
      | none => none
      | some (t, K, ev') => some (v :: t, K, ev ++ ev')
end

/-- The method `translateJson` (the branch for Qt 5.1 and later, which writes
compact JSON). -/
def translateJson (P : Platform) (K : KVTranslator) (wake : Option QNetworkReply)
    (json : QByteArray) (lastPathComponent : String) :
    Option (QByteArray × KVTranslator × List Event) :=
  let json :=
    match json with
    | 0xEF :: 0xBB :: 0xBF :: t => t
    | _ => json
  let hasPrefix := (toUtf8 "svdata=").isPrefixOf json
  let doc := (QJsonDocument.fromJson (json.drop (if hasPrefix then 7 else 0))).1
  match _walk P wake K (QJsonValue.object doc.toObject) lastPathComponent "" with
  | none => none
  | some (val, K, ev) =>
    let doc := QJsonDocument.object val.toObject
    let ret := doc.toJson
    some (if hasPrefix then toUtf8 "svdata=" ++ ret else ret, K, ev)

end KVTranslator

/-! ## A platform and an engine for the scenarios -/

/-- A platform on which the scenarios are evaluated: their lines hold no escape
sequence, so `unescape` returns them as they are; `toFloat` accepts the
non-empty strings of decimal digits; no text is a date. -/
def scenarioPlatform : Platform where
  unescape := fun s => s
  toFloatOk := fun s => !s.data.isEmpty && s.data.all Char.isDigit
  errorString := fun _ => "illegal value"
  dateFromString := fun _ => ⟨false, 0, TimeSpec.localTime⟩
  dateToString := fun _ => ""

/-- The dictionary of the scenarios: `crc32("Hello")` maps to `"Bonjour"`. -/
def helloDictionary : QVariantMap :=
  [("4157704578", QVariant.string "Bonjour")]

/-- A loaded engine with the dictionary of the scenarios, reporting on, and a
blacklist that lists the field `id` for the endpoint `lobby`. -/
def lobbyEngine : KVTranslator where
  reportUntranslated := true
  state := State.loaded
  translation := helloDictionary
  reportBlacklist := [("lobby", QVariant.list [QVariant.string "id"])]
  cacheFile := none
  cacheWritable := true

/-- A created engine (no load requested yet) that already holds the dictionary
of the scenarios. -/
def createdEngine : KVTranslator :=
  { lobbyEngine with state := State.created }

/-! ## Vocabulary of the statements -/

/-- The dictionary key of a logical text: the decimal text of the CRC-32 of its
UTF-8 bytes, which is the `crcString` of `translate`. -/
def hashKey (realLine : String) : String :=
  toString (crc32 0 (toUtf8 realLine))

/-- Whether the blacklist lists the field key `key` for the endpoint `e`: the
test `endpointBlacklist.contains(key)` of `translate`. -/
def blacklisted (K : KVTranslator) (e key : String) : Bool :=
  (K.reportBlacklist.value e).toList.contains key

/-- The report requests among the events of a call. -/
def reports (ev : List Event) : List Event :=
  ev.filter Event.isReport

/-- Whether `parseTranslationData` accepts a body: the JSON parser accepts it and
the success flag read from it is 1. -/
def accepted (data : QByteArray) : Bool :=
  !(QJsonDocument.fromJson data).2
    && decide (KVTranslator.successOf (QJsonDocument.fromJson data).1.toObject = 1)

/-- The mapping under `translation` of a body, as `parseTranslationData` stores
it. -/
def dictionaryOf (data : QByteArray) : QVariantMap :=
  QJsonValue.toVariantMap
    (((QJsonDocument.fromJson data).1.toObject).value "translation").toObject

/-- The address `loadTranslation` fetches for a language. -/
def translationUrl (language : String) : String :=
  "http://api.comeonandsl.am/translation/" ++ language ++ "/"

/-- A validated response: success 1 and the dictionary of the scenarios. -/
def helloBody : QByteArray :=
  toUtf8 "\x7b\"success\":1,\"translation\":\x7b\"4157704578\":\"Bonjour\"\x7d\x7d"

/-- A reply that finished with a network error. -/
def offlineReply : QNetworkReply :=
  ⟨some "Host not found", []⟩

/-- A created engine with an empty dictionary, reporting on, no cache file. -/
def freshEngine : KVTranslator where
  reportUntranslated := true
  state := State.created
  translation := []
  reportBlacklist := [("lobby", QVariant.list [QVariant.string "id"])]
  cacheFile := none
  cacheWritable := true

/-- A created engine whose cache file holds the validated response `helloBody`. -/
def cachedEngine : KVTranslator :=
  { freshEngine with cacheFile := some helloBody }

/-- A loaded engine that holds the dictionary of the scenarios and has no cache
file: its earlier fetch succeeded and the cache could not be written. -/
def uncachedEngine : KVTranslator :=
  { lobbyEngine with cacheFile := none, cacheWritable := false }

/-- The input of `translateJson` once a leading byte-order mark is dropped. -/
def stripBom : QByteArray → QByteArray
  | 0xEF :: 0xBB :: 0xBF :: t => t
  | json => json

/-- The `hasPrefix` of `translateJson`: whether the input, after the byte-order
mark, starts with `svdata=`. -/
def hasPrefix (json : QByteArray) : Bool :=
  (toUtf8 "svdata=").isPrefixOf (stripBom json)

/-- The bytes `translateJson` hands to the JSON parser: the input without the
byte-order mark and without the prefix `svdata=`. -/
def payload (json : QByteArray) : QByteArray :=
  (stripBom json).drop (if hasPrefix json then 7 else 0)

/-- The prefix `translateJson` puts back in front of its output. -/
def framing (json : QByteArray) : QByteArray :=
  if hasPrefix json then toUtf8 "svdata=" else []

/-! ### A platform with a calendar -/

/-- The number of days of month `m` in year `y` (Gregorian). -/
def daysInMonth (y m : Nat) : Nat :=
  if m = 2 then (if (y % 4 = 0 ∧ y % 100 ≠ 0) ∨ y % 400 = 0 then 29 else 28)
  else if m = 4 ∨ m = 6 ∨ m = 9 ∨ m = 11 then 30
  else 31

/-- The number of the day `y-m-d`, counted from the first of March of the year
400 before the year 0. -/
def daysFromCivil (y m d : Nat) : Nat :=
  let y := y + 400 - (if m ≤ 2 then 1 else 0)
  let yoe := y % 400
  let doy := (153 * (if 2 < m then m - 3 else m + 9) + 2) / 5 + d - 1
  (y / 400) * 146097 + (yoe * 365 + yoe / 4 - yoe / 100 + doy)

/-- The date `(y, m, d)` of a day number; the inverse of `daysFromCivil`. -/
def civilFromDays (z : Nat) : Nat × Nat × Nat :=
  let doe := z % 146097
  let yoe := (doe - doe / 1460 + doe / 36524 - doe / 146096) / 365
  let doy := doe - (365 * yoe + yoe / 4 - yoe / 100)
  let mp := (5 * doy + 2) / 153
  let m := if mp < 10 then mp + 3 else mp - 9
  (yoe + (z / 146097) * 400 + (if m ≤ 2 then 1 else 0) - 400, m, doy - (153 * mp + 2) / 5 + 1)

/-- The decimal digits of `n`, padded with zeros to `width` characters. -/
def padDigits (width n : Nat) : List Char :=
  List.replicate (width - (toString n).length) '0' ++ (toString n).data

/-- The value of a character that is a decimal digit. -/
def digitOf (c : Char) : Option Nat :=
  if c.isDigit then some (c.toNat - 48) else none

/-- The number written by a list of characters, when all of them are digits. -/
def numberOf : List Char → Option Nat
  | [] => some 0
  | cs => (cs.mapM digitOf).map digitsValue

/-- Reading a text against the pattern `yyyy-MM-dd hh:mm:ss`: a valid local
date-time when the text has that form and names an existing date and time of
day, the invalid date-time otherwise. -/
def calendarFromString (text : String) : QDateTime :=
  match text.data with
  | [y1, y2, y3, y4, '-', m1, m2, '-', d1, d2, ' ', h1, h2, ':', i1, i2, ':', s1, s2] =>
    match numberOf [y1, y2, y3, y4], numberOf [m1, m2], numberOf [d1, d2],
      numberOf [h1, h2], numberOf [i1, i2], numberOf [s1, s2] with
    | some y, some m, some d, some h, some i, some s =>
      if 1 ≤ m ∧ m ≤ 12 ∧ 1 ≤ d ∧ d ≤ daysInMonth y m ∧ h < 24 ∧ i < 60 ∧ s < 60 then
        ⟨true, ((daysFromCivil y m d * 86400 + h * 3600 + i * 60 + s : Nat) : Int),
          TimeSpec.localTime⟩
      else ⟨false, 0, TimeSpec.localTime⟩
    | _, _, _, _, _, _ => ⟨false, 0, TimeSpec.localTime⟩
  | _ => ⟨false, 0, TimeSpec.localTime⟩

/-- Writing a local date-time with the pattern `yyyy-MM-dd hh:mm:ss`; the empty
text for the invalid date-time. -/
def calendarToString (t : QDateTime) : String :=
  if t.valid = false ∨ t.secs < 0 then ""
  else
    let n := t.secs.toNat
    let date := civilFromDays (n / 86400)
    let r := n % 86400
    String.mk (padDigits 4 date.1 ++ '-' :: padDigits 2 date.2.1 ++ '-' :: padDigits 2 date.2.2
      ++ ' ' :: padDigits 2 (r / 3600) ++ ':' :: padDigits 2 (r % 3600 / 60)
      ++ ':' :: padDigits 2 (r % 60))

/-- The platform of the scenarios with the calendar conversions in place of its
date conversions. -/
def calendarPlatform : Platform :=
  { scenarioPlatform with
    dateFromString := calendarFromString
    dateToString := calendarToString }

/-! ### Vocabulary for the walker and for the step relation -/

mutual
/-- Whether two JSON values have the same shape: the same kind; for objects the
same keys in the same order with values of the same shape; for arrays the same
length with elements of the same shape; and, except for strings, the same
content. -/
def sameShape : QJsonValue → QJsonValue → Bool
  | QJsonValue.object o, QJsonValue.object o' => sameShapeMembers o o'
  | QJsonValue.array a, QJsonValue.array a' => sameShapeElements a a'
  | QJsonValue.string _, QJsonValue.string _ => true
  | QJsonValue.null, QJsonValue.null => true
  | QJsonValue.bool b, QJsonValue.bool b' => b == b'
  | QJsonValue.double d, QJsonValue.double d' => d == d'
  | QJsonValue.undefined, QJsonValue.undefined => true
  | _, _ => false
/-- The members of two objects have the same keys and values of the same shape,
position by position. -/
def sameShapeMembers : List (String × QJsonValue) → List (String × QJsonValue) → Bool
  | [], [] => true
  | (k, v) :: t, (k', v') :: t' => k == k' && sameShape v v' && sameShapeMembers t t'
  | _, _ => false
/-- The elements of two arrays have the same shape, position by position. -/
def sameShapeElements : List QJsonValue → List QJsonValue → Bool
  | [], [] => true
  | v :: t, v' :: t' => sameShape v v' && sameShapeElements t t'
  | _, _ => false
end

mutual
/-- Whether `p key s` holds of every string leaf `s` of a value, `key` being the
field key under which `_walk` visits the leaf: the key of the nearest enclosing
member, or the key the visit started with. -/
def leavesAll (p : String → String → Bool) : String → QJsonValue → Bool
  | _, QJsonValue.object o => membersAll p o
  | key, QJsonValue.array a => elementsAll p key a
  | key, QJsonValue.string s => p key s
  | _, _ => true
/-- The test `leavesAll` on the members of an object. -/
def membersAll (p : String → String → Bool) : List (String × QJsonValue) → Bool
  | [] => true
  | (k, v) :: t => leavesAll p k v && membersAll p t
/-- The test `leavesAll` on the elements of an array. -/
def elementsAll (p : String → String → Bool) : String → List QJsonValue → Bool
  | _, [] => true
  | key, v :: t => leavesAll p key v && elementsAll p key t
end

/-- A string leaf that is not translatable: its field key is not
`api_complete_time_str` and the line translator returns it as it is. -/
def plainLeaf (P : Platform) (K : KVTranslator) (e : String) (key s : String) : Bool :=
  key != "api_complete_time_str" && (KVTranslator.translateLine P K s e key).1 == s

/-- A string leaf that a visit leaves as it is: `fixTime` returns it unchanged
under the key `api_complete_time_str`, and the line translator does under any
other key. -/
def stableLeaf (P : Platform) (K : KVTranslator) (e : String) (key s : String) : Bool :=
  if key == "api_complete_time_str" then KVTranslator.fixTime P s == s
  else (KVTranslator.translateLine P K s e key).1 == s

/-- The cache holds nothing or an accepted response. -/
def validCache (K : KVTranslator) : Bool :=
  match K.cacheFile with
  | none => true
  | some bytes => accepted bytes

/-- What a `translate` call may do to the engine: nothing, or, when the engine is
in state `loading`, what the fetch completion that wakes the call does. -/
def Settles (P : Platform) (wake : Option QNetworkReply) (K K' : KVTranslator) : Prop :=
  K' = K ∨ (K.state = State.loading
    ∧ ∃ reply, wake = some reply ∧ K' = (KVTranslator.translationRequestFinished P K reply).1)

/-- One step of the engine: a call of `loadTranslation`, a fetch completion, a
call of `translate` that returns, or a call of `translateJson` that returns. -/
inductive Step (P : Platform) : KVTranslator → KVTranslator → Prop where
  | byLoad (K : KVTranslator) (language : String) :
      Step P K (KVTranslator.loadTranslation P K language).1
  | byCompletion (K : KVTranslator) (reply : QNetworkReply) :
      Step P K (KVTranslator.translationRequestFinished P K reply).1
  | byTranslate (K : KVTranslator) (wake : Option QNetworkReply) (line e key out : String)
      (K' : KVTranslator) (ev : List Event)
      (h : KVTranslator.translate P K wake line e key = some (out, K', ev)) : Step P K K'
  | byTranslateJson (K : KVTranslator) (wake : Option QNetworkReply) (json : QByteArray)
      (e : String) (out : QByteArray) (K' : KVTranslator) (ev : List Event)
      (h : KVTranslator.translateJson P K wake json e = some (out, K', ev)) : Step P K K'

/-- A dictionary in which a translation is itself a source text: `Hello` maps to
`Bonjour` and `Bonjour` maps to `Salut`. -/
def chainDictionary : QVariantMap :=
  [("4157704578", QVariant.string "Bonjour"), ("1779157332", QVariant.string "Salut")]

/-- The loaded engine of the scenarios with the dictionary `chainDictionary`. -/
def chainEngine : KVTranslator :=
  { lobbyEngine with translation := chainDictionary }

/-! ### Vocabulary for reading back what the writer wrote -/

/-- The bytes of a list of decimal digits. -/
def digitBytes (ds : List Nat) : QByteArray :=
  ds.map (fun d => UInt8.ofNat (48 + d))

/-- What may follow a value in compact JSON: nothing, a comma, or a closing
bracket or brace. -/
def endsValue : QByteArray → Bool
  | [] => true
  | b :: _ => b == 44 || b == 93 || b == 125

mutual
/-- A value as the JSON parser builds it at nesting depth `depth`: no more than
1024 nested arrays and objects, the members of every object in ascending key
order with no key twice, every number reduced, and no `Undefined`. -/
def wellFormed : Nat → QJsonValue → Prop
  | depth, QJsonValue.object o => depth < 1024 ∧ wellFormedMembers (depth + 1) o
  | depth, QJsonValue.array a => depth < 1024 ∧ wellFormedElements (depth + 1) a
  | _, QJsonValue.double d => Decimal.reduce d.mant d.scale = d
  | _, QJsonValue.undefined => False
  | _, QJsonValue.null => True
  | _, QJsonValue.bool _ => True
  | _, QJsonValue.string _ => True
/-- The members of a well-formed object. -/
def wellFormedMembers : Nat → List (String × QJsonValue) → Prop
  | _, [] => True
  | depth, (k, v) :: t =>
    wellFormed depth v ∧ (∀ m ∈ t, (m.1 == k) = false ∧ keyLt m.1 k = false)
      ∧ wellFormedMembers depth t
/-- The elements of a well-formed array. -/
def wellFormedElements : Nat → List QJsonValue → Prop
  | _, [] => True
  | depth, v :: t => wellFormed depth v ∧ wellFormedElements depth t
end

mutual
/-- The fuel `parseValue` needs to read a value back. -/
def fuelFor : QJsonValue → Nat
  | QJsonValue.object o => fuelForMembers o + 1
  | QJsonValue.array a => fuelForElements a + 1
  | _ => 1
/-- The fuel `parseMembers` needs for the members of an object. -/
def fuelForMembers : List (String × QJsonValue) → Nat
  | [] => 0
  | (_, v) :: t => max (fuelFor v) (fuelForMembers t) + 1
/-- The fuel `parseElements` needs for the elements of an array. -/
def fuelForElements : List QJsonValue → Nat
  | [] => 0
  | v :: t => max (fuelFor v) (fuelForElements t) + 1
end

/-- Whether no translation of the dictionary is itself translated to another
text: for every key of `K.translation` whose value is not null, the text of
that value, unescaped as `translate` does it, is empty, or `-`, or numeric, or
its hash key is absent from the dictionary, or has a null value, or has a value
with the same text. -/
def chainFree (P : Platform) (K : KVTranslator) : Bool :=
  K.translation.all (fun kv =>
    let value := K.translation.value kv.1
    value.isNull ||
      (let realLine := P.unescape value.toString
       let next := K.translation.value (hashKey realLine)
       realLine.data.isEmpty || realLine == "-" || P.toFloatOk realLine
         || next.isNull || next.toString == value.toString))

/-! ## Lemmas on `translateLine` -/

namespace KVTranslator

theorem data_isEmpty_iff (s : String) : s.data.isEmpty = true ↔ s = "" := by
  cases s with
  | mk d =>
    cases d with
    | nil => simp
    | cons c t =>
        simp only [List.isEmpty_cons, Bool.false_eq_true, false_iff]
        intro h
        have := congrArg String.data h
        simp at this

theorem translateLine_placeholder (P : Platform) (K : KVTranslator) (s e k : String)
    (h : P.unescape s = "" ∨ P.unescape s = "-") : translateLine P K s e k = (s, []) := by
  unfold translateLine
  rcases h with h | h <;> simp [h]

theorem translateLine_numeric (P : Platform) (K : KVTranslator) (s e k : String)
    (h : P.toFloatOk (P.unescape s) = true) : translateLine P K s e k = (s, []) := by
  unfold translateLine
  simp [h]

theorem translateLine_blacklisted (P : Platform) (K : KVTranslator) (s e k : String)
    (h : blacklisted K e k = true) : translateLine P K s e k = (s, []) := by
  unfold blacklisted at h
  unfold translateLine
  simp [h]

/-- The dictionary step of `translateLine`, reached by a line that is neither a
placeholder, nor numeric, nor blacklisted. -/
theorem translateLine_lookup (P : Platform) (K : KVTranslator) (s e k : String)
    (hne : P.unescape s ≠ "") (hdash : P.unescape s ≠ "-")
    (hnum : P.toFloatOk (P.unescape s) = false) (hbl : blacklisted K e k = false) :
    translateLine P K s e k =
      match K.translation.lookup (hashKey (P.unescape s)) with
      | some v => (if v.isNull then s else v.toString, [])
      | none =>
        (s, if K.reportUntranslated && !e.data.isEmpty && !K.reportBlacklist.isEmpty
          then [reportRequest (P.unescape s) e] else []) := by
  unfold blacklisted at hbl
  have h1 : (P.unescape s).data.isEmpty = false := by
    cases h : (P.unescape s).data.isEmpty
    · rfl
    · exact absurd ((data_isEmpty_iff _).1 h) hne
  unfold translateLine
  simp only [QVariantMap.value] at hbl
  simp only [h1, hnum, hashKey, QVariantMap.contains, QVariantMap.value]
  cases hl : List.lookup (toString (crc32 0 (toUtf8 (P.unescape s)))) K.translation with
  | none =>
    simp only [hdash, hbl]
    split_ifs <;> simp_all
  | some v => cases hv : v.isNull <;> simp [hdash, hv, hbl]

theorem translationRequestFinished_no_report (P : Platform) (K : KVTranslator)
    (reply : QNetworkReply) : reports (translationRequestFinished P K reply).2 = [] := by
  unfold translationRequestFinished parseTranslationData
  cases reply.error with
  | some msg => simp [reports, Event.isReport]
  | none =>
    simp only
    split_ifs <;> simp [reports, Event.isReport]

end KVTranslator

/-! ## The Line Translator -/

namespace KVTranslator

/-- C1: in state `loaded`, a line whose unescaped text is non-empty, is not `-`,
is not numeric and whose hash key is mapped by the dictionary to the string `t`
is translated to exactly `t` for every endpoint and field key the blacklist
does not list; the engine is left as it was and nothing is reported. -/
theorem translate_present (P : Platform) (K : KVTranslator) (wake : Option QNetworkReply)
    (s e k t : String) (hstate : K.state = State.loaded)
    (hne : P.unescape s ≠ "") (hdash : P.unescape s ≠ "-")
    (hnum : P.toFloatOk (P.unescape s) = false) (hbl : blacklisted K e k = false)
    (hdict : K.translation.lookup (hashKey (P.unescape s)) = some (QVariant.string t)) :
    translate P K wake s e k = some (t, K, []) := by
  unfold translate
  rw [hstate]
  simp only [translateLine_lookup P K s e k hne hdash hnum hbl, hdict]
  simp [QVariant.isNull, QVariant.toString]

/-- Witness of C1: `Hello` under the field `msg` of the endpoint `lobby`. -/
theorem translate_present_witness :
    translate scenarioPlatform lobbyEngine none "Hello" "lobby" "msg"
      = some ("Bonjour", lobbyEngine, []) :=
  translate_present scenarioPlatform lobbyEngine none "Hello" "lobby" "msg" "Bonjour"
    rfl (by decide) (by decide) (by decide) (by decide) (by rfl)

/-- C3: a line that is empty or exactly `-` (and that `unescape` leaves as it is)
is returned unchanged, with no report and no change of the engine, for every
endpoint, field key, dictionary, blacklist and reporting flag, in each of the
states `created`, `loaded` and `failed`. -/
theorem translate_placeholder (P : Platform) (K : KVTranslator) (wake : Option QNetworkReply)
    (s e k : String) (hs : s = "" ∨ s = "-") (hu : P.unescape s = s)
    (hstate : K.state ≠ State.loading) :
    translate P K wake s e k = some (s, K, []) := by
  have hl : translateLine P K s e k = (s, []) :=
    translateLine_placeholder P K s e k (by rw [hu]; exact hs)
  unfold translate
  cases h : K.state with
  | loading => exact absurd h hstate
  | created => rfl
  | failed => rfl
  | loaded => simp [hl]

/-- Witness of C3: the placeholder `-` on the loaded engine of the scenarios. -/
theorem translate_placeholder_witness :
    translate scenarioPlatform lobbyEngine none "-" "lobby" "msg"
      = some ("-", lobbyEngine, []) :=
  translate_placeholder scenarioPlatform lobbyEngine none "-" "lobby" "msg"
    (Or.inr rfl) rfl (by decide)

/-- C4: a line whose unescaped text `toFloat` accepts is returned unchanged and
no report is issued, for every endpoint, field key, dictionary and state; in
state `loading` this is the result once the fetch completion wakes the call. -/
theorem translate_numeric (P : Platform) (K : KVTranslator) (wake : Option QNetworkReply)
    (s e k : String) (hnum : P.toFloatOk (P.unescape s) = true)
    (hwake : K.state = State.loading → wake.isSome = true) :
    ∃ K' ev, translate P K wake s e k = some (s, K', ev) ∧ reports ev = [] := by
  unfold translate
  cases h : K.state with
  | created => exact ⟨K, [], rfl, rfl⟩
  | failed => exact ⟨K, [], rfl, rfl⟩
  | loaded =>
    refine ⟨K, [], ?_, rfl⟩
    simp [translateLine_numeric P K s e k hnum]
  | loading =>
    cases hw : wake with
    | none => simp [hw] at hwake; exact absurd h hwake
    | some reply =>
      refine ⟨(translationRequestFinished P K reply).1,
        (translationRequestFinished P K reply).2, ?_, ?_⟩
      · simp [translateLine_numeric P _ s e k hnum]
      · exact translationRequestFinished_no_report P K reply

/-- Witness of C4: the text `42`, although the dictionary maps its hash. -/
theorem translate_numeric_witness :
    ∃ K' ev,
      translate scenarioPlatform
          { lobbyEngine with translation := [(hashKey "42", QVariant.string "quarante-deux")] }
          none "42" "lobby" "msg" = some ("42", K', ev)
        ∧ reports ev = [] :=
  translate_numeric scenarioPlatform
    { lobbyEngine with translation := [(hashKey "42", QVariant.string "quarante-deux")] }
    none "42" "lobby" "msg" (by decide) (by decide)

/-- C5: in state `loaded`, for every line `s`, when the blacklist lists the field
key `k` for the endpoint `e` the call returns `s` unchanged and issues no
report, whatever the dictionary holds. -/
theorem translate_blacklisted (P : Platform) (K : KVTranslator) (wake : Option QNetworkReply)
    (s e k : String) (hstate : K.state = State.loaded) (hbl : blacklisted K e k = true) :
    translate P K wake s e k = some (s, K, []) := by
  unfold translate
  rw [hstate]
  simp [translateLine_blacklisted P K s e k hbl]

/-- Witness of C5: `Hello` under the blacklisted field `id` of `lobby`. -/
theorem translate_blacklisted_witness :
    translate scenarioPlatform lobbyEngine none "Hello" "lobby" "id"
      = some ("Hello", lobbyEngine, []) :=
  translate_blacklisted scenarioPlatform lobbyEngine none "Hello" "lobby" "id" rfl (by decide)

/-- Counterexample to C6: with `crc32("Hello")` mapped to `Bonjour` and the field
`id` blacklisted for `lobby`, the loaded engine returns `Hello`, not `Bonjour`,
for `Hello` under `id`. -/
theorem translate_blacklisted_not_translated :
    lobbyEngine.state = State.loaded
      ∧ scenarioPlatform.unescape "Hello" = "Hello"
      ∧ lobbyEngine.translation.lookup (hashKey "Hello") = some (QVariant.string "Bonjour")
      ∧ blacklisted lobbyEngine "lobby" "id" = true
      ∧ (translate scenarioPlatform lobbyEngine none "Hello" "lobby" "id").map (fun r => r.1)
          = some "Hello"
      ∧ (translate scenarioPlatform lobbyEngine none "Hello" "lobby" "id").map (fun r => r.1)
          ≠ some "Bonjour" := by
  refine ⟨rfl, rfl, by rfl, by decide, by decide, by decide⟩

/-- C6, amended: the blacklist suppresses translation as well as reporting. In
state `loaded`, a translatable line (non-empty, not `-`, not numeric) whose hash
key the dictionary maps to the string `t` comes back as `t` when the blacklist
does not list `k` for `e`, and comes back unchanged when it does; no report is
issued either way. -/
theorem translate_present_blacklist (P : Platform) (K : KVTranslator)
    (wake : Option QNetworkReply) (s e k t : String) (hstate : K.state = State.loaded)
    (hne : P.unescape s ≠ "") (hdash : P.unescape s ≠ "-")
    (hnum : P.toFloatOk (P.unescape s) = false)
    (hdict : K.translation.lookup (hashKey (P.unescape s)) = some (QVariant.string t)) :
    translate P K wake s e k = some (if blacklisted K e k then s else t, K, []) := by
  unfold translate
  rw [hstate]
  cases hbl : blacklisted K e k with
  | true => simp [translateLine_blacklisted P K s e k hbl]
  | false =>
    simp only [translateLine_lookup P K s e k hne hdash hnum hbl, hdict]
    simp [QVariant.isNull, QVariant.toString]

/-- Witness of C6 as amended: `Hello` under the blacklisted field `id`. -/
theorem translate_present_blacklist_witness :
    translate scenarioPlatform lobbyEngine none "Hello" "lobby" "id"
      = some (if blacklisted lobbyEngine "lobby" "id" then "Hello" else "Bonjour",
          lobbyEngine, []) :=
  translate_present_blacklist scenarioPlatform lobbyEngine none "Hello" "lobby" "id" "Bonjour"
    rfl (by decide) (by decide) (by decide) (by rfl)

/-- C7: in state `loaded`, a line whose unescaped text is non-empty, not `-`, not
numeric, not blacklisted for `(e, k)` and whose hash key is absent from the
dictionary is returned unchanged; the call issues exactly one report, which
posts `value=` followed by the unescaped text to the report address of `e`,
when reporting is enabled, `e` is non-empty and the blacklist mapping is
non-empty, and issues nothing otherwise. -/
theorem translate_absent (P : Platform) (K : KVTranslator) (wake : Option QNetworkReply)
    (s e k : String) (hstate : K.state = State.loaded)
    (hne : P.unescape s ≠ "") (hdash : P.unescape s ≠ "-")
    (hnum : P.toFloatOk (P.unescape s) = false) (hbl : blacklisted K e k = false)
    (hdict : K.translation.lookup (hashKey (P.unescape s)) = none) :
    translate P K wake s e k =
      some (s, K,
        if K.reportUntranslated = true ∧ e ≠ "" ∧ K.reportBlacklist.isEmpty = false then
          [Event.post ("http://api.comeonandsl.am/report/" ++ e)
            "application/x-www-form-urlencoded" (toUtf8 ("value=" ++ P.unescape s))]
        else []) := by
  unfold translate
  rw [hstate]
  simp only [translateLine_lookup P K s e k hne hdash hnum hbl, hdict]
  have he : e.data.isEmpty = true ↔ e = "" := data_isEmpty_iff e
  by_cases h1 : K.reportUntranslated = true <;> by_cases h2 : e = ""
    <;> cases h3 : K.reportBlacklist.isEmpty
    <;> simp [h1, h2, h3, reportRequest]
  all_goals
    intro h
    exact absurd (he.1 (by simpa using h)) h2

/-- Witness of C7: `Nope`, unknown to the dictionary, under `msg` of `lobby`. -/
theorem translate_absent_witness :
    translate scenarioPlatform lobbyEngine none "Nope" "lobby" "msg" =
      some ("Nope", lobbyEngine,
        if lobbyEngine.reportUntranslated = true ∧ "lobby" ≠ ""
            ∧ lobbyEngine.reportBlacklist.isEmpty = false
        then
          [Event.post ("http://api.comeonandsl.am/report/" ++ "lobby")
            "application/x-www-form-urlencoded"
            (toUtf8 ("value=" ++ scenarioPlatform.unescape "Nope"))]
        else []) :=
  translate_absent scenarioPlatform lobbyEngine none "Nope" "lobby" "msg"
    rfl (by decide) (by decide) (by decide) (by decide) (by rfl)

/-- C8: in state `loaded`, a line whose hash key the dictionary maps to an
explicit null is returned unchanged and no report is issued, for every
endpoint, field key and reporting flag. -/
theorem translate_null_entry (P : Platform) (K : KVTranslator) (wake : Option QNetworkReply)
    (s e k : String) (hstate : K.state = State.loaded)
    (hdict : K.translation.lookup (hashKey (P.unescape s)) = some QVariant.null) :
    translate P K wake s e k = some (s, K, []) := by
  unfold translate
  rw [hstate]
  by_cases h1 : P.unescape s = "" ∨ P.unescape s = "-"
  · simp [translateLine_placeholder P K s e k h1]
  · by_cases h2 : P.toFloatOk (P.unescape s) = true
    · simp [translateLine_numeric P K s e k h2]
    · cases hbl : blacklisted K e k with
      | true => simp [translateLine_blacklisted P K s e k hbl]
      | false =>
        have hne : P.unescape s ≠ "" := fun h => h1 (Or.inl h)
        have hdash : P.unescape s ≠ "-" := fun h => h1 (Or.inr h)
        have hnum : P.toFloatOk (P.unescape s) = false := by simpa using h2
        simp only [translateLine_lookup P K s e k hne hdash hnum hbl, hdict]
        simp [QVariant.isNull]

/-- Witness of C8: `Hello` with an explicit-null entry, reporting enabled. -/
theorem translate_null_entry_witness :
    translate scenarioPlatform { lobbyEngine with translation := [(hashKey "Hello", QVariant.null)] }
        none "Hello" "lobby" "msg"
      = some ("Hello", { lobbyEngine with translation := [(hashKey "Hello", QVariant.null)] }, []) :=
  translate_null_entry scenarioPlatform
    { lobbyEngine with translation := [(hashKey "Hello", QVariant.null)] }
    none "Hello" "lobby" "msg" rfl (by rfl)

/-- C9: in state `created` or `failed` the call returns its line at once, for
every line, endpoint and field key: whether or not a fetch completion is on
its way, whatever the dictionary holds, with no event and no change of the
engine. -/
theorem translate_not_ready (P : Platform) (K : KVTranslator) (wake : Option QNetworkReply)
    (s e k : String) (hstate : K.state = State.created ∨ K.state = State.failed) :
    translate P K wake s e k = some (s, K, []) := by
  unfold translate
  rcases hstate with h | h <;> rw [h]

/-- Witness of C9: `translate("Anything", "e", "k")` in state `created`. -/
theorem translate_not_ready_witness :
    translate scenarioPlatform createdEngine none "Anything" "e" "k"
      = some ("Anything", createdEngine, []) :=
  translate_not_ready scenarioPlatform createdEngine none "Anything" "e" "k" (Or.inl rfl)

end KVTranslator

/-! ## Fetch completion -/

namespace KVTranslator

/-- The outcome of `parseTranslationData`, case by case. -/
theorem parseTranslationData_cases (P : Platform) (K : KVTranslator) (data : QByteArray) :
    ((QJsonDocument.fromJson data).2 = false
        ∧ successOf (QJsonDocument.fromJson data).1.toObject = 1
        ∧ parseTranslationData P K data =
          (true,
            { K with
              translation := QJsonValue.toVariantMap
                (((QJsonDocument.fromJson data).1.toObject).value "translation").toObject
              state := State.loaded },
            [Event.loadFinished]))
      ∨ (¬ ((QJsonDocument.fromJson data).2 = false
            ∧ successOf (QJsonDocument.fromJson data).1.toObject = 1)
        ∧ ∃ reason, parseTranslationData P K data =
          (false, { K with state := State.failed }, [Event.loadFailed reason])) := by
  unfold parseTranslationData
  by_cases h : (QJsonDocument.fromJson data).2 = true
  · refine Or.inr ⟨by simp [h], "JSON Error: " ++ P.errorString data, ?_⟩
    simp only [h, if_true]
  · have h' : (QJsonDocument.fromJson data).2 = false := by simpa using h
    by_cases hs : successOf (QJsonDocument.fromJson data).1.toObject = 1
    · refine Or.inl ⟨h', hs, ?_⟩
      simp [h', hs]
    · refine Or.inr ⟨fun c => hs c.2,
        "API Error " ++ toString (successOf (QJsonDocument.fromJson data).1.toObject), ?_⟩
      simp [h', hs]

/-- C10: after a fetch completion the state is `loaded` exactly when the reply
carries no network error, its body is accepted by the JSON parser and the
success flag read from it (the number under `success` cut to an `int`, 0 when
absent or not a number) is 1. In every other case the state is `failed`, one
`loadFailed` signal is the only event, and every later `translate` returns its
line unchanged at once. The body `{"success":0}` is such a case, with the
reason `API Error 0`. -/
theorem translationRequestFinished_state (P : Platform) (K : KVTranslator)
    (reply : QNetworkReply) :
    ((translationRequestFinished P K reply).1.state = State.loaded ↔
        (reply.error = none ∧ (QJsonDocument.fromJson reply.body).2 = false
          ∧ successOf (QJsonDocument.fromJson reply.body).1.toObject = 1))
      ∧ ((translationRequestFinished P K reply).1.state = State.loaded
        ∨ ((translationRequestFinished P K reply).1.state = State.failed
          ∧ (∃ reason, (translationRequestFinished P K reply).2 = [Event.loadFailed reason])
          ∧ ∀ (wake : Option QNetworkReply) (s e k : String),
              translate P (translationRequestFinished P K reply).1 wake s e k
                = some (s, (translationRequestFinished P K reply).1, [])))
      ∧ ((translationRequestFinished P K ⟨none, toUtf8 "\x7b\"success\":0\x7d"⟩).1.state = State.failed
        ∧ (translationRequestFinished P K ⟨none, toUtf8 "\x7b\"success\":0\x7d"⟩).2
            = [Event.loadFailed "API Error 0"]) := by
  have key : ∀ reply : QNetworkReply,
      ((translationRequestFinished P K reply).1.state = State.loaded
          ∧ (reply.error = none ∧ (QJsonDocument.fromJson reply.body).2 = false
            ∧ successOf (QJsonDocument.fromJson reply.body).1.toObject = 1))
        ∨ ((translationRequestFinished P K reply).1.state = State.failed
          ∧ ¬ (reply.error = none ∧ (QJsonDocument.fromJson reply.body).2 = false
            ∧ successOf (QJsonDocument.fromJson reply.body).1.toObject = 1)
          ∧ ∃ reason, (translationRequestFinished P K reply).2 = [Event.loadFailed reason]) := by
    intro reply
    unfold translationRequestFinished
    cases he : reply.error with
    | some msg => exact Or.inr ⟨rfl, by simp, _, rfl⟩
    | none =>
      rcases parseTranslationData_cases P K reply.body with ⟨h1, h2, h3⟩ | ⟨h1, reason, h3⟩
      · refine Or.inl ⟨?_, rfl, h1, h2⟩
        simp only [h3]
        split_ifs <;> rfl
      · refine Or.inr ⟨?_, fun h => h1 h.2, reason, ?_⟩ <;> simp [h3]
  refine ⟨?_, ?_, ?_, ?_⟩
  · rcases key reply with ⟨h1, h2⟩ | ⟨h1, h2, _⟩
    · exact ⟨fun _ => h2, fun _ => h1⟩
    · exact ⟨fun h => absurd (h1.symm.trans h) (by decide), fun h => absurd h h2⟩
  · rcases key reply with ⟨h1, _⟩ | ⟨h1, _, h3⟩
    · exact Or.inl h1
    · refine Or.inr ⟨h1, h3, fun wake s e k => ?_⟩
      unfold translate
      rw [h1]
  · rfl
  · rfl

end KVTranslator

/-! ## The JSON Tree Walker -/

namespace KVTranslator

/-- In state `loaded`, `translate` is `translateLine` and leaves the engine alone. -/
theorem translate_loaded (P : Platform) (K : KVTranslator) (wake : Option QNetworkReply)
    (s e k : String) (hstate : K.state = State.loaded) :
    translate P K wake s e k
      = some ((translateLine P K s e k).1, K, (translateLine P K s e k).2) := by
  unfold translate
  rw [hstate]

/-- Counterexample to C2: on the document `{"msg":"Hello","id":42}` the loaded
engine of the scenarios returns `{"id":42,"msg":"Bonjour"}`: the members come
out in the key order of `QJsonObject`, not in the order of the input. -/
theorem translateJson_hello_order :
    lobbyEngine.state = State.loaded
      ∧ blacklisted lobbyEngine "lobby" "msg" = false
      ∧ (translateJson scenarioPlatform lobbyEngine none
            (toUtf8 "\x7b\"msg\":\"Hello\",\"id\":42\x7d") "lobby").map (fun r => r.1)
          = some (toUtf8 "\x7b\"id\":42,\"msg\":\"Bonjour\"\x7d")
      ∧ (translateJson scenarioPlatform lobbyEngine none
            (toUtf8 "\x7b\"msg\":\"Hello\",\"id\":42\x7d") "lobby").map (fun r => r.1)
          ≠ some (toUtf8 "\x7b\"msg\":\"Bonjour\",\"id\":42\x7d") := by
  refine ⟨rfl, by decide, by decide, by decide⟩

/-- C2, amended: with state `loaded`, a dictionary holding only
`crc32("Hello") -> "Bonjour"` and a blacklist that does not list `msg` for
`lobby`, `translateJson` applied to the bytes `{"msg":"Hello","id":42}` with
endpoint `lobby` returns exactly the bytes `{"id":42,"msg":"Bonjour"}`: the
string leaf is replaced, the number is untouched, and the members come out in
ascending key order. The engine is left as it was and nothing is reported. -/
theorem translateJson_hello (P : Platform) (K : KVTranslator) (wake : Option QNetworkReply)
    (hstate : K.state = State.loaded)
    (hdict : K.translation = [(hashKey "Hello", QVariant.string "Bonjour")])
    (hbl : blacklisted K "lobby" "msg" = false)
    (hu : P.unescape "Hello" = "Hello") (hnum : P.toFloatOk "Hello" = false) :
    translateJson P K wake (toUtf8 "\x7b\"msg\":\"Hello\",\"id\":42\x7d") "lobby"
      = some (toUtf8 "\x7b\"id\":42,\"msg\":\"Bonjour\"\x7d", K, []) := by
  have hline : translateLine P K "Hello" "lobby" "msg" = ("Bonjour", []) := by
    rw [translateLine_lookup P K "Hello" "lobby" "msg" (by rw [hu]; decide) (by rw [hu]; decide)
      (by rw [hu]; exact hnum) hbl, hu, hdict]
    rfl
  have hwalk : _walk P wake K
      (QJsonValue.object [("id", QJsonValue.double ⟨42, 0⟩), ("msg", QJsonValue.string "Hello")])
      "lobby" ""
      = some (QJsonValue.object
          [("id", QJsonValue.double ⟨42, 0⟩), ("msg", QJsonValue.string "Bonjour")], K, []) := by
    have hkey : ("msg" == "api_complete_time_str") = false := by decide
    simp [_walk, walkObject, translate_loaded P K wake _ _ _ hstate, hline, hkey]
  have hstep : translateJson P K wake (toUtf8 "\x7b\"msg\":\"Hello\",\"id\":42\x7d") "lobby"
      = (match _walk P wake K
            (QJsonValue.object
              [("id", QJsonValue.double ⟨42, 0⟩), ("msg", QJsonValue.string "Hello")])
            "lobby" "" with
        | none => none
        | some (val, K, ev) =>
          some (QJsonDocument.toJson (QJsonDocument.object val.toObject), K, ev)) := by
    rfl
  rw [hstep, hwalk]
  rfl

/-- Witness of C2 as amended: the loaded engine of the scenarios. -/
theorem translateJson_hello_witness :
    translateJson scenarioPlatform lobbyEngine none (toUtf8 "\x7b\"msg\":\"Hello\",\"id\":42\x7d") "lobby"
      = some (toUtf8 "\x7b\"id\":42,\"msg\":\"Bonjour\"\x7d", lobbyEngine, []) :=
  translateJson_hello scenarioPlatform lobbyEngine none rfl rfl (by decide) rfl (by decide)

end KVTranslator

/-! ## The dictionary and the cache across a load -/

namespace KVTranslator

/-- The outcome of `parseTranslationData` in terms of `accepted`. -/
theorem parseTranslationData_accepted (P : Platform) (K : KVTranslator) (data : QByteArray) :
    (accepted data = true
        ∧ parseTranslationData P K data =
          (true, { K with translation := dictionaryOf data, state := State.loaded },
            [Event.loadFinished]))
      ∨ (accepted data = false
        ∧ ∃ reason, parseTranslationData P K data =
          (false, { K with state := State.failed }, [Event.loadFailed reason])) := by
  rcases parseTranslationData_cases P K data with ⟨h1, h2, h3⟩ | ⟨h1, reason, h3⟩
  · exact Or.inl ⟨by simp [accepted, h1, h2], h3⟩
  · refine Or.inr ⟨?_, reason, h3⟩
    cases h : accepted data
    · rfl
    · exact absurd (by simpa [accepted] using h) h1

/-- C11: the dictionary is replaced wholesale and only on success. When
`parseTranslationData` accepts a body the dictionary afterwards is exactly the
mapping under `translation` of that body, whatever the dictionary was before;
when it rejects the body the dictionary is the one before. The same holds for
a fetch completion, which also leaves the dictionary as it was on a network
error. -/
theorem parseTranslationData_dictionary (P : Platform) (K : KVTranslator) (data : QByteArray)
    (reply : QNetworkReply) :
    (parseTranslationData P K data).1 = accepted data
      ∧ (parseTranslationData P K data).2.1.translation
          = (if accepted data then dictionaryOf data else K.translation)
      ∧ (translationRequestFinished P K reply).1.translation
          = (if reply.error.isNone && accepted reply.body then dictionaryOf reply.body
            else K.translation) := by
  refine ⟨?_, ?_, ?_⟩
  · rcases parseTranslationData_accepted P K data with ⟨h1, h2⟩ | ⟨h1, _, h2⟩ <;> simp [h1, h2]
  · rcases parseTranslationData_accepted P K data with ⟨h1, h2⟩ | ⟨h1, _, h2⟩ <;> simp [h1, h2]
  · unfold translationRequestFinished
    cases he : reply.error with
    | some msg => simp
    | none =>
      rcases parseTranslationData_accepted P K reply.body with ⟨h1, h2⟩ | ⟨h1, _, h2⟩
      · simp only [h2, h1]
        split_ifs <;> simp_all
      · simp [h1, h2]

/-- C20: with a cache file, `loadTranslation` returns in state `loaded`, holding
the dictionary of the cached bytes and having emitted `loadFinished`, when
those bytes are accepted (JSON with success 1), and otherwise in state
`failed`, having emitted `loadFailed`, with the dictionary unchanged; without a
cache file it returns in state `loading` with the dictionary unchanged. The
fetch request is issued last in every case, so the state on return is
`loading` exactly when there is no cache file. -/
theorem loadTranslation_state (P : Platform) (K : KVTranslator) (language : String) :
    ((loadTranslation P K language).1.state = State.loading ↔ K.cacheFile = none)
      ∧ (match K.cacheFile with
        | some bytes =>
          if accepted bytes then
            (loadTranslation P K language).1.state = State.loaded
              ∧ (loadTranslation P K language).1.translation = dictionaryOf bytes
              ∧ (loadTranslation P K language).2
                  = [Event.loadFinished, Event.get (translationUrl language)]
          else
            (loadTranslation P K language).1.state = State.failed
              ∧ (loadTranslation P K language).1.translation = K.translation
              ∧ ∃ reason, (loadTranslation P K language).2
                  = [Event.loadFailed reason, Event.get (translationUrl language)]
        | none =>
          (loadTranslation P K language).1.translation = K.translation
            ∧ (loadTranslation P K language).2 = [Event.get (translationUrl language)]) := by
  unfold loadTranslation
  cases hc : K.cacheFile with
  | none => simp [hc, translationUrl]
  | some bytes =>
    rcases parseTranslationData_accepted P
        { reportUntranslated := K.reportUntranslated, state := State.loading,
          translation := K.translation, reportBlacklist := K.reportBlacklist,
          cacheFile := some bytes, cacheWritable := K.cacheWritable } bytes
      with ⟨h1, h2⟩ | ⟨h1, reason, h2⟩
    · simp [hc, h1, h2, translationUrl]
    · simp [hc, h1, h2, translationUrl]

end KVTranslator

/-! ## Loading from the cache, and failing afterwards -/

namespace KVTranslator

/-- With an accepted cache file `loadTranslation` only sets the state and the
dictionary. -/
theorem loadTranslation_cached (P : Platform) (K : KVTranslator) (language : String)
    (bytes : QByteArray) (hc : K.cacheFile = some bytes) (ha : accepted bytes = true) :
    (loadTranslation P K language).1
      = { K with state := State.loaded, translation := dictionaryOf bytes } := by
  unfold loadTranslation
  rcases parseTranslationData_accepted P { K with state := State.loading } bytes
    with ⟨_, h2⟩ | ⟨h1, _, _⟩
  · simp only [hc]
    rw [← hc, h2]
  · rw [ha] at h1
    cases h1

/-- Counterexample to C13: the cache holds a validated response that maps the
hash of `Hello` to `Bonjour`; after `loadTranslation` and a fetch that ends in
a network error, `translate` returns `Hello`, although the dictionary in
memory still maps its hash to `Bonjour`. -/
theorem translate_after_offline_fetch :
    accepted helloBody = true
      ∧ ((translationRequestFinished scenarioPlatform
            (loadTranslation scenarioPlatform cachedEngine "en").1 offlineReply).1.translation.lookup
            (hashKey "Hello")).map QVariant.toString = some "Bonjour"
      ∧ blacklisted (translationRequestFinished scenarioPlatform
            (loadTranslation scenarioPlatform cachedEngine "en").1 offlineReply).1 "lobby" "msg"
          = false
      ∧ (translate scenarioPlatform
            (translationRequestFinished scenarioPlatform
              (loadTranslation scenarioPlatform cachedEngine "en").1 offlineReply).1
            none "Hello" "lobby" "msg").map (fun r => (r.1, r.2.2)) = some ("Hello", [])
      ∧ (translate scenarioPlatform
            (translationRequestFinished scenarioPlatform
              (loadTranslation scenarioPlatform cachedEngine "en").1 offlineReply).1
            none "Hello" "lobby" "msg").map (fun r => r.1) ≠ some "Bonjour" := by
  refine ⟨by decide, by decide, by decide, by decide, by decide⟩

/-- C13, amended: when `loadTranslation` finds a cache file holding an accepted
response whose dictionary maps the hash of a translatable line `s` to the
string `t`, a `translate(s, e, k)` for a non-blacklisted `(e, k)` returns `t`
for as long as the fetch has not completed; once the fetch completes with a
network error the state is `failed` and `translate(s, e, k)` returns `s`
unchanged, although the dictionary in memory is still the cached one. -/
theorem translate_cached_then_offline (P : Platform) (K : KVTranslator) (language : String)
    (bytes : QByteArray) (reply : QNetworkReply) (msg : String) (wake : Option QNetworkReply)
    (s e k t : String) (hc : K.cacheFile = some bytes) (ha : accepted bytes = true)
    (hdict : (dictionaryOf bytes).lookup (hashKey (P.unescape s)) = some (QVariant.string t))
    (hne : P.unescape s ≠ "") (hdash : P.unescape s ≠ "-")
    (hnum : P.toFloatOk (P.unescape s) = false) (hbl : blacklisted K e k = false)
    (herr : reply.error = some msg) :
    translate P (loadTranslation P K language).1 wake s e k
        = some (t, (loadTranslation P K language).1, [])
      ∧ (translationRequestFinished P (loadTranslation P K language).1 reply).1.state
          = State.failed
      ∧ (translationRequestFinished P (loadTranslation P K language).1 reply).1.translation
          = dictionaryOf bytes
      ∧ translate P (translationRequestFinished P (loadTranslation P K language).1 reply).1
            wake s e k
          = some (s, (translationRequestFinished P (loadTranslation P K language).1 reply).1,
              []) := by
  rw [loadTranslation_cached P K language bytes hc ha]
  have hfin : translationRequestFinished P
      { K with state := State.loaded, translation := dictionaryOf bytes } reply
      = ({ K with state := State.failed, translation := dictionaryOf bytes },
          [Event.loadFailed ("Network Error: " ++ msg)]) := by
    unfold translationRequestFinished
    rw [herr]
  refine ⟨?_, ?_, ?_, ?_⟩
  · have hbl' : blacklisted { K with state := State.loaded, translation := dictionaryOf bytes }
        e k = false := hbl
    rw [translate_loaded P _ wake s e k rfl,
      translateLine_lookup P _ s e k hne hdash hnum hbl']
    simp only [hdict]
    simp [QVariant.isNull, QVariant.toString]
  · rw [hfin]
  · rw [hfin]
  · rw [hfin]
    rfl

/-- Witness of C13 as amended: the engine whose cache holds `helloBody`. -/
theorem translate_cached_then_offline_witness :
    translate scenarioPlatform (loadTranslation scenarioPlatform cachedEngine "en").1 none
          "Hello" "lobby" "msg"
        = some ("Bonjour", (loadTranslation scenarioPlatform cachedEngine "en").1, [])
      ∧ (translationRequestFinished scenarioPlatform
            (loadTranslation scenarioPlatform cachedEngine "en").1 offlineReply).1.state
          = State.failed
      ∧ (translationRequestFinished scenarioPlatform
            (loadTranslation scenarioPlatform cachedEngine "en").1 offlineReply).1.translation
          = dictionaryOf helloBody
      ∧ translate scenarioPlatform
            (translationRequestFinished scenarioPlatform
              (loadTranslation scenarioPlatform cachedEngine "en").1 offlineReply).1
            none "Hello" "lobby" "msg"
          = some ("Hello",
              (translationRequestFinished scenarioPlatform
                (loadTranslation scenarioPlatform cachedEngine "en").1 offlineReply).1, []) :=
  translate_cached_then_offline scenarioPlatform cachedEngine "en" helloBody offlineReply
    "Host not found" none "Hello" "lobby" "msg" "Bonjour" rfl (by decide) (by rfl)
    (by decide) (by decide) (by decide) (by decide) rfl

/-- The code at the failing input of C19. An engine is put in state `loading` by
`loadTranslation` without a cache file, and a `translate` call is woken by a
fetch completion that carries a network error. From a fresh engine the call
goes on to report `Hello` as untranslated; from an engine that held the
dictionary of the scenarios it returns the translation `Bonjour`. In both
cases the engine is left in state `failed`, and a call made in that state
returns its line with no event. -/
theorem translate_woken_by_failure :
    (loadTranslation scenarioPlatform freshEngine "en").1.state = State.loading
      ∧ (translate scenarioPlatform (loadTranslation scenarioPlatform freshEngine "en").1
            (some offlineReply) "Hello" "lobby" "msg").map (fun r => (r.1, r.2.1.state, r.2.2))
          = some ("Hello", State.failed,
              [Event.loadFailed "Network Error: Host not found",
                reportRequest "Hello" "lobby"])
      ∧ (loadTranslation scenarioPlatform uncachedEngine "en").1.state = State.loading
      ∧ (translate scenarioPlatform (loadTranslation scenarioPlatform uncachedEngine "en").1
            (some offlineReply) "Hello" "lobby" "msg").map (fun r => (r.1, r.2.1.state, r.2.2))
          = some ("Bonjour", State.failed, [Event.loadFailed "Network Error: Host not found"])
      ∧ (translate scenarioPlatform
            (translationRequestFinished scenarioPlatform
              (loadTranslation scenarioPlatform uncachedEngine "en").1 offlineReply).1
            none "Hello" "lobby" "msg").map (fun r => (r.1, r.2.1.state, r.2.2))
          = some ("Hello", State.failed, []) := by
  refine ⟨rfl, by decide, rfl, by decide, by decide⟩

end KVTranslator

/-! ## `translateJson` on its framing, and on input that is not JSON -/

namespace KVTranslator

/-- The steps of `translateJson`: the payload is parsed, the object of the document
is visited, and the visited object is written after the framing. -/
theorem translateJson_eq (P : Platform) (K : KVTranslator) (wake : Option QNetworkReply)
    (json : QByteArray) (e : String) :
    translateJson P K wake json e =
      match _walk P wake K
          (QJsonValue.object (QJsonDocument.fromJson (payload json)).1.toObject) e "" with
      | none => none
      | some (val, K', ev) =>
        some (framing json ++ valueToJson (QJsonValue.object val.toObject), K', ev) := by
  unfold translateJson payload framing hasPrefix
  have hb : (match json with
      | 0xEF :: 0xBB :: 0xBF :: t => t
      | _ => json) = stripBom json := by
    unfold stripBom
    split <;> rfl
  simp only [hb]
  cases _walk P wake K
      (QJsonValue.object (QJsonDocument.fromJson
        (List.drop (if (toUtf8 "svdata=").isPrefixOf (stripBom json) = true then 7 else 0)
          (stripBom json))).1.toObject) e "" with
  | none => rfl
  | some r =>
    obtain ⟨val, K', ev⟩ := r
    by_cases h : (toUtf8 "svdata=").isPrefixOf (stripBom json) = true
    · simp [h, QJsonDocument.toJson]
    · simp [h, QJsonDocument.toJson]

/-- On a payload the JSON parser rejects, `translateJson` returns the empty
object after the framing. -/
theorem translateJson_rejected (P : Platform) (K : KVTranslator) (wake : Option QNetworkReply)
    (json : QByteArray) (e : String) (h : (QJsonDocument.fromJson (payload json)).2 = true) :
    translateJson P K wake json e = some (framing json ++ toUtf8 "\x7b\x7d", K, []) := by
  have hdoc : (QJsonDocument.fromJson (payload json)).1 = QJsonDocument.null := by
    unfold QJsonDocument.fromJson at h ⊢
    split at h <;> simp_all
  rw [translateJson_eq, hdoc]
  rfl

/-- The code at the failing input of C14. The bytes `not json` are rejected by the
JSON parser and `translateJson` returns `{}` for them, not the input; for
`svdata=oops` it returns `svdata={}`, and for the cut-off document
`{"msg":"Hello"` it returns `{}`. -/
theorem translateJson_not_json :
    (QJsonDocument.fromJson (payload (toUtf8 "not json"))).2 = true
      ∧ (translateJson scenarioPlatform lobbyEngine none (toUtf8 "not json") "lobby").map
          (fun r => r.1) = some (toUtf8 "\x7b\x7d")
      ∧ toUtf8 "\x7b\x7d" ≠ toUtf8 "not json"
      ∧ (QJsonDocument.fromJson (payload (toUtf8 "svdata=oops"))).2 = true
      ∧ (translateJson scenarioPlatform lobbyEngine none (toUtf8 "svdata=oops") "lobby").map
          (fun r => r.1) = some (toUtf8 "svdata=\x7b\x7d")
      ∧ (QJsonDocument.fromJson (payload (toUtf8 "\x7b\"msg\":\"Hello\""))).2 = true
      ∧ (translateJson scenarioPlatform lobbyEngine none (toUtf8 "\x7b\"msg\":\"Hello\"")
          "lobby").map (fun r => r.1) = some (toUtf8 "\x7b\x7d") := by
  refine ⟨by decide, by decide, by decide, by decide, by decide, by decide, by decide⟩

/-! ## The timestamp fixup -/

/-- In `fixTime` the date-time that is written is the parsed one: the result of
`addSecs` is not used. -/
theorem fixTime_eq (P : Platform) (time : String) :
    fixTime P time =
      if (P.dateFromString time).valid then P.dateToString (P.dateFromString time).toLocalTime
      else time := by
  unfold fixTime
  by_cases h : (P.dateFromString time).valid = true <;> simp [h]

/-- The code at the failing input of C17. On the platform with the calendar,
the text `2020-01-01 12:00:00` matches the pattern and the date-time 32400
seconds earlier is written `2020-01-01 03:00:00`, but `fixTime` returns
`2020-01-01 12:00:00`, and the walker returns the member
`api_complete_time_str` of a document with that value unchanged. A text that
does not match the pattern is returned unchanged. -/
theorem fixTime_no_offset :
    (calendarPlatform.dateFromString "2020-01-01 12:00:00").valid = true
      ∧ calendarPlatform.dateToString
          (((calendarPlatform.dateFromString "2020-01-01 12:00:00").addSecs (-32400)).toLocalTime)
          = "2020-01-01 03:00:00"
      ∧ fixTime calendarPlatform "2020-01-01 12:00:00" = "2020-01-01 12:00:00"
      ∧ (translateJson calendarPlatform lobbyEngine none
            (toUtf8 "\x7b\"api_complete_time_str\":\"2020-01-01 12:00:00\"\x7d") "lobby").map
          (fun r => r.1)
          = some (toUtf8 "\x7b\"api_complete_time_str\":\"2020-01-01 12:00:00\"\x7d")
      ∧ fixTime calendarPlatform "tomorrow" = "tomorrow" := by
  refine ⟨by decide, by decide, by decide, by decide, by decide⟩

end KVTranslator

/-! ## Lemmas on the walker -/

namespace KVTranslator

/-- A fetch completion never leaves the engine in state `loading`. -/
theorem translationRequestFinished_settled (P : Platform) (K : KVTranslator)
    (reply : QNetworkReply) :
    (translationRequestFinished P K reply).1.state ≠ State.loading := by
  unfold translationRequestFinished
  cases reply.error with
  | some msg => simp
  | none =>
    rcases parseTranslationData_accepted P K reply.body with ⟨_, h⟩ | ⟨_, _, h⟩
    · simp only [h]
      split_ifs <;> simp
    · simp [h]

theorem settles_refl (P : Platform) (wake : Option QNetworkReply) (K : KVTranslator) :
    Settles P wake K K :=
  Or.inl rfl

theorem settles_trans {P : Platform} {wake : Option QNetworkReply} {K K1 K2 : KVTranslator}
    (h1 : Settles P wake K K1) (h2 : Settles P wake K1 K2) : Settles P wake K K2 := by
  rcases h1 with rfl | ⟨hs, reply, hw, rfl⟩
  · exact h2
  · rcases h2 with rfl | ⟨hs', _⟩
    · exact Or.inr ⟨hs, reply, hw, rfl⟩
    · exact absurd hs' (translationRequestFinished_settled P K reply)

/-- From a state other than `loading` the engine is not changed. -/
theorem settles_eq {P : Platform} {wake : Option QNetworkReply}
    {K K' : KVTranslator} (h : Settles P wake K K') (hs : K.state ≠ State.loading) : K' = K := by
  rcases h with rfl | ⟨hs', _⟩
  · rfl
  · exact absurd hs' hs

/-- Once the engine is not in state `loading`, or a fetch completion is at hand,
the same holds after any call. -/
theorem settles_wakeable {P : Platform} {wake : Option QNetworkReply} {K K' : KVTranslator}
    (h : Settles P wake K K') (hw : K.state = State.loading → wake.isSome = true) :
    K'.state = State.loading → wake.isSome = true := by
  rcases h with rfl | ⟨_, reply, _, rfl⟩
  · exact hw
  · intro hs
    exact absurd hs (translationRequestFinished_settled P K reply)

theorem translate_settles (P : Platform) (K : KVTranslator) (wake : Option QNetworkReply)
    (s e k : String) (r : String × KVTranslator × List Event)
    (h : translate P K wake s e k = some r) : Settles P wake K r.2.1 := by
  unfold translate at h
  cases hs : K.state with
  | created => simp [hs] at h; subst h; exact Or.inl rfl
  | failed => simp [hs] at h; subst h; exact Or.inl rfl
  | loaded => simp [hs] at h; subst h; exact Or.inl rfl
  | loading =>
    cases hw : wake with
    | none => simp [hs, hw] at h
    | some reply =>
      simp [hs, hw] at h
      subst h
      exact Or.inr ⟨hs, reply, rfl, rfl⟩

theorem translate_total (P : Platform) (K : KVTranslator) (wake : Option QNetworkReply)
    (s e k : String) (hw : K.state = State.loading → wake.isSome = true) :
    ∃ r, translate P K wake s e k = some r := by
  unfold translate
  cases hs : K.state with
  | created => exact ⟨_, rfl⟩
  | failed => exact ⟨_, rfl⟩
  | loaded => exact ⟨_, rfl⟩
  | loading =>
    cases hwk : wake with
    | none => simp [hs, hwk] at hw
    | some reply => exact ⟨_, rfl⟩

mutual
/-- A visit that returns has changed the engine at most by the fetch completion
that woke it, and returns a value of the shape of the one visited. -/
theorem walk_returns (P : Platform) (wake : Option QNetworkReply) (e : String) :
    ∀ (v : QJsonValue) (K : KVTranslator) (key : String)
      (r : QJsonValue × KVTranslator × List Event),
      _walk P wake K v e key = some r → Settles P wake K r.2.1 ∧ sameShape v r.1 = true
  | QJsonValue.object o, K, key, r, h => by
    cases ho : walkObject P wake K o e with
    | none => simp [_walk, ho] at h
    | some ro =>
      obtain ⟨o', K', ev⟩ := ro
      simp [_walk, ho] at h
      subst h
      have ih := walkObject_returns P wake e o K _ ho
      exact ⟨ih.1, by simpa [sameShape] using ih.2⟩
  | QJsonValue.array a, K, key, r, h => by
    cases ha : walkArray P wake K a e key with
    | none => simp [_walk, ha] at h
    | some ra =>
      obtain ⟨a', K', ev⟩ := ra
      simp [_walk, ha] at h
      subst h
      have ih := walkArray_returns P wake e a K key _ ha
      exact ⟨ih.1, by simpa [sameShape] using ih.2⟩
  | QJsonValue.string s, K, key, r, h => by
    by_cases hk : key = "api_complete_time_str"
    · simp [_walk, hk] at h
      subst h
      exact ⟨Or.inl rfl, by simp [sameShape]⟩
    · cases ht : translate P K wake s e key with
      | none => simp [_walk, hk, ht] at h
      | some rt =>
        obtain ⟨t, K', ev⟩ := rt
        simp [_walk, hk, ht] at h
        subst h
        exact ⟨translate_settles P K wake s e key _ ht, by simp [sameShape]⟩
  | QJsonValue.null, K, _, r, h => by
    simp [_walk] at h
    subst h
    exact ⟨Or.inl rfl, by simp [sameShape]⟩
  | QJsonValue.bool b, K, _, r, h => by
    simp [_walk] at h
    subst h
    exact ⟨Or.inl rfl, by simp [sameShape]⟩
  | QJsonValue.double d, K, _, r, h => by
    simp [_walk] at h
    subst h
    exact ⟨Or.inl rfl, by simp [sameShape]⟩
  | QJsonValue.undefined, K, _, r, h => by
    simp [_walk] at h
    subst h
    exact ⟨Or.inl rfl, by simp [sameShape]⟩
/-- The statement of `walk_returns` for the loop over the members of an object. -/
theorem walkObject_returns (P : Platform) (wake : Option QNetworkReply) (e : String) :
    ∀ (o : List (String × QJsonValue)) (K : KVTranslator)
      (r : List (String × QJsonValue) × KVTranslator × List Event),
      walkObject P wake K o e = some r → Settles P wake K r.2.1 ∧ sameShapeMembers o r.1 = true
  | [], K, r, h => by
    simp [walkObject] at h
    subst h
    exact ⟨Or.inl rfl, by simp [sameShapeMembers]⟩
  | (k, v) :: t, K, r, h => by
    cases hv : _walk P wake K v e k with
    | none => simp [walkObject, hv] at h
    | some rv =>
      obtain ⟨v', K1, ev1⟩ := rv
      cases ht : walkObject P wake K1 t e with
      | none => simp [walkObject, hv, ht] at h
      | some rt =>
        obtain ⟨t', K2, ev2⟩ := rt
        simp [walkObject, hv, ht] at h
        subst h
        have ih1 := walk_returns P wake e v K k _ hv
        have ih2 := walkObject_returns P wake e t K1 _ ht
        exact ⟨settles_trans ih1.1 ih2.1, by simp [sameShapeMembers, ih1.2, ih2.2]⟩
/-- The statement of `walk_returns` for the loop over the elements of an array. -/
theorem walkArray_returns (P : Platform) (wake : Option QNetworkReply) (e : String) :
    ∀ (a : List QJsonValue) (K : KVTranslator) (key : String)
      (r : List QJsonValue × KVTranslator × List Event),
      walkArray P wake K a e key = some r → Settles P wake K r.2.1 ∧ sameShapeElements a r.1 = true
  | [], K, _, r, h => by
    simp [walkArray] at h
    subst h
    exact ⟨Or.inl rfl, by simp [sameShapeElements]⟩
  | v :: t, K, key, r, h => by
    cases hv : _walk P wake K v e key with
    | none => simp [walkArray, hv] at h
    | some rv =>
      obtain ⟨v', K1, ev1⟩ := rv
      cases ht : walkArray P wake K1 t e key with
      | none => simp [walkArray, hv, ht] at h
      | some rt =>
        obtain ⟨t', K2, ev2⟩ := rt
        simp [walkArray, hv, ht] at h
        subst h
        have ih1 := walk_returns P wake e v K key _ hv
        have ih2 := walkArray_returns P wake e t K1 key _ ht
        exact ⟨settles_trans ih1.1 ih2.1, by simp [sameShapeElements, ih1.2, ih2.2]⟩
end

end KVTranslator

namespace KVTranslator

mutual
/-- A visit returns when the engine is not in state `loading` or a fetch
completion is at hand to wake it. -/
theorem walk_total (P : Platform) (wake : Option QNetworkReply) (e : String) :
    ∀ (v : QJsonValue) (K : KVTranslator) (key : String),
      (K.state = State.loading → wake.isSome = true) → ∃ r, _walk P wake K v e key = some r
  | QJsonValue.object o, K, _, hw => by
    obtain ⟨ro, ho⟩ := walkObject_total P wake e o K hw
    exact ⟨(QJsonValue.object ro.1, ro.2.1, ro.2.2), by simp [_walk, ho]⟩
  | QJsonValue.array a, K, key, hw => by
    obtain ⟨ra, ha⟩ := walkArray_total P wake e a K key hw
    exact ⟨(QJsonValue.array ra.1, ra.2.1, ra.2.2), by simp [_walk, ha]⟩
  | QJsonValue.string s, K, key, hw => by
    by_cases hk : key = "api_complete_time_str"
    · exact ⟨(QJsonValue.string (fixTime P s), K, []), by simp [_walk, hk]⟩
    · obtain ⟨rt, ht⟩ := translate_total P K wake s e key hw
      exact ⟨(QJsonValue.string rt.1, rt.2.1, rt.2.2), by simp [_walk, hk, ht]⟩
  | QJsonValue.null, K, _, _ => ⟨(QJsonValue.null, K, []), by simp [_walk]⟩
  | QJsonValue.bool b, K, _, _ => ⟨(QJsonValue.bool b, K, []), by simp [_walk]⟩
  | QJsonValue.double d, K, _, _ => ⟨(QJsonValue.double d, K, []), by simp [_walk]⟩
  | QJsonValue.undefined, K, _, _ => ⟨(QJsonValue.undefined, K, []), by simp [_walk]⟩
/-- The statement of `walk_total` for the loop over the members of an object. -/
theorem walkObject_total (P : Platform) (wake : Option QNetworkReply) (e : String) :
    ∀ (o : List (String × QJsonValue)) (K : KVTranslator),
      (K.state = State.loading → wake.isSome = true) → ∃ r, walkObject P wake K o e = some r
  | [], K, _ => ⟨([], K, []), by simp [walkObject]⟩
  | (k, v) :: t, K, hw => by
    obtain ⟨rv, hv⟩ := walk_total P wake e v K k hw
    have hw1 := settles_wakeable (walk_returns P wake e v K k rv hv).1 hw
    obtain ⟨rt, ht⟩ := walkObject_total P wake e t rv.2.1 hw1
    exact ⟨((k, rv.1) :: rt.1, rt.2.1, rv.2.2 ++ rt.2.2), by simp [walkObject, hv, ht]⟩
/-- The statement of `walk_total` for the loop over the elements of an array. -/
theorem walkArray_total (P : Platform) (wake : Option QNetworkReply) (e : String) :
    ∀ (a : List QJsonValue) (K : KVTranslator) (key : String),
      (K.state = State.loading → wake.isSome = true) → ∃ r, walkArray P wake K a e key = some r
  | [], K, _, _ => ⟨([], K, []), by simp [walkArray]⟩
  | v :: t, K, key, hw => by
    obtain ⟨rv, hv⟩ := walk_total P wake e v K key hw
    have hw1 := settles_wakeable (walk_returns P wake e v K key rv hv).1 hw
    obtain ⟨rt, ht⟩ := walkArray_total P wake e t rv.2.1 key hw1
    exact ⟨(rv.1 :: rt.1, rt.2.1, rv.2.2 ++ rt.2.2), by simp [walkArray, hv, ht]⟩
end

/-- In a state other than `loading` a visit returns and leaves the engine as it
was. -/
theorem walk_settled (P : Platform) (wake : Option QNetworkReply) (K : KVTranslator)
    (e : String) (v : QJsonValue) (key : String) (hs : K.state ≠ State.loading) :
    ∃ v' ev, _walk P wake K v e key = some (v', K, ev) := by
  obtain ⟨r, hr⟩ := walk_total P wake e v K key (fun h => absurd h hs)
  have hK := settles_eq (walk_returns P wake e v K key r hr).1 hs
  obtain ⟨v', K', ev⟩ := r
  simp only at hK
  subst hK
  exact ⟨v', ev, hr⟩

theorem sameShapeMembers_keys :
    ∀ (o o' : List (String × QJsonValue)), sameShapeMembers o o' = true →
      o'.map Prod.fst = o.map Prod.fst
  | [], [], _ => rfl
  | [], _ :: _, h => by simp [sameShapeMembers] at h
  | _ :: _, [], h => by simp [sameShapeMembers] at h
  | (k, v) :: t, (k', v') :: t', h => by
    simp [sameShapeMembers] at h
    simp [h.1.1, sameShapeMembers_keys t t' h.2]

theorem sameShapeElements_length :
    ∀ (a a' : List QJsonValue), sameShapeElements a a' = true → a'.length = a.length
  | [], [], _ => rfl
  | [], _ :: _, h => by simp [sameShapeElements] at h
  | _ :: _, [], h => by simp [sameShapeElements] at h
  | v :: t, v' :: t', h => by
    simp [sameShapeElements] at h
    simp [sameShapeElements_length t t' h.2]

/-- In a state other than `loading` the loop over the members of an object gives
each member, under its key, the visit of its value. -/
theorem walkObject_members (P : Platform) (wake : Option QNetworkReply) (K : KVTranslator)
    (e : String) (hs : K.state ≠ State.loading) :
    ∀ (o o' : List (String × QJsonValue)) (K' : KVTranslator) (ev : List Event),
      walkObject P wake K o e = some (o', K', ev) →
      List.Forall₂
        (fun m m' => m'.1 = m.1 ∧ ∃ ev, _walk P wake K m.2 e m.1 = some (m'.2, K, ev)) o o'
  | [], o', K', ev, h => by
    simp [walkObject] at h
    obtain ⟨h1, _⟩ := h
    subst h1
    exact List.Forall₂.nil
  | (k, v) :: t, o', K', ev, h => by
    obtain ⟨v', ev1, hv⟩ := walk_settled P wake K e v k hs
    cases ht : walkObject P wake K t e with
    | none => simp [walkObject, hv, ht] at h
    | some rt =>
      obtain ⟨t', K2, ev2⟩ := rt
      simp [walkObject, hv, ht] at h
      rw [h.1.symm]
      exact List.Forall₂.cons ⟨rfl, ev1, hv⟩ (walkObject_members P wake K e hs t t' K2 ev2 ht)

/-- In a state other than `loading` the loop over the elements of an array gives
each element its visit under the key of the array. -/
theorem walkArray_elements (P : Platform) (wake : Option QNetworkReply) (K : KVTranslator)
    (e key : String) (hs : K.state ≠ State.loading) :
    ∀ (a a' : List QJsonValue) (K' : KVTranslator) (ev : List Event),
      walkArray P wake K a e key = some (a', K', ev) →
      List.Forall₂ (fun x x' => ∃ ev, _walk P wake K x e key = some (x', K, ev)) a a'
  | [], a', K', ev, h => by
    simp [walkArray] at h
    obtain ⟨h1, _⟩ := h
    subst h1
    exact List.Forall₂.nil
  | v :: t, a', K', ev, h => by
    obtain ⟨v', ev1, hv⟩ := walk_settled P wake K e v key hs
    cases ht : walkArray P wake K t e key with
    | none => simp [walkArray, hv, ht] at h
    | some rt =>
      obtain ⟨t', K2, ev2⟩ := rt
      simp [walkArray, hv, ht] at h
      rw [h.1.symm]
      exact List.Forall₂.cons ⟨ev1, hv⟩ (walkArray_elements P wake K e key hs t t' K2 ev2 ht)

end KVTranslator

/-! ## The shape of a visited value -/

namespace KVTranslator

/-- C18: `_walk` preserves shape, for every value, engine, endpoint and key. The
visit returns (when the engine is not in state `loading`, or a fetch completion
is at hand to wake the call) a value of the same shape: a string yields a
string; a number, a boolean and null are returned equal to the input; an
object yields an object with the same member keys in the same order; an array
yields an array of the same length. When the engine is not in state `loading`,
each member's value is the `_walk` of the original value under that member's
key, and each element of an array is the `_walk` of the original element under
the key the array was visited with. -/
theorem walk_preserves_shape (P : Platform) (wake : Option QNetworkReply) (K : KVTranslator)
    (v : QJsonValue) (e key : String)
    (hwake : K.state = State.loading → wake.isSome = true) :
    ∃ v' K' ev, _walk P wake K v e key = some (v', K', ev) ∧ sameShape v v' = true
      ∧ (∀ s, v = QJsonValue.string s → ∃ t, v' = QJsonValue.string t)
      ∧ ((∀ s, v ≠ QJsonValue.string s) → (∀ a, v ≠ QJsonValue.array a)
          → (∀ o, v ≠ QJsonValue.object o) → v' = v)
      ∧ (∀ o, v = QJsonValue.object o →
          ∃ o', v' = QJsonValue.object o' ∧ o'.map Prod.fst = o.map Prod.fst
            ∧ (K.state ≠ State.loading →
              List.Forall₂
                (fun m m' => m'.1 = m.1 ∧ ∃ ev, _walk P wake K m.2 e m.1 = some (m'.2, K, ev))
                o o'))
      ∧ (∀ a, v = QJsonValue.array a →
          ∃ a', v' = QJsonValue.array a' ∧ a'.length = a.length
            ∧ (K.state ≠ State.loading →
              List.Forall₂ (fun x x' => ∃ ev, _walk P wake K x e key = some (x', K, ev))
                a a')) := by
  obtain ⟨r, hr⟩ := walk_total P wake e v K key hwake
  obtain ⟨v', K', ev⟩ := r
  have hshape : sameShape v v' = true := (walk_returns P wake e v K key _ hr).2
  refine ⟨v', K', ev, hr, hshape, ?_, ?_, ?_, ?_⟩
  · intro s hv
    subst hv
    cases v' <;> simp [sameShape] at hshape
    exact ⟨_, rfl⟩
  · intro h1 h2 h3
    cases v with
    | string s => exact absurd rfl (h1 s)
    | array a => exact absurd rfl (h2 a)
    | object o => exact absurd rfl (h3 o)
    | null => simp [_walk] at hr; exact hr.1.symm
    | bool b => simp [_walk] at hr; exact hr.1.symm
    | double d => simp [_walk] at hr; exact hr.1.symm
    | undefined => simp [_walk] at hr; exact hr.1.symm
  · intro o hv
    subst hv
    cases ho : walkObject P wake K o e with
    | none => simp [_walk, ho] at hr
    | some ro =>
      obtain ⟨o', K1, ev1⟩ := ro
      simp [_walk, ho] at hr
      obtain ⟨h1, h2, h3⟩ := hr
      subst h1 h2 h3
      refine ⟨o', rfl, sameShapeMembers_keys o o' (by simpa [sameShape] using hshape), ?_⟩
      intro hs
      exact walkObject_members P wake K e hs o o' _ _ ho
  · intro a hv
    subst hv
    cases ha : walkArray P wake K a e key with
    | none => simp [_walk, ha] at hr
    | some ra =>
      obtain ⟨a', K1, ev1⟩ := ra
      simp [_walk, ha] at hr
      obtain ⟨h1, h2, h3⟩ := hr
      subst h1 h2 h3
      refine ⟨a', rfl, sameShapeElements_length a a' (by simpa [sameShape] using hshape), ?_⟩
      intro hs
      exact walkArray_elements P wake K e key hs a a' _ _ ha

/-- Witness of C18: the object with the members `id` and `msg` on the loaded
engine of the scenarios. -/
theorem walk_preserves_shape_witness :
    ∃ v' K' ev,
      _walk scenarioPlatform none lobbyEngine
          (QJsonValue.object [("id", QJsonValue.string "Hello"),
            ("msg", QJsonValue.array [QJsonValue.string "Hello", QJsonValue.double ⟨7, 0⟩])])
          "lobby" "" = some (v', K', ev)
        ∧ sameShape
          (QJsonValue.object [("id", QJsonValue.string "Hello"),
            ("msg", QJsonValue.array [QJsonValue.string "Hello", QJsonValue.double ⟨7, 0⟩])])
          v' = true :=
  (walk_preserves_shape scenarioPlatform none lobbyEngine
    (QJsonValue.object [("id", QJsonValue.string "Hello"),
      ("msg", QJsonValue.array [QJsonValue.string "Hello", QJsonValue.double ⟨7, 0⟩])])
    "lobby" "" (by decide)).imp
    (fun _ h => h.imp (fun _ h => h.imp (fun _ h => ⟨h.1, h.2.1⟩)))

end KVTranslator

/-! ## Documents whose leaves a visit leaves alone -/

namespace KVTranslator

mutual
/-- When every string leaf that satisfies `p` is returned as it is, a value all of
whose leaves satisfy `p` is returned as it is. -/
theorem walk_fixed (P : Platform) (wake : Option QNetworkReply) (K : KVTranslator) (e : String)
    (p : String → String → Bool)
    (hp : ∀ key s, p key s = true →
      ∃ ev, _walk P wake K (QJsonValue.string s) e key = some (QJsonValue.string s, K, ev)) :
    ∀ (v : QJsonValue) (key : String), leavesAll p key v = true →
      ∃ ev, _walk P wake K v e key = some (v, K, ev)
  | QJsonValue.object o, _, h => by
    obtain ⟨ev, ho⟩ := walkObject_fixed P wake K e p hp o (by simpa [leavesAll] using h)
    exact ⟨ev, by simp [_walk, ho]⟩
  | QJsonValue.array a, key, h => by
    obtain ⟨ev, ha⟩ := walkArray_fixed P wake K e p hp a key (by simpa [leavesAll] using h)
    exact ⟨ev, by simp [_walk, ha]⟩
  | QJsonValue.string s, key, h => hp key s (by simpa [leavesAll] using h)
  | QJsonValue.null, _, _ => ⟨[], by simp [_walk]⟩
  | QJsonValue.bool b, _, _ => ⟨[], by simp [_walk]⟩
  | QJsonValue.double d, _, _ => ⟨[], by simp [_walk]⟩
  | QJsonValue.undefined, _, _ => ⟨[], by simp [_walk]⟩
/-- The statement of `walk_fixed` for the loop over the members of an object. -/
theorem walkObject_fixed (P : Platform) (wake : Option QNetworkReply) (K : KVTranslator)
    (e : String) (p : String → String → Bool)
    (hp : ∀ key s, p key s = true →
      ∃ ev, _walk P wake K (QJsonValue.string s) e key = some (QJsonValue.string s, K, ev)) :
    ∀ (o : List (String × QJsonValue)), membersAll p o = true →
      ∃ ev, walkObject P wake K o e = some (o, K, ev)
  | [], _ => ⟨[], by simp [walkObject]⟩
  | (k, v) :: t, h => by
    simp [membersAll] at h
    obtain ⟨ev1, hv⟩ := walk_fixed P wake K e p hp v k h.1
    obtain ⟨ev2, ht⟩ := walkObject_fixed P wake K e p hp t h.2
    exact ⟨ev1 ++ ev2, by simp [walkObject, hv, ht]⟩
/-- The statement of `walk_fixed` for the loop over the elements of an array. -/
theorem walkArray_fixed (P : Platform) (wake : Option QNetworkReply) (K : KVTranslator)
    (e : String) (p : String → String → Bool)
    (hp : ∀ key s, p key s = true →
      ∃ ev, _walk P wake K (QJsonValue.string s) e key = some (QJsonValue.string s, K, ev)) :
    ∀ (a : List QJsonValue) (key : String), elementsAll p key a = true →
      ∃ ev, walkArray P wake K a e key = some (a, K, ev)
  | [], _, _ => ⟨[], by simp [walkArray]⟩
  | v :: t, key, h => by
    simp [elementsAll] at h
    obtain ⟨ev1, hv⟩ := walk_fixed P wake K e p hp v key h.1
    obtain ⟨ev2, ht⟩ := walkArray_fixed P wake K e p hp t key h.2
    exact ⟨ev1 ++ ev2, by simp [walkArray, hv, ht]⟩
end

/-- In state `loaded` a leaf that is not translatable is returned as it is. -/
theorem walk_plainLeaf (P : Platform) (wake : Option QNetworkReply) (K : KVTranslator)
    (e : String) (hstate : K.state = State.loaded) (key s : String)
    (h : plainLeaf P K e key s = true) :
    ∃ ev, _walk P wake K (QJsonValue.string s) e key = some (QJsonValue.string s, K, ev) := by
  simp [plainLeaf] at h
  refine ⟨(translateLine P K s e key).2, ?_⟩
  simp [_walk, h.1, translate_loaded P K wake s e key hstate, h.2]

/-- In state `loaded` a stable leaf is returned as it is. -/
theorem walk_stableLeaf (P : Platform) (wake : Option QNetworkReply) (K : KVTranslator)
    (e : String) (hstate : K.state = State.loaded) (key s : String)
    (h : stableLeaf P K e key s = true) :
    ∃ ev, _walk P wake K (QJsonValue.string s) e key = some (QJsonValue.string s, K, ev) := by
  unfold stableLeaf at h
  by_cases hk : key = "api_complete_time_str"
  · simp [hk] at h
    exact ⟨[], by simp [_walk, hk, h]⟩
  · simp [hk] at h
    refine ⟨(translateLine P K s e key).2, ?_⟩
    simp [_walk, hk, translate_loaded P K wake s e key hstate, h]

end KVTranslator

/-! ## Round trip and idempotence of `translateJson` -/

namespace KVTranslator

/-- Counterexample to C15: the top-level array `["Nope",1]` is a well-formed
document with no translatable leaf, and `translateJson` returns `{}` for it,
which does not have the shape of the input. And the members of
`{"b":1,"a":2}` come back in the key order of the parsed object, as
`{"a":2,"b":1}`. -/
theorem translateJson_array_lost :
    lobbyEngine.state = State.loaded
      ∧ (QJsonDocument.fromJson (payload (toUtf8 "[\"Nope\",1]"))).2 = false
      ∧ (parseJson (payload (toUtf8 "[\"Nope\",1]"))).map
          (fun v => sameShape v
            (QJsonValue.array [QJsonValue.string "Nope", QJsonValue.double ⟨1, 0⟩]))
          = some true
      ∧ leavesAll (plainLeaf scenarioPlatform lobbyEngine "lobby") ""
          (QJsonValue.array [QJsonValue.string "Nope", QJsonValue.double ⟨1, 0⟩]) = true
      ∧ (translateJson scenarioPlatform lobbyEngine none (toUtf8 "[\"Nope\",1]") "lobby").map
          (fun r => r.1) = some (toUtf8 "\x7b\x7d")
      ∧ sameShape (QJsonValue.array [QJsonValue.string "Nope", QJsonValue.double ⟨1, 0⟩])
          (QJsonValue.object []) = false
      ∧ (translateJson scenarioPlatform lobbyEngine none (toUtf8 "\x7b\"b\":1,\"a\":2\x7d")
          "lobby").map (fun r => r.1) = some (toUtf8 "\x7b\"a\":2,\"b\":1\x7d") := by
  refine ⟨rfl, by decide, by decide, by decide, by decide, by decide, by decide⟩

/-- C15, amended: round trip for a top-level object. In state `loaded`, when the
payload of the input (the input after an optional byte-order mark and an
optional prefix `svdata=`) is a well-formed JSON document whose top level is
the object `o`, and no string leaf of `o` is translatable, the visit returns
`o` itself and `translateJson` returns `o` written in compact form after the
prefix of the input: same nesting, same members in the key order of the parsed
object, same array elements, same numbers. The engine is left as it was. -/
theorem translateJson_plain (P : Platform) (K : KVTranslator) (wake : Option QNetworkReply)
    (json : QByteArray) (e : String) (o : QJsonObject) (hstate : K.state = State.loaded)
    (hdoc : QJsonDocument.fromJson (payload json) = (QJsonDocument.object o, false))
    (hplain : leavesAll (plainLeaf P K e) "" (QJsonValue.object o) = true) :
    ∃ ev, _walk P wake K (QJsonValue.object o) e "" = some (QJsonValue.object o, K, ev)
      ∧ translateJson P K wake json e
          = some (framing json ++ valueToJson (QJsonValue.object o), K, ev) := by
  obtain ⟨ev, hw⟩ := walk_fixed P wake K e (plainLeaf P K e)
    (walk_plainLeaf P wake K e hstate) (QJsonValue.object o) "" hplain
  refine ⟨ev, hw, ?_⟩
  rw [translateJson_eq, hdoc]
  simp only [QJsonDocument.toObject, hw, QJsonValue.toObject]

/-- Witness of C15 as amended: a document with nested members, numbers and the
untranslatable text `Nope`, behind the prefix `svdata=`. -/
theorem translateJson_plain_witness :
    ∃ ev,
      _walk scenarioPlatform none lobbyEngine
          (QJsonValue.object
            [("a", QJsonValue.array [QJsonValue.double ⟨1, 0⟩, QJsonValue.double ⟨25, 1⟩,
                QJsonValue.string "Nope"]),
              ("b", QJsonValue.object [("c", QJsonValue.null)])]) "lobby" ""
        = some (QJsonValue.object
            [("a", QJsonValue.array [QJsonValue.double ⟨1, 0⟩, QJsonValue.double ⟨25, 1⟩,
                QJsonValue.string "Nope"]),
              ("b", QJsonValue.object [("c", QJsonValue.null)])], lobbyEngine, ev)
      ∧ translateJson scenarioPlatform lobbyEngine none
          (toUtf8 "svdata=\x7b\"a\":[1,2.5,\"Nope\"],\"b\":\x7b\"c\":null\x7d\x7d") "lobby"
        = some (framing (toUtf8 "svdata=\x7b\"a\":[1,2.5,\"Nope\"],\"b\":\x7b\"c\":null\x7d\x7d")
            ++ valueToJson (QJsonValue.object
              [("a", QJsonValue.array [QJsonValue.double ⟨1, 0⟩, QJsonValue.double ⟨25, 1⟩,
                  QJsonValue.string "Nope"]),
                ("b", QJsonValue.object [("c", QJsonValue.null)])]), lobbyEngine, ev) :=
  translateJson_plain scenarioPlatform lobbyEngine none
    (toUtf8 "svdata=\x7b\"a\":[1,2.5,\"Nope\"],\"b\":\x7b\"c\":null\x7d\x7d") "lobby"
    [("a", QJsonValue.array [QJsonValue.double ⟨1, 0⟩, QJsonValue.double ⟨25, 1⟩,
        QJsonValue.string "Nope"]),
      ("b", QJsonValue.object [("c", QJsonValue.null)])]
    rfl (by rfl) (by decide)

end KVTranslator

namespace KVTranslator

/-- The bytes `translateJson` returns split into their own framing and payload: an
output starts with `{`, or with `svdata=` followed by `{`. -/
theorem framing_payload_output (b : Bool) (rest : QByteArray) :
    framing ((if b then toUtf8 "svdata=" else []) ++ 123 :: rest)
        = (if b then toUtf8 "svdata=" else [])
      ∧ payload ((if b then toUtf8 "svdata=" else []) ++ 123 :: rest) = 123 :: rest := by
  have hp : toUtf8 "svdata=" = [115, 118, 100, 97, 116, 97, 61] := by decide
  cases b
  · simp [framing, payload, hasPrefix, stripBom, hp]
  · simp [framing, payload, hasPrefix, stripBom, hp]

/-- Counterexample to C16: with a dictionary that maps `Hello` to `Bonjour` and
`Bonjour` to `Salut`, the first pass over `{"msg":"Hello"}` gives
`{"msg":"Bonjour"}` and the second pass over that gives `{"msg":"Salut"}`. The
dictionary does not satisfy `chainFree`. -/
theorem translateJson_twice_differs :
    chainEngine.state = State.loaded
      ∧ (translateJson scenarioPlatform chainEngine none
            (toUtf8 "\x7b\"msg\":\"Hello\"\x7d") "lobby").map (fun r => r.1)
          = some (toUtf8 "\x7b\"msg\":\"Bonjour\"\x7d")
      ∧ (translateJson scenarioPlatform chainEngine none
            (toUtf8 "\x7b\"msg\":\"Bonjour\"\x7d") "lobby").map (fun r => r.1)
          = some (toUtf8 "\x7b\"msg\":\"Salut\"\x7d")
      ∧ toUtf8 "\x7b\"msg\":\"Salut\"\x7d" ≠ toUtf8 "\x7b\"msg\":\"Bonjour\"\x7d"
      ∧ chainFree scenarioPlatform chainEngine = false := by
  refine ⟨rfl, by decide, by decide, by decide, by decide⟩

end KVTranslator

/-! ## The cache invariant -/

namespace KVTranslator

/-- What a fetch completion does to the cache file. -/
theorem translationRequestFinished_cache (P : Platform) (A : KVTranslator)
    (reply : QNetworkReply) :
    (translationRequestFinished P A reply).1.cacheFile
      = (if reply.error.isNone && accepted reply.body && A.cacheWritable then some reply.body
        else A.cacheFile) := by
  unfold translationRequestFinished
  cases he : reply.error with
  | some msg => simp
  | none =>
    rcases parseTranslationData_accepted P A reply.body with ⟨h1, h2⟩ | ⟨h1, _, h2⟩
    · simp only [h2, h1]
      by_cases hw : A.cacheWritable = true <;> simp [hw]
    · simp [h1, h2]

/-- The cache file is not touched by `loadTranslation`. -/
theorem loadTranslation_cache (P : Platform) (A : KVTranslator) (language : String) :
    (loadTranslation P A language).1.cacheFile = A.cacheFile := by
  unfold loadTranslation
  cases hc : A.cacheFile with
  | none => rfl
  | some bytes =>
    rcases parseTranslationData_accepted P
        { reportUntranslated := A.reportUntranslated, state := State.loading,
          translation := A.translation, reportBlacklist := A.reportBlacklist,
          cacheFile := some bytes, cacheWritable := A.cacheWritable } bytes
      with ⟨_, h2⟩ | ⟨_, _, h2⟩
    · simp [hc, h2]
    · simp [hc, h2]

/-- A step leaves the cache file as it was, or is (or runs) a fetch completion
without network error whose body is accepted, and the cache file is then that
body. -/
theorem step_cache (P : Platform) (A B : KVTranslator) (h : Step P A B) :
    B.cacheFile = A.cacheFile
      ∨ ∃ reply : QNetworkReply, reply.error = none ∧ accepted reply.body = true
          ∧ B.cacheFile = some reply.body := by
  have hcompletion : ∀ reply : QNetworkReply,
      (translationRequestFinished P A reply).1.cacheFile = A.cacheFile
        ∨ ∃ r : QNetworkReply, r.error = none ∧ accepted r.body = true
            ∧ (translationRequestFinished P A reply).1.cacheFile = some r.body := by
    intro reply
    rw [translationRequestFinished_cache]
    by_cases hc : (reply.error.isNone && accepted reply.body && A.cacheWritable) = true
    · simp only [hc, if_true]
      simp only [Bool.and_eq_true] at hc
      exact Or.inr ⟨reply, by simpa [Option.isNone_iff_eq_none] using hc.1.1, hc.1.2, rfl⟩
    · simp only [hc]
      exact Or.inl rfl
  have hsettles : ∀ (wake : Option QNetworkReply), Settles P wake A B →
      B.cacheFile = A.cacheFile
        ∨ ∃ reply : QNetworkReply, reply.error = none ∧ accepted reply.body = true
            ∧ B.cacheFile = some reply.body := by
    intro wake hs
    rcases hs with rfl | ⟨_, reply, _, rfl⟩
    · exact Or.inl rfl
    · exact hcompletion reply
  cases h with
  | byLoad language => exact Or.inl (loadTranslation_cache P A language)
  | byCompletion reply => exact hcompletion reply
  | byTranslate wake line e key out _ ev h =>
    exact hsettles wake (translate_settles P A wake line e key _ h)
  | byTranslateJson wake json e out _ ev h =>
    rw [translateJson_eq] at h
    cases hw : _walk P wake A
        (QJsonValue.object (QJsonDocument.fromJson (payload json)).1.toObject) e "" with
    | none => simp [hw] at h
    | some r =>
      obtain ⟨val, K', ev'⟩ := r
      simp [hw] at h
      have := (walk_returns P wake e _ A "" _ hw).1
      simp only at this
      rw [h.2.1] at this
      exact hsettles wake this

/-- C12: the cache invariant over the steps of the engine (`loadTranslation`,
fetch completion, `translate`, `translateJson`). Along any sequence of steps, a
cache that holds nothing or an accepted response still does at the end. A
step changes the cache file only through a fetch completion without network
error whose body is accepted (JSON with success flag 1), and the cache file
is then exactly that body. A fetch completion writes the body when there is
no network error, the body is accepted and the file can be opened for
writing, and leaves the cache file unchanged in every other case;
`loadTranslation` never changes it. -/
theorem cache_invariant (P : Platform) (K K' : KVTranslator)
    (hreach : Relation.ReflTransGen (Step P) K K') (hvalid : validCache K = true) :
    validCache K' = true
      ∧ (∀ A B : KVTranslator, Step P A B →
          B.cacheFile = A.cacheFile
            ∨ ∃ reply : QNetworkReply, reply.error = none ∧ accepted reply.body = true
                ∧ B.cacheFile = some reply.body)
      ∧ (∀ (A : KVTranslator) (reply : QNetworkReply),
          (translationRequestFinished P A reply).1.cacheFile
            = (if reply.error.isNone && accepted reply.body && A.cacheWritable
              then some reply.body else A.cacheFile))
      ∧ (∀ (A : KVTranslator) (language : String),
          (loadTranslation P A language).1.cacheFile = A.cacheFile) := by
  refine ⟨?_, step_cache P, translationRequestFinished_cache P, loadTranslation_cache P⟩
  induction hreach with
  | refl => exact hvalid
  | tail _ hstep ih =>
    rcases step_cache P _ _ hstep with h | ⟨reply, _, ha, h⟩
    · unfold validCache at ih ⊢
      rw [h]
      exact ih
    · unfold validCache
      rw [h]
      exact ha

/-- Witness of C12: a fresh engine loads, and its fetch completes with the
validated response `helloBody`, which becomes the cache. -/
theorem cache_invariant_witness :
    validCache (translationRequestFinished scenarioPlatform
        (loadTranslation scenarioPlatform freshEngine "en").1 ⟨none, helloBody⟩).1 = true
      ∧ (translationRequestFinished scenarioPlatform
          (loadTranslation scenarioPlatform freshEngine "en").1 ⟨none, helloBody⟩).1.cacheFile
          = some helloBody :=
  ⟨(cache_invariant scenarioPlatform freshEngine
      (translationRequestFinished scenarioPlatform
        (loadTranslation scenarioPlatform freshEngine "en").1 ⟨none, helloBody⟩).1
      (Relation.ReflTransGen.tail
        (Relation.ReflTransGen.single (Step.byLoad freshEngine "en"))
        (Step.byCompletion _ ⟨none, helloBody⟩))
      rfl).1, by decide⟩

end KVTranslator

/-! ## Reading back what the writer wrote: strings -/

theorem u8_or_toNat (a b : UInt8) : (a ||| b).toNat = a.toNat ||| b.toNat :=
  BitVec.toNat_or ..

theorem u32_toUInt8_toNat (x : UInt32) : x.toUInt8.toNat = x.toNat % 256 := by
  show (UInt8.ofNat x.toNat).toNat = _
  exact BitVec.toNat_ofNat ..

theorem u32_shr_toNat (x k : UInt32) : (x >>> k).toNat = x.toNat >>> (k.toNat % 32) := by
  show (UInt32.shiftRight x k).toBitVec.toNat = _
  unfold UInt32.shiftRight
  simp only [BitVec.toNat_ushiftRight]
  rfl

/-- The value of a byte built as `y &&& mask ||| lead`, for a mask of `j` low bits
and a lead whose low `i` bits are zero. -/
theorem mask_lead_toNat (y mask lead : UInt8) (j i a : Nat) (hm : mask.toNat = 2 ^ j - 1)
    (hl : lead.toNat = 2 ^ i * a) (hji : j ≤ i) :
    (y &&& mask ||| lead).toNat = 2 ^ i * a + y.toNat % 2 ^ j := by
  rw [u8_or_toNat, UInt8.and_toNat, hm, hl, Nat.and_pow_two_sub_one_eq_mod]
  have h4 : y.toNat % 2 ^ j < 2 ^ i :=
    lt_of_lt_of_le (Nat.mod_lt _ (Nat.two_pow_pos j)) (Nat.pow_le_pow_right (by decide) hji)
  rw [Nat.lor_comm, ← Nat.mul_add_lt_is_or h4]

theorem cont_toNat (x : UInt32) : (x.toUInt8 &&& 0x3f ||| 0x80).toNat = 0x80 + x.toNat % 64 := by
  rw [mask_lead_toNat _ _ _ 6 6 2 (by decide) (by decide) (le_refl _), u32_toUInt8_toNat]
  omega

theorem cont6_toNat (x : UInt32) :
    ((x >>> 6).toUInt8 &&& 0x3f ||| 0x80).toNat = 0x80 + x.toNat / 64 % 64 := by
  rw [mask_lead_toNat _ _ _ 6 6 2 (by decide) (by decide) (le_refl _), u32_toUInt8_toNat,
    u32_shr_toNat, Nat.shiftRight_eq_div_pow]
  have : (6 : UInt32).toNat % 32 = 6 := by decide
  rw [this]
  omega

theorem cont12_toNat (x : UInt32) :
    ((x >>> 12).toUInt8 &&& 0x3f ||| 0x80).toNat = 0x80 + x.toNat / 4096 % 64 := by
  rw [mask_lead_toNat _ _ _ 6 6 2 (by decide) (by decide) (le_refl _), u32_toUInt8_toNat,
    u32_shr_toNat, Nat.shiftRight_eq_div_pow]
  have : (12 : UInt32).toNat % 32 = 12 := by decide
  rw [this]
  omega

theorem lead2_toNat (x : UInt32) :
    ((x >>> 6).toUInt8 &&& 0x1f ||| 0xc0).toNat = 0xC0 + x.toNat / 64 % 32 := by
  rw [mask_lead_toNat _ _ _ 5 6 3 (by decide) (by decide) (by decide), u32_toUInt8_toNat,
    u32_shr_toNat, Nat.shiftRight_eq_div_pow]
  have : (6 : UInt32).toNat % 32 = 6 := by decide
  rw [this]
  omega

theorem lead3_toNat (x : UInt32) :
    ((x >>> 12).toUInt8 &&& 0x0f ||| 0xe0).toNat = 0xE0 + x.toNat / 4096 % 16 := by
  rw [mask_lead_toNat _ _ _ 4 5 7 (by decide) (by decide) (by decide), u32_toUInt8_toNat,
    u32_shr_toNat, Nat.shiftRight_eq_div_pow]
  have : (12 : UInt32).toNat % 32 = 12 := by decide
  rw [this]
  omega

theorem lead4_toNat (x : UInt32) :
    ((x >>> 18).toUInt8 &&& 0x07 ||| 0xf0).toNat = 0xF0 + x.toNat / 262144 % 8 := by
  rw [mask_lead_toNat _ _ _ 3 4 15 (by decide) (by decide) (by decide), u32_toUInt8_toNat,
    u32_shr_toNat, Nat.shiftRight_eq_div_pow]
  have : (18 : UInt32).toNat % 32 = 18 := by decide
  rw [this]
  omega

/-- The bytes of a character, by the size of its code point. -/
theorem utf8EncodeChar_cases (c : Char) :
    (c.toNat < 0x80 ∧ ∃ b0 : UInt8, String.utf8EncodeChar c = [b0] ∧ b0.toNat = c.toNat)
      ∨ (0x80 ≤ c.toNat ∧ c.toNat < 0x800 ∧ ∃ b0 b1 : UInt8,
          String.utf8EncodeChar c = [b0, b1] ∧ b0.toNat = 0xC0 + c.toNat / 64
            ∧ b1.toNat = 0x80 + c.toNat % 64)
      ∨ (0x800 ≤ c.toNat ∧ c.toNat < 0x10000 ∧ ∃ b0 b1 b2 : UInt8,
          String.utf8EncodeChar c = [b0, b1, b2] ∧ b0.toNat = 0xE0 + c.toNat / 4096
            ∧ b1.toNat = 0x80 + c.toNat / 64 % 64 ∧ b2.toNat = 0x80 + c.toNat % 64)
      ∨ (0x10000 ≤ c.toNat ∧ c.toNat < 0x110000 ∧ ∃ b0 b1 b2 b3 : UInt8,
          String.utf8EncodeChar c = [b0, b1, b2, b3] ∧ b0.toNat = 0xF0 + c.toNat / 262144
            ∧ b1.toNat = 0x80 + c.toNat / 4096 % 64 ∧ b2.toNat = 0x80 + c.toNat / 64 % 64
            ∧ b3.toNat = 0x80 + c.toNat % 64) := by
  have hv : c.toNat = c.val.toNat := rfl
  have hvalid : c.val.toNat < 0x110000 := by
    rcases c.valid with h | h
    · exact lt_trans h (by decide)
    · exact h.2
  unfold String.utf8EncodeChar
  simp only
  by_cases h1 : c.val ≤ 0x7f
  · have h1' : c.val.toNat ≤ 0x7f := h1
    refine Or.inl ⟨by omega, c.val.toUInt8, by rw [if_pos h1], ?_⟩
    rw [u32_toUInt8_toNat]
    omega
  · have h1' : ¬ c.val.toNat ≤ 0x7f := h1
    by_cases h2 : c.val ≤ 0x7ff
    · have h2' : c.val.toNat ≤ 0x7ff := h2
      refine Or.inr (Or.inl ⟨by omega, by omega, (c.val >>> 6).toUInt8 &&& 0x1f ||| 0xc0,
        c.val.toUInt8 &&& 0x3f ||| 0x80, by rw [if_neg h1, if_pos h2], ?_, ?_⟩)
      · rw [lead2_toNat]; omega
      · rw [cont_toNat]; omega
    · have h2' : ¬ c.val.toNat ≤ 0x7ff := h2
      by_cases h3 : c.val ≤ 0xffff
      · have h3' : c.val.toNat ≤ 0xffff := h3
        refine Or.inr (Or.inr (Or.inl ⟨by omega, by omega, (c.val >>> 12).toUInt8 &&& 0x0f ||| 0xe0,
          (c.val >>> 6).toUInt8 &&& 0x3f ||| 0x80, c.val.toUInt8 &&& 0x3f ||| 0x80,
          by rw [if_neg h1, if_neg h2, if_pos h3], ?_, ?_, ?_⟩))
        · rw [lead3_toNat]; omega
        · rw [cont6_toNat]; omega
        · rw [cont_toNat]; omega
      · have h3' : ¬ c.val.toNat ≤ 0xffff := h3
        refine Or.inr (Or.inr (Or.inr ⟨by omega, by omega, (c.val >>> 18).toUInt8 &&& 0x07 ||| 0xf0,
          (c.val >>> 12).toUInt8 &&& 0x3f ||| 0x80, (c.val >>> 6).toUInt8 &&& 0x3f ||| 0x80,
          c.val.toUInt8 &&& 0x3f ||| 0x80, by rw [if_neg h1, if_neg h2, if_neg h3], ?_, ?_, ?_, ?_⟩))
        · rw [lead4_toNat]; omega
        · rw [cont12_toNat]; omega
        · rw [cont6_toNat]; omega
        · rw [cont_toNat]; omega

/-- The decoder reads back the bytes of a character. -/
theorem utf8Decode_encodeChar (c : Char) (t : QByteArray) :
    utf8Decode (String.utf8EncodeChar c ++ t) = some (c, t) := by
  have hvalid : c.toNat < 0xD800 ∨ (0xDFFF < c.toNat ∧ c.toNat < 0x110000) := c.valid
  rcases utf8EncodeChar_cases c with ⟨h, b0, he, h0⟩ | ⟨hl, hu, b0, b1, he, h0, h1⟩
    | ⟨hl, hu, b0, b1, b2, he, h0, h1, h2⟩ | ⟨hl, hu, b0, b1, b2, b3, he, h0, h1, h2, h3⟩
  · rw [he]
    simp only [List.cons_append, List.nil_append, utf8Decode, h0, h, if_true]
    rw [Char.ofNat_toNat]
  · rw [he]
    have e1 : ¬ (0xC0 + c.toNat / 64 < 0x80) := by omega
    have e2 : ¬ (0xC0 + c.toNat / 64 < 0xC2) := by omega
    have e3 : 0xC0 + c.toNat / 64 < 0xE0 := by omega
    have e4 : isCont b1 = true := by simp [isCont, h1]; omega
    have e5 : (0xC0 + c.toNat / 64 - 0xC0) * 64 + (0x80 + c.toNat % 64 - 0x80) = c.toNat := by
      omega
    simp only [List.cons_append, List.nil_append, utf8Decode, h0, h1, e1, e2, e3, e4, e5,
      if_true, if_false]
    rw [Char.ofNat_toNat]
  · rw [he]
    have e1 : ¬ (0xE0 + c.toNat / 4096 < 0x80) := by omega
    have e2 : ¬ (0xE0 + c.toNat / 4096 < 0xC2) := by omega
    have e3 : ¬ (0xE0 + c.toNat / 4096 < 0xE0) := by omega
    have e3' : 0xE0 + c.toNat / 4096 < 0xF0 := by omega
    have e4 : isCont b1 = true := by simp [isCont, h1]; omega
    have e4' : isCont b2 = true := by simp [isCont, h2]; omega
    have e5 : ((0xE0 + c.toNat / 4096 - 0xE0) * 64 + (0x80 + c.toNat / 64 % 64 - 0x80)) * 64
        + (0x80 + c.toNat % 64 - 0x80) = c.toNat := by omega
    have e6 : 0x800 ≤ c.toNat := hl
    have e7 : ¬ (0xD800 ≤ c.toNat ∧ c.toNat < 0xE000) := by omega
    simp only [List.cons_append, List.nil_append, utf8Decode, h0, h1, h2, e1, e2, e3, e3', e4,
      e4', e5, e6, e7, if_true, if_false, decide_True, decide_False, Bool.and_self,
      Bool.not_false, Bool.and_true]
    rw [Char.ofNat_toNat]
  · rw [he]
    have e1 : ¬ (0xF0 + c.toNat / 262144 < 0x80) := by omega
    have e2 : ¬ (0xF0 + c.toNat / 262144 < 0xC2) := by omega
    have e3 : ¬ (0xF0 + c.toNat / 262144 < 0xE0) := by omega
    have e3' : ¬ (0xF0 + c.toNat / 262144 < 0xF0) := by omega
    have e3'' : 0xF0 + c.toNat / 262144 < 0xF5 := by omega
    have e4 : isCont b1 = true := by simp [isCont, h1]; omega
    have e4' : isCont b2 = true := by simp [isCont, h2]; omega
    have e4'' : isCont b3 = true := by simp [isCont, h3]; omega
    have e5 : (((0xF0 + c.toNat / 262144 - 0xF0) * 64 + (0x80 + c.toNat / 4096 % 64 - 0x80)) * 64
        + (0x80 + c.toNat / 64 % 64 - 0x80)) * 64 + (0x80 + c.toNat % 64 - 0x80) = c.toNat := by
      omega
    have e6 : 0x10000 ≤ c.toNat ∧ c.toNat < 0x110000 := ⟨hl, hu⟩
    simp only [List.cons_append, List.nil_append, utf8Decode, h0, h1, h2, h3, e1, e2, e3, e3',
      e3'', e4, e4', e4'', e5, e6, if_true, if_false, decide_True, Bool.and_self, and_self]
    rw [Char.ofNat_toNat]

theorem hexVal_hexDigit (n : Nat) (h : n < 16) : hexVal (hexDigit n) = some n := by
  interval_cases n <;> decide

theorem u8_ofNat_toNat (u : Nat) (h : u < 256) : (UInt8.ofNat u).toNat = u := by
  show (BitVec.ofNat 8 u).toNat = u
  rw [BitVec.toNat_ofNat]
  omega

theorem u8_ne_of_toNat_ne (b : UInt8) (n : Nat) (h : b.toNat ≠ n) (hn : n < 256) :
    b ≠ UInt8.ofNat n := by
  intro hb
  rw [hb, u8_ofNat_toNat n hn] at h
  exact h rfl

/-- One step of the string reader over the bytes the writer emits for a
character. -/
theorem parseString_escapedChar (c : Char) (fuel : Nat) (t : QByteArray) :
    parseString (fuel + 1) (escapedChar c ++ t)
      = match parseString fuel t with
        | none => none
        | some (cs, r) => some (c :: cs, r) := by
  have hc : Char.ofNat c.toNat = c := Char.ofNat_toNat c
  by_cases h80 : c.toNat < 0x80
  · by_cases hsp : c.toNat < 0x20 ∨ c.toNat = 0x22 ∨ c.toNat = 0x5c
    · -- an escape sequence
      have hesc : ∀ (x : QByteArray),
          scanEscapeSequence (x ++ t) = some (c, t) →
          parseString (fuel + 1) ((92 :: x) ++ t)
            = match parseString fuel t with
              | none => none
              | some (cs, r) => some (c :: cs, r) := by
        intro x hx
        have h92 : ¬ ((92 : UInt8) = 34) := by decide
        simp only [List.cons_append, parseString, h92, if_false, if_true, List.append_eq, hx]
      unfold escapedChar
      simp only [h80, hsp, if_true]
      by_cases h22 : c.toNat = 0x22
      · simp only [h22]
        apply hesc
        rw [← hc, h22]
        rfl
      · by_cases h5c : c.toNat = 0x5c
        · simp only [h5c]
          apply hesc
          rw [← hc, h5c]
          rfl
        · by_cases h8 : c.toNat = 0x8
          · simp only [h8]
            apply hesc
            rw [← hc, h8]
            rfl
          · by_cases hcc : c.toNat = 0xc
            · simp only [hcc]
              apply hesc
              rw [← hc, hcc]
              rfl
            · by_cases ha : c.toNat = 0xa
              · simp only [ha]
                apply hesc
                rw [← hc, ha]
                rfl
              · by_cases hd : c.toNat = 0xd
                · simp only [hd]
                  apply hesc
                  rw [← hc, hd]
                  rfl
                · by_cases h9 : c.toNat = 0x9
                  · simp only [h9]
                    apply hesc
                    rw [← hc, h9]
                    rfl
                  · simp only [h22, h5c, h8, hcc, ha, hd, h9, if_false]
                    apply hesc
                    have hlt : c.toNat < 0x20 := by omega
                    have hx1 := hexVal_hexDigit (c.toNat / 16) (by omega)
                    have hx2 := hexVal_hexDigit (c.toNat % 16) (by omega)
                    have h0 : hexVal 48 = some 0 := by decide
                    have hval : c.toNat / 16 * 16 + c.toNat % 16 = c.toNat := by omega
                    have hs1 : ¬ (0xD800 ≤ c.toNat ∧ c.toNat < 0xDC00) := by omega
                    have hs2 : ¬ (0xDC00 ≤ c.toNat ∧ c.toNat < 0xE000) := by omega
                    simp [scanEscapeSequence, parseHex4, h0, hx1, hx2, hval, unicodeEscape,
                      hs1, hs2, hc]
    · -- a raw byte
      unfold escapedChar
      simp only [h80, hsp, if_true, if_false]
      have hb : (UInt8.ofNat c.toNat).toNat = c.toNat := u8_ofNat_toNat _ (by omega)
      have h34 : ¬ (UInt8.ofNat c.toNat = 34) := by
        intro h
        have := congrArg UInt8.toNat h
        rw [hb] at this
        exact hsp (Or.inr (Or.inl this))
      have h92 : ¬ (UInt8.ofNat c.toNat = 92) := by
        intro h
        have := congrArg UInt8.toNat h
        rw [hb] at this
        exact hsp (Or.inr (Or.inr this))
      simp only [List.cons_append, List.nil_append, parseString, h34, h92, if_false,
        utf8Decode, hb, h80, if_true, hc, List.append_eq]
  · -- a character outside ASCII
    have hesc : escapedChar c = String.utf8EncodeChar c := by
      unfold escapedChar
      simp only [h80, if_false]
    rw [hesc]
    have hdec := utf8Decode_encodeChar c t
    rcases utf8EncodeChar_cases c with ⟨h, _⟩ | ⟨_, _, b0, b1, he, h0, _⟩
      | ⟨_, _, b0, b1, b2, he, h0, _⟩ | ⟨_, _, b0, b1, b2, b3, he, h0, _⟩
    · exact absurd h h80
    all_goals
      rw [he] at hdec ⊢
      have h34 : ¬ (b0 = 34) := by
        intro h
        rw [h] at h0
        have : (34 : UInt8).toNat = 34 := by decide
        omega
      have h92 : ¬ (b0 = 92) := by
        intro h
        rw [h] at h0
        have : (92 : UInt8).toNat = 92 := by decide
        omega
      simp only [List.cons_append, List.nil_append] at hdec ⊢
      simp only [parseString, h34, h92, if_false, hdec]

/-- The string reader reads back an escaped string up to its closing quote. -/
theorem parseString_escaped :
    ∀ (cs : List Char) (fuel : Nat) (rest : QByteArray), cs.length < fuel →
      parseString fuel ((cs.map escapedChar).flatten ++ 34 :: rest) = some (cs, rest)
  | [], fuel, rest, h => by
    obtain ⟨f, rfl⟩ : ∃ f, fuel = f + 1 := ⟨fuel - 1, by simp at h; omega⟩
    simp [parseString]
  | c :: cs, fuel, rest, h => by
    obtain ⟨f, rfl⟩ : ∃ f, fuel = f + 1 := ⟨fuel - 1, by simp at h; omega⟩
    have ih := parseString_escaped cs f rest (by simp at h; omega)
    simp only [List.map_cons, List.flatten_cons, List.append_assoc]
    rw [parseString_escapedChar, ih]

theorem escapedChar_length_pos (c : Char) : 0 < (escapedChar c).length := by
  unfold escapedChar
  simp only
  split_ifs <;> simp [String.length_utf8EncodeChar, Char.utf8Size_pos]

theorem escapedString_length (s : String) : s.data.length ≤ (escapedString s).length := by
  unfold escapedString
  induction s.data with
  | nil => simp
  | cons c cs ih =>
    have := escapedChar_length_pos c
    simp only [List.map_cons, List.flatten_cons, List.length_append, List.length_cons]
    omega

/-! ## Reading back what the writer wrote: numbers -/

theorem toUtf8_append (a b : String) : toUtf8 (a ++ b) = toUtf8 a ++ toUtf8 b := by
  simp [toUtf8, String.data_append]

theorem toUtf8_mk (l : List Char) : toUtf8 (String.mk l) = (l.map String.utf8EncodeChar).flatten :=
  rfl

theorem utf8EncodeChar_digitChar (d : Nat) (h : d < 10) :
    String.utf8EncodeChar (Nat.digitChar d) = [UInt8.ofNat (48 + d)] := by
  interval_cases d <;> decide

theorem digitsValue_snoc (L : List Nat) (d : Nat) :
    digitsValue (L ++ [d]) = 10 * digitsValue L + d := by
  simp [digitsValue, List.foldl_append]

theorem foldl_digits (ys : List Nat) :
    ∀ a : Nat, List.foldl (fun a d => 10 * a + d) a ys
      = a * 10 ^ ys.length + List.foldl (fun a d => 10 * a + d) 0 ys := by
  induction ys with
  | nil => intro a; simp
  | cons y ys ih =>
    intro a
    simp only [List.foldl_cons, List.length_cons]
    rw [ih (10 * a + y), ih (10 * 0 + y)]
    ring

theorem digitsValue_append (xs ys : List Nat) :
    digitsValue (xs ++ ys) = digitsValue xs * 10 ^ ys.length + digitsValue ys := by
  simp only [digitsValue, List.foldl_append]
  exact foldl_digits ys _

theorem digitsValue_zeros (k : Nat) (ys : List Nat) :
    digitsValue (List.replicate k 0 ++ ys) = digitsValue ys := by
  rw [digitsValue_append]
  have : digitsValue (List.replicate k 0) = 0 := by
    induction k with
    | zero => rfl
    | succ k ih =>
      rw [List.replicate_succ]
      have := digitsValue_append [0] (List.replicate k 0)
      simp only [List.singleton_append] at this
      rw [this, ih]
      simp [digitsValue]
  rw [this]
  simp

/-- The digits `Nat.toDigitsCore` puts in front of its accumulator. -/
theorem toDigitsCore_digits :
    ∀ (fuel n : Nat) (acc : List Char), n < fuel →
      ∃ L : List Nat, Nat.toDigitsCore 10 fuel n acc = L.map Nat.digitChar ++ acc
        ∧ (∀ d ∈ L, d < 10) ∧ digitsValue L = n ∧ L ≠ []
        ∧ (n = 0 → L = [0]) ∧ (n ≠ 0 → L.head? ≠ some 0)
        ∧ (n ≠ 0 → 10 ^ (L.length - 1) ≤ n)
  | 0, n, acc, h => absurd h (Nat.not_lt_zero n)
  | fuel + 1, n, acc, h => by
    unfold Nat.toDigitsCore
    simp only
    by_cases h0 : n / 10 = 0
    · have hn : n < 10 := by omega
      refine ⟨[n], by simp [h0, Nat.mod_eq_of_lt hn], by simpa using hn, by simp [digitsValue],
        by simp, ?_, ?_, ?_⟩
      · intro hz
        rw [hz]
      · intro hz
        simpa using hz
      · intro hz
        simp
        omega
    · obtain ⟨L, hL, hd, hv, hne, _, hhead, hlen⟩ :=
        toDigitsCore_digits fuel (n / 10) (Nat.digitChar (n % 10) :: acc) (by omega)
      refine ⟨L ++ [n % 10], ?_, ?_, ?_, by simp, ?_, ?_, ?_⟩
      · simp [h0, hL]
      · intro d hdm
        rcases List.mem_append.1 hdm with h1 | h1
        · exact hd d h1
        · simp at h1
          omega
      · rw [digitsValue_snoc, hv]
        omega
      · intro hz
        omega
      · intro _
        cases L with
        | nil => exact absurd rfl hne
        | cons x xs => simpa using hhead h0
      · intro _
        have := hlen h0
        have hpos : 0 < L.length := List.length_pos.2 hne
        simp only [List.length_append, List.length_singleton, Nat.add_sub_cancel]
        calc 10 ^ L.length = 10 * 10 ^ (L.length - 1) := by
              rw [← Nat.pow_succ']
              congr 1
              omega
          _ ≤ 10 * (n / 10) := Nat.mul_le_mul_left 10 this
          _ ≤ n := Nat.mul_div_le n 10

/-- The decimal digits of `toString n`. -/
theorem toString_digits (n : Nat) :
    ∃ L : List Nat, toUtf8 (toString n) = digitBytes L ∧ (toString n).length = L.length
      ∧ (∀ d ∈ L, d < 10) ∧ digitsValue L = n ∧ L ≠ []
      ∧ (1 < L.length → L.head? ≠ some 0) ∧ (n ≠ 0 → 10 ^ (L.length - 1) ≤ n) := by
  obtain ⟨L, hL, hd, hv, hne, hz, hhead, hlen⟩ := toDigitsCore_digits (n + 1) n [] (by omega)
  have hs : toString n = String.mk (L.map Nat.digitChar) := by
    show Nat.repr n = _
    unfold Nat.repr Nat.toDigits
    rw [hL]
    simp [List.asString]
  refine ⟨L, ?_, ?_, hd, hv, hne, ?_, hlen⟩
  · rw [hs, toUtf8_mk]
    unfold digitBytes
    clear hL hv hne hz hhead hlen hs
    induction L with
    | nil => rfl
    | cons x xs ih =>
      have hx := utf8EncodeChar_digitChar x (hd x (by simp))
      simp only [List.map_cons, List.flatten_cons, hx]
      rw [ih (fun d hdm => hd d (by simp [hdm]))]
      rfl
  · rw [hs]
    simp [String.length]
  · intro h1
    by_cases hn : n = 0
    · rw [hz hn] at h1
      simp at h1
    · exact hhead hn

theorem takeDigits_digitBytes :
    ∀ (L : List Nat) (rest : QByteArray), (∀ d ∈ L, d < 10) →
      (∀ b t, rest = b :: t → ¬ (48 ≤ b.toNat ∧ b.toNat ≤ 57)) →
      takeDigits (digitBytes L ++ rest) = (L, rest)
  | [], rest, _, hr => by
    cases rest with
    | nil => rfl
    | cons b t =>
      have := hr b t rfl
      simp [digitBytes, takeDigits, this]
  | d :: L, rest, hd, hr => by
    have hdl : d < 10 := hd d (by simp)
    have hb : (UInt8.ofNat (48 + d)).toNat = 48 + d := u8_ofNat_toNat _ (by omega)
    have ih := takeDigits_digitBytes L rest (fun x hx => hd x (by simp [hx])) hr
    unfold digitBytes at ih ⊢
    have h57 : 48 + d ≤ 57 := by omega
    simp [takeDigits, hb, ih, h57]

theorem endsValue_cases (rest : QByteArray) (h : endsValue rest = true) :
    rest = [] ∨ ∃ t, rest = 44 :: t ∨ rest = 93 :: t ∨ rest = 125 :: t := by
  cases rest with
  | nil => exact Or.inl rfl
  | cons b t =>
    simp [endsValue] at h
    rcases h with (h | h) | h
    · exact Or.inr ⟨t, Or.inl (by rw [h])⟩
    · exact Or.inr ⟨t, Or.inr (Or.inl (by rw [h]))⟩
    · exact Or.inr ⟨t, Or.inr (Or.inr (by rw [h]))⟩

theorem endsValue_noDigit (rest : QByteArray) (h : endsValue rest = true) :
    ∀ b t, rest = b :: t → ¬ (48 ≤ b.toNat ∧ b.toNat ≤ 57) := by
  intro b t hb
  rcases endsValue_cases rest h with h0 | ⟨t', h1 | h1 | h1⟩
  · rw [h0] at hb; cases hb
  all_goals
    rw [h1] at hb
    injection hb with hb _
    rw [← hb]
    decide

theorem parseFraction_ends (rest : QByteArray) (h : endsValue rest = true) :
    parseFraction rest = some ([], rest) := by
  rcases endsValue_cases rest h with h0 | ⟨t', h1 | h1 | h1⟩ <;> subst_vars <;> rfl

theorem parseExponent_ends (rest : QByteArray) (h : endsValue rest = true) :
    parseExponent rest = some (0, rest) := by
  rcases endsValue_cases rest h with h0 | ⟨t', h1 | h1 | h1⟩ <;> subst_vars <;> rfl

theorem mkDecimal_zero_exponent (neg : Bool) (ip fp : List Nat) :
    mkDecimal neg ip fp 0
      = Decimal.reduce (if neg then -((digitsValue (ip ++ fp) : Nat) : Int)
          else ((digitsValue (ip ++ fp) : Nat) : Int)) fp.length := by
  unfold mkDecimal
  simp

/-- The number reader on an integer part followed by what ends a value. -/
theorem parseUnsigned_integer (neg : Bool) (L : List Nat) (rest : QByteArray)
    (hd : ∀ d ∈ L, d < 10) (hne : L ≠ []) (hhead : 1 < L.length → L.head? ≠ some 0)
    (hr : endsValue rest = true) :
    parseUnsigned neg (digitBytes L ++ rest) = some (mkDecimal neg L [] 0, rest) := by
  unfold parseUnsigned
  have ht := takeDigits_digitBytes L rest hd (endsValue_noDigit rest hr)
  have hc : (L.isEmpty || (decide (1 < L.length) && L.head? == some 0)) = false := by
    cases L with
    | nil => exact absurd rfl hne
    | cons x xs =>
      by_cases h1 : 1 < (x :: xs).length
      · have := hhead h1
        simp at this
        simp [this]
      · simp at h1
        simp [h1]
  simp only [ht, hc, parseFraction_ends rest hr, parseExponent_ends rest hr]
  simp

/-- The number reader on an integer part, a point, a fraction part and what ends
a value. -/
theorem parseUnsigned_fraction (neg : Bool) (L F : List Nat) (rest : QByteArray)
    (hd : ∀ d ∈ L, d < 10) (hne : L ≠ []) (hhead : 1 < L.length → L.head? ≠ some 0)
    (hF : ∀ d ∈ F, d < 10) (hFne : F ≠ []) (hr : endsValue rest = true) :
    parseUnsigned neg (digitBytes L ++ 46 :: (digitBytes F ++ rest))
      = some (mkDecimal neg L F 0, rest) := by
  unfold parseUnsigned
  have ht := takeDigits_digitBytes L (46 :: (digitBytes F ++ rest)) hd (by
    intro b t hb
    injection hb with hb _
    rw [← hb]
    decide)
  have htF := takeDigits_digitBytes F rest hF (endsValue_noDigit rest hr)
  have hc : (L.isEmpty || (decide (1 < L.length) && L.head? == some 0)) = false := by
    cases L with
    | nil => exact absurd rfl hne
    | cons x xs =>
      by_cases h1 : 1 < (x :: xs).length
      · have := hhead h1
        simp at this
        simp [this]
      · simp at h1
        simp [h1]
  have hFe : F.isEmpty = false := by
    cases F with
    | nil => exact absurd rfl hFne
    | cons _ _ => rfl
  simp only [ht, hc, parseFraction, htF, hFe]
  simp [parseExponent_ends rest hr]

theorem parseNumber_digit (L : List Nat) (rest : QByteArray) (hd : ∀ d ∈ L, d < 10)
    (hne : L ≠ []) : parseNumber (digitBytes L ++ rest) = parseUnsigned false (digitBytes L ++ rest) := by
  cases L with
  | nil => exact absurd rfl hne
  | cons x xs =>
    have hx : x < 10 := hd x (by simp)
    have h45 : UInt8.ofNat (48 + x) ≠ 45 := by
      intro h
      have := congrArg UInt8.toNat h
      rw [u8_ofNat_toNat _ (by omega)] at this
      have h' : (45 : UInt8).toNat = 45 := by decide
      omega
    unfold parseNumber digitBytes
    simp only [List.map_cons, List.cons_append]
    split
    · next t heq =>
      injection heq with h1 _
      exact absurd h1 h45
    · rfl

theorem text_of_natAbs (m : Int) (hm : m < 0) : toString m = "-" ++ toString m.natAbs := by
  cases m with
  | ofNat n => exact absurd hm (by simp)
  | negSucc n => rfl

theorem text_of_nonneg (m : Int) (hm : 0 ≤ m) : toString m = toString m.natAbs := by
  cases m with
  | ofNat n => rfl
  | negSucc n => exact absurd hm (by simp)

/-- The number reader reads back the text of a reduced decimal. -/
theorem parseNumber_text (d : Decimal) (rest : QByteArray)
    (hnorm : Decimal.reduce d.mant d.scale = d) (hr : endsValue rest = true) :
    parseNumber (toUtf8 d.text ++ rest) = some (d, rest) := by
  obtain ⟨m, k⟩ := d
  simp only at hnorm
  have hminus : toUtf8 "-" = [45] := by decide
  have hpoint : toUtf8 "." = [46] := by decide
  have hnegT : m < 0 →
      (if true = true then -((m.natAbs : Nat) : Int) else ((m.natAbs : Nat) : Int)) = m := by
    intro h
    rw [if_pos rfl]
    omega
  have hnegF : ¬ m < 0 →
      (if false = true then -((m.natAbs : Nat) : Int) else ((m.natAbs : Nat) : Int)) = m := by
    intro h
    rw [if_neg (by decide)]
    omega
  by_cases hk : k = 0
  · subst hk
    obtain ⟨L, hL, _, hd, hv, hne, hhead, _⟩ := toString_digits m.natAbs
    have hmk : ∀ neg : Bool, (if neg then -((m.natAbs : Nat) : Int) else ((m.natAbs : Nat) : Int)) = m →
        mkDecimal neg L [] 0 = ⟨m, 0⟩ := by
      intro neg hn
      rw [mkDecimal_zero_exponent]
      simp only [List.append_nil, hv, hn, List.length_nil]
      rfl
    unfold Decimal.text
    simp only [if_true]
    by_cases hm : m < 0
    · rw [text_of_natAbs m hm, toUtf8_append, hminus, hL]
      show parseUnsigned true (digitBytes L ++ rest) = _
      rw [parseUnsigned_integer true L rest hd hne hhead hr, hmk true (hnegT hm)]
    · rw [text_of_nonneg m (by omega), hL, parseNumber_digit L rest hd hne,
        parseUnsigned_integer false L rest hd hne hhead hr, hmk false (hnegF hm)]
  · obtain ⟨L, hL, _, hd, hv, hne, hhead, _⟩ := toString_digits (m.natAbs / 10 ^ k)
    obtain ⟨F, hF, hFlen, hFd, hFv, hFne, _, hFsize⟩ := toString_digits (m.natAbs % 10 ^ k)
    have hFk : F.length ≤ k := by
      by_cases hz : m.natAbs % 10 ^ k = 0
      · have := hFsize
        -- the digits of zero
        have h1 : F.length = 1 := by
          have hz' := toString_digits 0
          rw [hz] at hF hFlen
          have : (toString 0).length = 1 := by decide
          omega
        omega
      · have h1 := hFsize hz
        have h2 : m.natAbs % 10 ^ k < 10 ^ k := Nat.mod_lt _ (Nat.pos_pow_of_pos k (by decide))
        have h3 : 10 ^ (F.length - 1) < 10 ^ k := lt_of_le_of_lt h1 h2
        have h4 := (Nat.pow_lt_pow_iff_right (by decide : 1 < 10)).1 h3
        omega
    let Z := List.replicate (k - F.length) 0
    have hZbytes : toUtf8 (String.mk (List.replicate (k - (toString (m.natAbs % 10 ^ k)).length) '0'))
        = digitBytes Z := by
      rw [hFlen, toUtf8_mk]
      show _ = List.map _ (List.replicate _ _)
      rw [List.map_replicate, List.map_replicate]
      generalize k - F.length = j
      induction j with
      | zero => rfl
      | succ j ih =>
        rw [List.replicate_succ, List.replicate_succ, List.flatten_cons, ih]
        rfl
    have hfrac : digitBytes Z ++ digitBytes F = digitBytes (Z ++ F) := by
      simp [digitBytes]
    have hZF : ∀ x ∈ Z ++ F, x < 10 := by
      intro x hx
      rcases List.mem_append.1 hx with h | h
      · rw [List.eq_of_mem_replicate h]
        decide
      · exact hFd x h
    have hZFne : Z ++ F ≠ [] := by simp [hFne]
    have hlen : (Z ++ F).length = k := by
      simp [Z]
      omega
    have hval : digitsValue (L ++ (Z ++ F)) = m.natAbs := by
      rw [digitsValue_append, hlen, digitsValue_zeros, hv, hFv]
      exact Nat.div_add_mod' _ _
    have hmk : ∀ neg : Bool, (if neg then -((m.natAbs : Nat) : Int) else ((m.natAbs : Nat) : Int)) = m →
        mkDecimal neg L (Z ++ F) 0 = ⟨m, k⟩ := by
      intro neg hn
      rw [mkDecimal_zero_exponent, hval, hn, hlen, hnorm]
    unfold Decimal.text
    simp only [hk, if_false]
    by_cases hm : m < 0
    · simp only [hm, if_true, toUtf8_append, hminus, hpoint, hL, hF, hZbytes, List.append_assoc]
      show parseUnsigned true (digitBytes L ++ 46 :: (digitBytes Z ++ (digitBytes F ++ rest))) = _
      rw [← List.append_assoc (digitBytes Z), hfrac,
        parseUnsigned_fraction true L (Z ++ F) rest hd hne hhead hZF hZFne hr,
        hmk true (hnegT hm)]
    · have he : toUtf8 "" = [] := rfl
      simp only [hm, if_false, toUtf8_append, he, hpoint, hL, hF, hZbytes, List.append_assoc,
        List.nil_append]
      rw [parseNumber_digit L _ hd hne]
      show parseUnsigned false (digitBytes L ++ 46 :: (digitBytes Z ++ (digitBytes F ++ rest))) = _
      rw [← List.append_assoc (digitBytes Z), hfrac,
        parseUnsigned_fraction false L (Z ++ F) rest hd hne hhead hZF hZFne hr,
        hmk false (hnegF hm)]

/-! ## Reading back what the writer wrote: values -/

theorem eatSpace_cons (b : UInt8) (t : QByteArray) (h : isSpace b = false) :
    eatSpace (b :: t) = b :: t := by
  simp [eatSpace, h]

theorem insert_append (k : String) (v : QJsonValue) :
    ∀ (acc : QJsonObject), (∀ a ∈ acc, (k == a.1) = false ∧ keyLt k a.1 = false) →
      QJsonObject.insert acc k v = acc ++ [(k, v)]
  | [], _ => rfl
  | (k', v') :: t, h => by
    have h1 := h (k', v') (by simp)
    have ih := insert_append k v t (fun a ha => h a (by simp [ha]))
    simp only [QJsonObject.insert, h1.1, h1.2, ih]
    simp

theorem digitBytes_head (L : List Nat) (hd : ∀ d ∈ L, d < 10) (hne : L ≠ []) :
    ∃ b t, digitBytes L = b :: t ∧ 48 ≤ b.toNat ∧ b.toNat ≤ 57 := by
  cases L with
  | nil => exact absurd rfl hne
  | cons x xs =>
    have hx : x < 10 := hd x (by simp)
    refine ⟨UInt8.ofNat (48 + x), digitBytes xs, rfl, ?_, ?_⟩
    · rw [u8_ofNat_toNat _ (by omega)]; omega
    · rw [u8_ofNat_toNat _ (by omega)]; omega

/-- The text of a number starts with a minus sign or a digit. -/
theorem text_head (d : Decimal) :
    ∃ b t, toUtf8 d.text = b :: t ∧ (b = 45 ∨ (48 ≤ b.toNat ∧ b.toNat ≤ 57)) := by
  have hminus : toUtf8 "-" = [45] := by decide
  have hnat : ∀ (n : Nat) (rest : QByteArray),
      ∃ b t, toUtf8 (toString n) ++ rest = b :: t ∧ 48 ≤ b.toNat ∧ b.toNat ≤ 57 := by
    intro n rest
    obtain ⟨L, hL, _, hd, _, hne, _, _⟩ := toString_digits n
    obtain ⟨b, t, hb, h1, h2⟩ := digitBytes_head L hd hne
    exact ⟨b, t ++ rest, by rw [hL, hb]; rfl, h1, h2⟩
  unfold Decimal.text
  by_cases hk : d.scale = 0
  · simp only [hk, if_true]
    by_cases hm : d.mant < 0
    · rw [text_of_natAbs _ hm, toUtf8_append, hminus]
      exact ⟨45, _, rfl, Or.inl rfl⟩
    · rw [text_of_nonneg _ (by omega)]
      obtain ⟨b, t, hb, h⟩ := hnat d.mant.natAbs []
      rw [List.append_nil] at hb
      exact ⟨b, t, hb, Or.inr h⟩
  · simp only [hk, if_false]
    by_cases hm : d.mant < 0
    · simp only [hm, if_true, toUtf8_append, hminus, List.append_assoc]
      exact ⟨45, _, rfl, Or.inl rfl⟩
    · have he : toUtf8 "" = [] := rfl
      simp only [hm, if_false, toUtf8_append, he, List.nil_append, List.append_assoc]
      obtain ⟨b, t, hb, h⟩ := hnat (d.mant.natAbs / 10 ^ d.scale) _
      exact ⟨b, t, hb, Or.inr h⟩

/-- The bytes of a value start with a byte that is neither white space nor a
closing bracket. -/
theorem valueToJson_head (v : QJsonValue) :
    ∃ b t, valueToJson v = b :: t ∧ isSpace b = false ∧ b ≠ 93 := by
  cases v with
  | null => exact ⟨110, _, by simp [valueToJson]; rfl, by decide, by decide⟩
  | undefined => exact ⟨110, _, by simp [valueToJson]; rfl, by decide, by decide⟩
  | bool b =>
    cases b
    · exact ⟨102, _, by simp [valueToJson]; rfl, by decide, by decide⟩
    · exact ⟨116, _, by simp [valueToJson]; rfl, by decide, by decide⟩
  | string s => exact ⟨34, _, by simp [valueToJson]; rfl, by decide, by decide⟩
  | array a => exact ⟨91, _, by simp [valueToJson]; rfl, by decide, by decide⟩
  | object o => exact ⟨123, _, by simp [valueToJson]; rfl, by decide, by decide⟩
  | double d =>
    obtain ⟨b, t, hb, h⟩ := text_head d
    refine ⟨b, t, by simp [valueToJson, hb], ?_, ?_⟩
    · rcases h with h | h
      · rw [h]; decide
      · simp only [isSpace, Bool.or_eq_false_iff, beq_eq_false_iff_ne, ne_eq]
        refine ⟨⟨⟨?_, ?_⟩, ?_⟩, ?_⟩ <;>
        · intro hb'
          rw [hb'] at h
          revert h
          decide
    · rcases h with h | h
      · rw [h]; decide
      · intro hb'
        rw [hb'] at h
        revert h
        decide

theorem stripLiteral_ne (p : String) (c : UInt8) (cs : QByteArray) (b : UInt8) (t : QByteArray)
    (hp : toUtf8 p = c :: cs) (hb : b ≠ c) : stripLiteral p (b :: t) = none := by
  unfold stripLiteral
  rw [hp]
  have : (c == b) = false := by
    simp only [beq_eq_false_iff_ne, ne_eq]
    exact fun h => hb h.symm
  simp [List.isPrefixOf, this]

theorem stripLiteral_self (p : String) (rest : QByteArray) :
    stripLiteral p (toUtf8 p ++ rest) = some rest := by
  unfold stripLiteral
  simp

theorem parseValue_null (fuel depth : Nat) (rest : QByteArray) :
    parseValue (fuel + 1) depth (toUtf8 "null" ++ rest) = some (QJsonValue.null, rest) := by
  have h := stripLiteral_self "null" rest
  have hb : toUtf8 "null" = [110, 117, 108, 108] := by decide
  rw [hb] at h ⊢
  simp only [List.cons_append, List.nil_append] at h ⊢
  unfold parseValue
  simp only [h]
  simp

theorem parseValue_true (fuel depth : Nat) (rest : QByteArray) :
    parseValue (fuel + 1) depth (toUtf8 "true" ++ rest) = some (QJsonValue.bool true, rest) := by
  have h := stripLiteral_self "true" rest
  have hb : toUtf8 "true" = [116, 114, 117, 101] := by decide
  have hn := stripLiteral_ne "null" 110 [117, 108, 108] 116 (114 :: 117 :: 101 :: rest)
    (by decide) (by decide)
  rw [hb] at h ⊢
  simp only [List.cons_append, List.nil_append] at h ⊢
  unfold parseValue
  simp only [h, hn]
  simp

theorem parseValue_false (fuel depth : Nat) (rest : QByteArray) :
    parseValue (fuel + 1) depth (toUtf8 "false" ++ rest) = some (QJsonValue.bool false, rest) := by
  have h := stripLiteral_self "false" rest
  have hb : toUtf8 "false" = [102, 97, 108, 115, 101] := by decide
  have hn := stripLiteral_ne "null" 110 [117, 108, 108] 102 (97 :: 108 :: 115 :: 101 :: rest)
    (by decide) (by decide)
  have ht := stripLiteral_ne "true" 116 [114, 117, 101] 102 (97 :: 108 :: 115 :: 101 :: rest)
    (by decide) (by decide)
  rw [hb] at h ⊢
  simp only [List.cons_append, List.nil_append] at h ⊢
  unfold parseValue
  simp only [h, hn, ht]
  simp

theorem parseValue_string (fuel depth : Nat) (s : String) (rest : QByteArray) :
    parseValue (fuel + 1) depth (34 :: escapedString s ++ [34] ++ rest)
      = some (QJsonValue.string s, rest) := by
  have hlen := escapedString_length s
  have hp := parseString_escaped s.data ((escapedString s ++ 34 :: rest).length + 1) rest (by
    simp only [List.length_append, List.length_cons]
    omega)
  unfold escapedString at hp hlen
  unfold parseValue escapedString
  simp only [List.cons_append, List.append_assoc, List.singleton_append, List.nil_append,
    if_true, hp]

theorem parseValue_double (fuel depth : Nat) (d : Decimal) (rest : QByteArray)
    (hnorm : Decimal.reduce d.mant d.scale = d) (hr : endsValue rest = true) :
    parseValue (fuel + 1) depth (toUtf8 d.text ++ rest) = some (QJsonValue.double d, rest) := by
  have hp := parseNumber_text d rest hnorm hr
  obtain ⟨b, t, hb, h⟩ := text_head d
  rw [hb] at hp ⊢
  simp only [List.cons_append] at hp ⊢
  have hne : ∀ c : UInt8, ¬ (c = 45 ∨ (48 ≤ c.toNat ∧ c.toNat ≤ 57)) → b ≠ c := by
    intro c hc hbc
    rw [hbc] at h
    exact hc h
  have h34 : b ≠ 34 := hne 34 (by decide)
  have h91 : b ≠ 91 := hne 91 (by decide)
  have h123 : b ≠ 123 := hne 123 (by decide)
  have hn := stripLiteral_ne "null" 110 [117, 108, 108] b (t ++ rest) (by decide)
    (hne 110 (by decide))
  have ht := stripLiteral_ne "true" 116 [114, 117, 101] b (t ++ rest) (by decide)
    (hne 116 (by decide))
  have hf := stripLiteral_ne "false" 102 [97, 108, 115, 101] b (t ++ rest) (by decide)
    (hne 102 (by decide))
  unfold parseValue
  simp only [h34, h91, h123, if_false, hn, ht, hf, hp]

theorem parseValue_array_nil (fuel depth : Nat) (rest : QByteArray) (hd : depth < 1024) :
    parseValue (fuel + 1) depth (91 :: 93 :: rest) = some (QJsonValue.array [], rest) := by
  have h1 : ¬ ((91 : UInt8) = 34) := by decide
  have h2 : ¬ (1024 ≤ depth) := by omega
  have h3 : eatSpace (93 :: rest) = 93 :: rest := eatSpace_cons _ _ (by decide)
  unfold parseValue
  simp only [h1, h2, h3, if_false, if_true]

theorem parseValue_array_cons (fuel depth : Nat) (b0 : UInt8) (t0 : QByteArray)
    (hd : depth < 1024) (hs : isSpace b0 = false) (hb : b0 ≠ 93) :
    parseValue (fuel + 1) depth (91 :: b0 :: t0)
      = match parseElements fuel (depth + 1) (b0 :: t0) with
        | some (a, r) => some (QJsonValue.array a, r)
        | none => none := by
  have h1 : ¬ ((91 : UInt8) = 34) := by decide
  have h2 : ¬ (1024 ≤ depth) := by omega
  have h3 : eatSpace (b0 :: t0) = b0 :: t0 := eatSpace_cons _ _ hs
  unfold parseValue
  simp only [h1, h2, h3, if_false, if_true]
  split
  · next r heq =>
    injection heq with h _
    exact absurd h hb
  · rfl

theorem parseValue_object_nil (fuel depth : Nat) (rest : QByteArray) (hd : depth < 1024) :
    parseValue (fuel + 1) depth (123 :: 125 :: rest) = some (QJsonValue.object [], rest) := by
  have h1 : ¬ ((123 : UInt8) = 34) := by decide
  have h1' : ¬ ((123 : UInt8) = 91) := by decide
  have h2 : ¬ (1024 ≤ depth) := by omega
  have h3 : eatSpace (125 :: rest) = 125 :: rest := eatSpace_cons _ _ (by decide)
  unfold parseValue
  simp only [h1, h1', h2, h3, if_false, if_true]

theorem parseValue_object_cons (fuel depth : Nat) (t0 : QByteArray) (hd : depth < 1024) :
    parseValue (fuel + 1) depth (123 :: 34 :: t0)
      = match parseMembers fuel (depth + 1) [] (34 :: t0) with
        | some (o, r) => some (QJsonValue.object o, r)
        | none => none := by
  have h1 : ¬ ((123 : UInt8) = 34) := by decide
  have h1' : ¬ ((123 : UInt8) = 91) := by decide
  have h2 : ¬ (1024 ≤ depth) := by omega
  have h3 : eatSpace (34 :: t0) = 34 :: t0 := eatSpace_cons _ _ (by decide)
  unfold parseValue
  simp only [h1, h1', h2, h3, if_false, if_true]
  split
  · next r heq =>
    injection heq with h _
    exact absurd h (by decide)
  · rfl

theorem parseElements_last (fuel depth : Nat) (json rest : QByteArray) (v : QJsonValue)
    (h : parseValue fuel depth json = some (v, 93 :: rest)) :
    parseElements (fuel + 1) depth json = some ([v], rest) := by
  have h3 : eatSpace (93 :: rest) = 93 :: rest := eatSpace_cons _ _ (by decide)
  unfold parseElements
  simp only [h, h3]

theorem parseElements_more (fuel depth : Nat) (json : QByteArray) (v : QJsonValue) (b0 : UInt8)
    (t0 : QByteArray) (a : List QJsonValue) (r : QByteArray)
    (h : parseValue fuel depth json = some (v, 44 :: b0 :: t0)) (hs : isSpace b0 = false)
    (ht : parseElements fuel depth (b0 :: t0) = some (a, r)) :
    parseElements (fuel + 1) depth json = some (v :: a, r) := by
  have h3 : eatSpace (44 :: b0 :: t0) = 44 :: b0 :: t0 := eatSpace_cons _ _ (by decide)
  have h4 : eatSpace (b0 :: t0) = b0 :: t0 := eatSpace_cons _ _ hs
  unfold parseElements
  simp only [h, h3, h4, ht]

/-- The member reader at a key: the key is read back and the colon passed. -/
theorem parseMembers_key (fuel depth : Nat) (acc : QJsonObject) (k : String) (b0 : UInt8)
    (t0 : QByteArray) (hs : isSpace b0 = false) :
    parseMembers (fuel + 1) depth acc (34 :: escapedString k ++ [34, 58] ++ (b0 :: t0))
      = match parseValue fuel depth (b0 :: t0) with
        | none => none
        | some (v, r) =>
          match eatSpace r with
          | 125 :: r => some (QJsonObject.insert acc k v, r)
          | 44 :: r => parseMembers fuel depth (QJsonObject.insert acc k v) (eatSpace r)
          | _ => none := by
  have hlen := escapedString_length k
  have hp := parseString_escaped k.data
    ((escapedString k ++ 34 :: 58 :: b0 :: t0).length + 1) (58 :: b0 :: t0) (by
      simp only [List.length_append, List.length_cons]
      omega)
  have h3 : eatSpace (58 :: b0 :: t0) = 58 :: b0 :: t0 := eatSpace_cons _ _ (by decide)
  have h4 : eatSpace (b0 :: t0) = b0 :: t0 := eatSpace_cons _ _ hs
  unfold escapedString at hp hlen
  conv_lhs => unfold parseMembers
  unfold escapedString
  simp only [List.cons_append, List.append_assoc, List.singleton_append, List.nil_append,
    hp, h3, h4]

theorem parseMembers_last (fuel depth : Nat) (acc : QJsonObject) (k : String) (b0 : UInt8)
    (t0 rest : QByteArray) (v : QJsonValue) (hs : isSpace b0 = false)
    (h : parseValue fuel depth (b0 :: t0) = some (v, 125 :: rest)) :
    parseMembers (fuel + 1) depth acc (34 :: escapedString k ++ [34, 58] ++ (b0 :: t0))
      = some (QJsonObject.insert acc k v, rest) := by
  have h3 : eatSpace (125 :: rest) = 125 :: rest := eatSpace_cons _ _ (by decide)
  rw [parseMembers_key fuel depth acc k b0 t0 hs, h]
  simp only [h3]

theorem parseMembers_more (fuel depth : Nat) (acc : QJsonObject) (k : String) (b0 : UInt8)
    (t0 t1 : QByteArray) (v : QJsonValue) (hs : isSpace b0 = false)
    (h : parseValue fuel depth (b0 :: t0) = some (v, 44 :: 34 :: t1)) :
    parseMembers (fuel + 1) depth acc (34 :: escapedString k ++ [34, 58] ++ (b0 :: t0))
      = parseMembers fuel depth (QJsonObject.insert acc k v) (34 :: t1) := by
  have h3 : eatSpace (44 :: 34 :: t1) = 44 :: 34 :: t1 := eatSpace_cons _ _ (by decide)
  have h4 : eatSpace (34 :: t1) = 34 :: t1 := eatSpace_cons _ _ (by decide)
  rw [parseMembers_key fuel depth acc k b0 t0 hs, h]
  simp only [h3, h4]

theorem fuel_succ (n fuel : Nat) (h : n + 1 ≤ fuel) : ∃ f, fuel = f + 1 ∧ n ≤ f :=
  ⟨fuel - 1, by omega, by omega⟩

theorem fuel_pos (fuel : Nat) (h : 1 ≤ fuel) : ∃ f, fuel = f + 1 :=
  ⟨fuel - 1, by omega⟩

mutual
/-- The parser reads back a well-formed value from the bytes the writer emits for
it, when what follows ends a value. -/
theorem parseValue_written :
    ∀ (v : QJsonValue) (fuel depth : Nat) (rest : QByteArray),
      fuelFor v ≤ fuel → wellFormed depth v → endsValue rest = true →
      parseValue fuel depth (valueToJson v ++ rest) = some (v, rest)
  | QJsonValue.null, fuel, depth, rest, hf, _, _ => by
    obtain ⟨f, rfl⟩ := fuel_pos fuel (by simpa [fuelFor] using hf)
    simp only [valueToJson]
    exact parseValue_null f depth rest
  | QJsonValue.undefined, _, _, _, _, hw, _ => by
    simp [wellFormed] at hw
  | QJsonValue.bool b, fuel, depth, rest, hf, _, _ => by
    obtain ⟨f, rfl⟩ := fuel_pos fuel (by simpa [fuelFor] using hf)
    cases b
    · simp only [valueToJson]
      exact parseValue_false f depth rest
    · simp only [valueToJson]
      exact parseValue_true f depth rest
  | QJsonValue.double d, fuel, depth, rest, hf, hw, hr => by
    obtain ⟨f, rfl⟩ := fuel_pos fuel (by simpa [fuelFor] using hf)
    simp only [valueToJson]
    exact parseValue_double f depth d rest (by simpa [wellFormed] using hw) hr
  | QJsonValue.string s, fuel, depth, rest, hf, _, _ => by
    obtain ⟨f, rfl⟩ := fuel_pos fuel (by simpa [fuelFor] using hf)
    simp only [valueToJson]
    exact parseValue_string f depth s rest
  | QJsonValue.array a, fuel, depth, rest, hf, hw, _ => by
    obtain ⟨f, rfl, hfa⟩ := fuel_succ (fuelForElements a) fuel (by simpa [fuelFor] using hf)
    simp only [wellFormed] at hw
    simp only [valueToJson, List.cons_append, List.append_assoc, List.singleton_append,
      List.nil_append]
    by_cases ha : a = []
    · subst ha
      simp only [arrayContentToJson, List.nil_append]
      exact parseValue_array_nil f depth rest hw.1
    · have ih := parseElements_written a f (depth + 1) rest ha hfa hw.2
      obtain ⟨x, xs, hx⟩ : ∃ x xs, a = x :: xs := by
        cases a with
        | nil => exact absurd rfl ha
        | cons x xs => exact ⟨x, xs, rfl⟩
      obtain ⟨b0, t0, hb, hs, h93⟩ := valueToJson_head x
      have hcontent : arrayContentToJson a ++ 93 :: rest
          = b0 :: (t0 ++ ((if xs.isEmpty then [] else 44 :: arrayContentToJson xs)
              ++ 93 :: rest)) := by
        rw [hx]
        simp only [arrayContentToJson, hb, List.cons_append, List.append_assoc]
      rw [hcontent] at ih ⊢
      rw [parseValue_array_cons f depth b0 _ hw.1 hs h93, ih]
  | QJsonValue.object o, fuel, depth, rest, hf, hw, _ => by
    obtain ⟨f, rfl, hfo⟩ := fuel_succ (fuelForMembers o) fuel (by simpa [fuelFor] using hf)
    simp only [wellFormed] at hw
    simp only [valueToJson, List.cons_append, List.append_assoc, List.singleton_append,
      List.nil_append]
    by_cases ho : o = []
    · subst ho
      simp only [objectContentToJson, List.nil_append]
      exact parseValue_object_nil f depth rest hw.1
    · have ih := parseMembers_written o f (depth + 1) [] rest ho hfo hw.2 (by simp)
      obtain ⟨k, x, xs, hx⟩ : ∃ k x xs, o = (k, x) :: xs := by
        cases o with
        | nil => exact absurd rfl ho
        | cons m xs => exact ⟨m.1, m.2, xs, rfl⟩
      have hcontent : ∃ t0, objectContentToJson o ++ 125 :: rest = 34 :: t0 := by
        rw [hx]
        exact ⟨_, by simp only [objectContentToJson, List.cons_append]; rfl⟩
      obtain ⟨t0, ht0⟩ := hcontent
      rw [ht0] at ih ⊢
      rw [parseValue_object_cons f depth t0 hw.1, ih]
      simp
/-- The statement of `parseValue_written` for the elements of an array, up to the
closing bracket. -/
theorem parseElements_written :
    ∀ (a : List QJsonValue) (fuel depth : Nat) (rest : QByteArray), a ≠ [] →
      fuelForElements a ≤ fuel → wellFormedElements depth a →
      parseElements fuel depth (arrayContentToJson a ++ 93 :: rest) = some (a, rest)
  | [], _, _, _, hne, _, _ => absurd rfl hne
  | v :: t, fuel, depth, rest, _, hf, hw => by
    obtain ⟨f, rfl, hfv⟩ := fuel_succ (max (fuelFor v) (fuelForElements t)) fuel
      (by simpa [fuelForElements] using hf)
    simp only [wellFormedElements] at hw
    by_cases ht : t = []
    · subst ht
      have ihv := parseValue_written v f depth (93 :: rest) (le_trans (le_max_left _ _) hfv)
        hw.1 (by rfl)
      simp only [arrayContentToJson, List.isEmpty_nil, if_true, List.append_nil]
      exact parseElements_last f depth _ rest v ihv
    · have iht := parseElements_written t f depth rest ht (le_trans (le_max_right _ _) hfv) hw.2
      obtain ⟨x, xs, hx⟩ : ∃ x xs, t = x :: xs := by
        cases t with
        | nil => exact absurd rfl ht
        | cons x xs => exact ⟨x, xs, rfl⟩
      obtain ⟨b0, t0, hb, hs, _⟩ := valueToJson_head x
      have hcontent : arrayContentToJson t ++ 93 :: rest
          = b0 :: (t0 ++ ((if xs.isEmpty then [] else 44 :: arrayContentToJson xs)
              ++ 93 :: rest)) := by
        rw [hx]
        simp only [arrayContentToJson, hb, List.cons_append, List.append_assoc]
      have ihv := parseValue_written v f depth (44 :: (arrayContentToJson t ++ 93 :: rest))
        (le_trans (le_max_left _ _) hfv) hw.1 (by rfl)
      have hte : t.isEmpty = false := by
        rw [hx]
        rfl
      have hjson : arrayContentToJson (v :: t) ++ 93 :: rest
          = valueToJson v ++ 44 :: (arrayContentToJson t ++ 93 :: rest) := by
        simp only [arrayContentToJson, hte, List.append_assoc, List.cons_append]
        simp
      rw [hjson, hcontent]
      rw [hcontent] at ihv iht
      exact parseElements_more f depth _ v b0 _ t rest ihv hs iht
/-- The statement of `parseValue_written` for the members of an object, up to the
closing brace: they are appended to the members read so far, whose keys come
before theirs. -/
theorem parseMembers_written :
    ∀ (o : List (String × QJsonValue)) (fuel depth : Nat) (acc : QJsonObject)
      (rest : QByteArray), o ≠ [] → fuelForMembers o ≤ fuel → wellFormedMembers depth o →
      (∀ a ∈ acc, ∀ x ∈ o, (x.1 == a.1) = false ∧ keyLt x.1 a.1 = false) →
      parseMembers fuel depth acc (objectContentToJson o ++ 125 :: rest) = some (acc ++ o, rest)
  | [], _, _, _, _, hne, _, _, _ => absurd rfl hne
  | (k, v) :: t, fuel, depth, acc, rest, _, hf, hw, hacc => by
    obtain ⟨f, rfl, hfv⟩ := fuel_succ (max (fuelFor v) (fuelForMembers t)) fuel
      (by simpa [fuelForMembers] using hf)
    simp only [wellFormedMembers] at hw
    have hins : QJsonObject.insert acc k v = acc ++ [(k, v)] :=
      insert_append k v acc (fun a ha => hacc a ha (k, v) (by simp))
    obtain ⟨b0, t0, hb, hs, _⟩ := valueToJson_head v
    by_cases ht : t = []
    · subst ht
      have ihv := parseValue_written v f depth (125 :: rest) (le_trans (le_max_left _ _) hfv)
        hw.1 (by rfl)
      have hjson : objectContentToJson [(k, v)] ++ 125 :: rest
          = 34 :: escapedString k ++ [34, 58] ++ (b0 :: (t0 ++ 125 :: rest)) := by
        simp only [objectContentToJson, hb, List.isEmpty_nil, if_true, List.append_nil,
          List.cons_append, List.append_assoc]
      rw [hb] at ihv
      simp only [List.cons_append] at ihv
      rw [hjson, parseMembers_last f depth acc k b0 _ rest v hs ihv, hins]
    · obtain ⟨m, xs, hx⟩ : ∃ m xs, t = m :: xs := by
        cases t with
        | nil => exact absurd rfl ht
        | cons m xs => exact ⟨m, xs, rfl⟩
      have hcontent : ∃ t1, objectContentToJson t ++ 125 :: rest = 34 :: t1 := by
        rw [hx]
        obtain ⟨k2, v2⟩ := m
        exact ⟨_, by simp only [objectContentToJson, List.cons_append]; rfl⟩
      obtain ⟨t1, ht1⟩ := hcontent
      have iht := parseMembers_written t f depth (acc ++ [(k, v)]) rest ht
        (le_trans (le_max_right _ _) hfv) hw.2.2 (by
          intro a ha x hxm
          rcases List.mem_append.1 ha with h | h
          · exact hacc a h x (by simp [hxm])
          · simp only [List.mem_singleton] at h
            rw [h]
            exact hw.2.1 x hxm)
      have ihv := parseValue_written v f depth (44 :: (objectContentToJson t ++ 125 :: rest))
        (le_trans (le_max_left _ _) hfv) hw.1 (by rfl)
      have hte : t.isEmpty = false := by
        rw [hx]
        rfl
      have hjson : objectContentToJson ((k, v) :: t) ++ 125 :: rest
          = 34 :: escapedString k ++ [34, 58]
            ++ (b0 :: (t0 ++ 44 :: (objectContentToJson t ++ 125 :: rest))) := by
        simp only [objectContentToJson, hb, hte, List.cons_append, List.append_assoc]
        simp
      rw [hb, ht1] at ihv
      simp only [List.cons_append] at ihv
      rw [ht1] at iht hjson
      rw [hjson, parseMembers_more f depth acc k b0 _ t1 v hs ihv, hins, iht]
      simp
end

mutual
/-- The fuel a value needs is bounded by the number of bytes written for it. -/
theorem fuelFor_le :
    ∀ v : QJsonValue, fuelFor v ≤ (valueToJson v).length
  | QJsonValue.null => by
    obtain ⟨b, t, hb, _⟩ := valueToJson_head QJsonValue.null
    rw [hb]; simp [fuelFor]
  | QJsonValue.undefined => by
    obtain ⟨b, t, hb, _⟩ := valueToJson_head QJsonValue.undefined
    rw [hb]; simp [fuelFor]
  | QJsonValue.bool x => by
    obtain ⟨b, t, hb, _⟩ := valueToJson_head (QJsonValue.bool x)
    rw [hb]; simp [fuelFor]
  | QJsonValue.double d => by
    obtain ⟨b, t, hb, _⟩ := valueToJson_head (QJsonValue.double d)
    rw [hb]; simp [fuelFor]
  | QJsonValue.string s => by
    obtain ⟨b, t, hb, _⟩ := valueToJson_head (QJsonValue.string s)
    rw [hb]; simp [fuelFor]
  | QJsonValue.array a => by
    have := fuelForElements_le a
    simp only [fuelFor, valueToJson, List.length_cons, List.length_append, List.length_nil]
    omega
  | QJsonValue.object o => by
    have := fuelForMembers_le o
    simp only [fuelFor, valueToJson, List.length_cons, List.length_append, List.length_nil]
    omega
/-- The statement of `fuelFor_le` for the elements of an array. -/
theorem fuelForElements_le :
    ∀ a : List QJsonValue, fuelForElements a ≤ (arrayContentToJson a).length + 1
  | [] => by simp [fuelForElements]
  | v :: t => by
    have h1 := fuelFor_le v
    have h2 := fuelForElements_le t
    by_cases ht : t = []
    · subst ht
      simp only [fuelForElements, arrayContentToJson, List.isEmpty_nil, if_true,
        List.append_nil] at h2 ⊢
      omega
    · have hte : t.isEmpty = false := by
        cases t with
        | nil => exact absurd rfl ht
        | cons _ _ => rfl
      simp only [fuelForElements, arrayContentToJson, hte, List.length_append,
        List.length_cons]
      simp
      omega
/-- The statement of `fuelFor_le` for the members of an object. -/
theorem fuelForMembers_le :
    ∀ o : List (String × QJsonValue), fuelForMembers o ≤ (objectContentToJson o).length + 1
  | [] => by simp [fuelForMembers]
  | (k, v) :: t => by
    have h1 := fuelFor_le v
    have h2 := fuelForMembers_le t
    by_cases ht : t = []
    · subst ht
      simp only [fuelForMembers, objectContentToJson, List.isEmpty_nil, if_true,
        List.append_nil, List.length_append, List.length_cons] at h2 ⊢
      omega
    · have hte : t.isEmpty = false := by
        cases t with
        | nil => exact absurd rfl ht
        | cons _ _ => rfl
      simp only [fuelForMembers, objectContentToJson, hte, List.length_append,
        List.length_cons]
      simp
      omega
end

/-- The parser reads back a well-formed object from the bytes the writer emits
for it. -/
theorem parseJson_written (o : QJsonObject) (hw : wellFormed 0 (QJsonValue.object o)) :
    parseJson (valueToJson (QJsonValue.object o)) = some (QJsonValue.object o) := by
  have hfuel := fuelFor_le (QJsonValue.object o)
  have hp := parseValue_written (QJsonValue.object o)
    (2 * (valueToJson (QJsonValue.object o)).length + 2) 0 [] (by omega) hw rfl
  rw [List.append_nil] at hp
  have hhead : ∃ t, valueToJson (QJsonValue.object o) = 123 :: t :=
    ⟨_, by simp only [valueToJson]; rfl⟩
  obtain ⟨t, ht⟩ := hhead
  rw [ht] at hp ⊢
  have h3 : eatSpace (123 :: t) = 123 :: t := eatSpace_cons _ _ (by decide)
  have hdef : parseJson (123 :: t)
      = match eatSpace (123 :: t) with
        | b :: t' =>
          if b = 91 ∨ b = 123 then
            match parseValue (2 * (123 :: t).length + 2) 0 (b :: t') with
            | some (v, r) => if (eatSpace r).isEmpty then some v else none
            | none => none
          else none
        | [] => none := by
    rfl
  rw [hdef, h3]
  simp only [or_true, if_true, hp]
  rfl

/-- The document a written well-formed object is read back as. -/
theorem fromJson_written (o : QJsonObject) (hw : wellFormed 0 (QJsonValue.object o)) :
    QJsonDocument.fromJson (valueToJson (QJsonValue.object o))
      = (QJsonDocument.object o, false) := by
  unfold QJsonDocument.fromJson
  rw [parseJson_written o hw]

/-! ## What the parser builds is well formed -/

theorem reduce_reduce : ∀ (k : Nat) (m : Int),
    Decimal.reduce (Decimal.reduce m k).mant (Decimal.reduce m k).scale = Decimal.reduce m k
  | 0, m => rfl
  | k + 1, m => by
    by_cases h : m % 10 = 0
    · have : Decimal.reduce m (k + 1) = Decimal.reduce (m / 10) k := by
        simp [Decimal.reduce, h]
      rw [this]
      exact reduce_reduce k (m / 10)
    · have : Decimal.reduce m (k + 1) = ⟨m, k + 1⟩ := by
        simp [Decimal.reduce, h]
      rw [this]
      exact this

theorem mkDecimal_reduced (neg : Bool) (ip fp : List Nat) (ex : Int) :
    Decimal.reduce (mkDecimal neg ip fp ex).mant (mkDecimal neg ip fp ex).scale
      = mkDecimal neg ip fp ex := by
  unfold mkDecimal
  simp only
  split <;> exact reduce_reduce _ _

theorem parseUnsigned_reduced (neg : Bool) (json : QByteArray) (d : Decimal) (r : QByteArray)
    (h : parseUnsigned neg json = some (d, r)) : Decimal.reduce d.mant d.scale = d := by
  unfold parseUnsigned at h
  simp only at h
  split_ifs at h
  split at h
  · cases h
  · split at h
    · cases h
    · simp only [Option.some.injEq, Prod.mk.injEq] at h
      rw [← h.1]
      exact mkDecimal_reduced _ _ _ _

theorem parseNumber_reduced (json : QByteArray) (d : Decimal) (r : QByteArray)
    (h : parseNumber json = some (d, r)) : Decimal.reduce d.mant d.scale = d := by
  unfold parseNumber at h
  split at h <;> exact parseUnsigned_reduced _ _ d r h

theorem keyLt_asymm (a b : String) (h : keyLt a b = true) : keyLt b a = false := by
  unfold keyLt at *
  simp only [decide_eq_true_eq, decide_eq_false_iff_not] at *
  exact lt_asymm h

theorem keyLt_trans (a b c : String) (h1 : keyLt a b = true) (h2 : keyLt b c = true) :
    keyLt a c = true := by
  unfold keyLt at *
  simp only [decide_eq_true_eq] at *
  exact lt_trans h1 h2

theorem mem_insert (k : String) (v : QJsonValue) :
    ∀ (acc : QJsonObject) (m : String × QJsonValue), m ∈ QJsonObject.insert acc k v →
      m = (k, v) ∨ m ∈ acc
  | [], m, h => by
    simp [QJsonObject.insert] at h
    exact Or.inl h
  | (k', v') :: t, m, h => by
    unfold QJsonObject.insert at h
    split_ifs at h with h1 h2
    · simp only [List.mem_cons] at h
      rcases h with h | h
      · exact Or.inl h
      · exact Or.inr (by simp [h])
    · simp only [List.mem_cons] at h
      rcases h with h | h | h
      · exact Or.inl h
      · exact Or.inr (by simp [h])
      · exact Or.inr (by simp [h])
    · simp only [List.mem_cons] at h
      rcases h with h | h
      · exact Or.inr (by simp [h])
      · rcases mem_insert k v t m h with h' | h'
        · exact Or.inl h'
        · exact Or.inr (by simp [h'])

/-- Inserting a member keeps an object well formed. -/
theorem insert_wellFormed (depth : Nat) (k : String) (v : QJsonValue)
    (hv : wellFormed depth v) :
    ∀ (acc : QJsonObject), wellFormedMembers depth acc →
      wellFormedMembers depth (QJsonObject.insert acc k v)
  | [], _ => by
    simp [QJsonObject.insert, wellFormedMembers, hv]
  | (k', v') :: t, h => by
    simp only [wellFormedMembers] at h
    unfold QJsonObject.insert
    split_ifs with h1 h2
    · have hk : k = k' := by simpa using h1
      subst hk
      simp only [wellFormedMembers]
      exact ⟨hv, h.2.1, h.2.2⟩
    · have hne : (k' == k) = false := by
        simp only [beq_eq_false_iff_ne, ne_eq]
        intro hkk
        exact h1 (by simp [hkk])
      simp only [wellFormedMembers]
      refine ⟨hv, ?_, h.1, h.2.1, h.2.2⟩
      intro m hm
      simp only [List.mem_cons] at hm
      rcases hm with hm | hm
      · rw [hm]
        exact ⟨hne, keyLt_asymm k k' h2⟩
      · have hm' := h.2.1 m hm
        refine ⟨?_, ?_⟩
        · simp only [beq_eq_false_iff_ne, ne_eq]
          intro hmk
          rw [hmk, h2] at hm'
          exact absurd hm'.2 (by decide)
        · cases hlt : keyLt m.1 k with
          | false => rfl
          | true =>
            have := keyLt_trans m.1 k k' hlt h2
            rw [this] at hm'
            exact absurd hm'.2 (by decide)
    · simp only [wellFormedMembers]
      refine ⟨h.1, ?_, insert_wellFormed depth k v hv t h.2.2⟩
      intro m hm
      rcases mem_insert k v t m hm with hm | hm
      · rw [hm]
        exact ⟨by simpa using h1, by simpa using h2⟩
      · exact h.2.1 m hm

mutual
/-- What `parseValue` returns is well formed at the depth it was read at. -/
theorem parseValue_wellFormed :
    ∀ (fuel depth : Nat) (json : QByteArray) (v : QJsonValue) (r : QByteArray),
      parseValue fuel depth json = some (v, r) → wellFormed depth v
  | 0, _, _, _, _, h => by simp [parseValue] at h
  | fuel + 1, depth, [], _, _, h => by simp [parseValue] at h
  | fuel + 1, depth, b :: t, v, r, h => by
    unfold parseValue at h
    split_ifs at h with h34 h91 hd91 h123 hd123
    · split at h
      · simp only [Option.some.injEq, Prod.mk.injEq] at h
        rw [← h.1]
        simp [wellFormed]
      · cases h
    · split at h
      · simp only [Option.some.injEq, Prod.mk.injEq] at h
        rw [← h.1]
        simp only [wellFormed, wellFormedElements]
        exact ⟨by omega, trivial⟩
      · split at h
        · next a r' heq =>
          simp only [Option.some.injEq, Prod.mk.injEq] at h
          rw [← h.1]
          simp only [wellFormed]
          exact ⟨by omega, parseElements_wellFormed fuel (depth + 1) _ a r' heq⟩
        · cases h
    · split at h
      · simp only [Option.some.injEq, Prod.mk.injEq] at h
        rw [← h.1]
        simp only [wellFormed, wellFormedMembers]
        exact ⟨by omega, trivial⟩
      · split at h
        · next o r' heq =>
          simp only [Option.some.injEq, Prod.mk.injEq] at h
          rw [← h.1]
          simp only [wellFormed]
          exact ⟨by omega,
            parseMembers_wellFormed fuel (depth + 1) [] _ o r' (by simp [wellFormedMembers]) heq⟩
        · cases h
    · split at h
      · simp only [Option.some.injEq, Prod.mk.injEq] at h
        rw [← h.1]
        simp [wellFormed]
      · simp only [Option.some.injEq, Prod.mk.injEq] at h
        rw [← h.1]
        simp [wellFormed]
      · simp only [Option.some.injEq, Prod.mk.injEq] at h
        rw [← h.1]
        simp [wellFormed]
      · split at h
        · next d r' heq =>
          simp only [Option.some.injEq, Prod.mk.injEq] at h
          rw [← h.1]
          simp only [wellFormed]
          exact parseNumber_reduced _ d r' heq
        · cases h
/-- What `parseElements` returns is well formed. -/
theorem parseElements_wellFormed :
    ∀ (fuel depth : Nat) (json : QByteArray) (a : List QJsonValue) (r : QByteArray),
      parseElements fuel depth json = some (a, r) → wellFormedElements depth a
  | 0, _, _, _, _, h => by simp [parseElements] at h
  | fuel + 1, depth, json, a, r, h => by
    unfold parseElements at h
    split at h
    · cases h
    · next v r1 hv =>
      have hwv := parseValue_wellFormed fuel depth json v r1 hv
      split at h
      · simp only [Option.some.injEq, Prod.mk.injEq] at h
        rw [← h.1]
        simp only [wellFormedElements]
        exact ⟨hwv, trivial⟩
      · split at h
        · next a' r2 ha =>
          simp only [Option.some.injEq, Prod.mk.injEq] at h
          rw [← h.1]
          simp only [wellFormedElements]
          exact ⟨hwv, parseElements_wellFormed fuel depth _ a' r2 ha⟩
        · cases h
      · cases h
/-- What `parseMembers` returns is well formed, when the members read so far
are. -/
theorem parseMembers_wellFormed :
    ∀ (fuel depth : Nat) (acc : QJsonObject) (json : QByteArray) (o : QJsonObject)
      (r : QByteArray), wellFormedMembers depth acc →
      parseMembers fuel depth acc json = some (o, r) → wellFormedMembers depth o
  | 0, _, _, _, _, _, _, h => by simp [parseMembers] at h
  | fuel + 1, depth, acc, json, o, r, hacc, h => by
    unfold parseMembers at h
    split at h
    · split at h
      · cases h
      · split at h
        · split at h
          · cases h
          · next v r1 hv =>
            have hwv := parseValue_wellFormed fuel depth _ v r1 hv
            split at h
            · simp only [Option.some.injEq, Prod.mk.injEq] at h
              rw [← h.1]
              exact insert_wellFormed depth _ v hwv acc hacc
            · exact parseMembers_wellFormed fuel depth _ _ o r
                (insert_wellFormed depth _ v hwv acc hacc) h
            · cases h
        · cases h
    · cases h
end

/-! ## What `translateJson` parses and what it writes -/

/-- The object `translateJson` takes from the parsed payload is well formed,
whatever the payload. -/
theorem fromJson_wellFormed (json : QByteArray) :
    wellFormed 0 (QJsonValue.object (QJsonDocument.fromJson json).1.toObject) := by
  have hempty : wellFormed 0 (QJsonValue.object []) := by
    simp [wellFormed, wellFormedMembers]
  have hparse : ∀ v, parseJson json = some v → wellFormed 0 v := by
    intro v hv
    unfold parseJson at hv
    simp only at hv
    split at hv
    · split_ifs at hv
      split at hv
      · next v' r hp =>
        split_ifs at hv
        simp only [Option.some.injEq] at hv
        rw [← hv]
        exact parseValue_wellFormed _ 0 _ v' r hp
      · cases hv
    · cases hv
  unfold QJsonDocument.fromJson
  split
  · next o ho => exact hparse _ ho
  · exact hempty
  · exact hempty

mutual
/-- A value of the shape of a well-formed value is well formed. -/
theorem sameShape_wellFormed :
    ∀ (v v' : QJsonValue) (depth : Nat), sameShape v v' = true → wellFormed depth v →
      wellFormed depth v'
  | QJsonValue.object o, QJsonValue.object o', depth, h, hw => by
    simp only [sameShape] at h
    simp only [wellFormed] at hw ⊢
    exact ⟨hw.1, sameShapeMembers_wellFormed o o' (depth + 1) h hw.2⟩
  | QJsonValue.array a, QJsonValue.array a', depth, h, hw => by
    simp only [sameShape] at h
    simp only [wellFormed] at hw ⊢
    exact ⟨hw.1, sameShapeElements_wellFormed a a' (depth + 1) h hw.2⟩
  | QJsonValue.string _, QJsonValue.string _, _, _, _ => by simp [wellFormed]
  | QJsonValue.null, QJsonValue.null, _, _, _ => by simp [wellFormed]
  | QJsonValue.bool _, QJsonValue.bool _, _, _, _ => by simp [wellFormed]
  | QJsonValue.double d, QJsonValue.double d', _, h, hw => by
    simp only [sameShape, beq_iff_eq] at h
    rw [← h]
    exact hw
  | QJsonValue.undefined, _, _, _, hw => by simp [wellFormed] at hw
  | QJsonValue.object _, QJsonValue.array _, _, h, _ => by simp [sameShape] at h
  | QJsonValue.object _, QJsonValue.string _, _, h, _ => by simp [sameShape] at h
  | QJsonValue.object _, QJsonValue.null, _, h, _ => by simp [sameShape] at h
  | QJsonValue.object _, QJsonValue.bool _, _, h, _ => by simp [sameShape] at h
  | QJsonValue.object _, QJsonValue.double _, _, h, _ => by simp [sameShape] at h
  | QJsonValue.object _, QJsonValue.undefined, _, h, _ => by simp [sameShape] at h
  | QJsonValue.array _, QJsonValue.object _, _, h, _ => by simp [sameShape] at h
  | QJsonValue.array _, QJsonValue.string _, _, h, _ => by simp [sameShape] at h
  | QJsonValue.array _, QJsonValue.null, _, h, _ => by simp [sameShape] at h
  | QJsonValue.array _, QJsonValue.bool _, _, h, _ => by simp [sameShape] at h
  | QJsonValue.array _, QJsonValue.double _, _, h, _ => by simp [sameShape] at h
  | QJsonValue.array _, QJsonValue.undefined, _, h, _ => by simp [sameShape] at h
  | QJsonValue.string _, QJsonValue.object _, _, h, _ => by simp [sameShape] at h
  | QJsonValue.string _, QJsonValue.array _, _, h, _ => by simp [sameShape] at h
  | QJsonValue.string _, QJsonValue.null, _, h, _ => by simp [sameShape] at h
  | QJsonValue.string _, QJsonValue.bool _, _, h, _ => by simp [sameShape] at h
  | QJsonValue.string _, QJsonValue.double _, _, h, _ => by simp [sameShape] at h
  | QJsonValue.string _, QJsonValue.undefined, _, h, _ => by simp [sameShape] at h
  | QJsonValue.null, QJsonValue.object _, _, h, _ => by simp [sameShape] at h
  | QJsonValue.null, QJsonValue.array _, _, h, _ => by simp [sameShape] at h
  | QJsonValue.null, QJsonValue.string _, _, h, _ => by simp [sameShape] at h
  | QJsonValue.null, QJsonValue.bool _, _, h, _ => by simp [sameShape] at h
  | QJsonValue.null, QJsonValue.double _, _, h, _ => by simp [sameShape] at h
  | QJsonValue.null, QJsonValue.undefined, _, h, _ => by simp [sameShape] at h
  | QJsonValue.bool _, QJsonValue.object _, _, h, _ => by simp [sameShape] at h
  | QJsonValue.bool _, QJsonValue.array _, _, h, _ => by simp [sameShape] at h
  | QJsonValue.bool _, QJsonValue.string _, _, h, _ => by simp [sameShape] at h
  | QJsonValue.bool _, QJsonValue.null, _, h, _ => by simp [sameShape] at h
  | QJsonValue.bool _, QJsonValue.double _, _, h, _ => by simp [sameShape] at h
  | QJsonValue.bool _, QJsonValue.undefined, _, h, _ => by simp [sameShape] at h
  | QJsonValue.double _, QJsonValue.object _, _, h, _ => by simp [sameShape] at h
  | QJsonValue.double _, QJsonValue.array _, _, h, _ => by simp [sameShape] at h
  | QJsonValue.double _, QJsonValue.string _, _, h, _ => by simp [sameShape] at h
  | QJsonValue.double _, QJsonValue.null, _, h, _ => by simp [sameShape] at h
  | QJsonValue.double _, QJsonValue.bool _, _, h, _ => by simp [sameShape] at h
  | QJsonValue.double _, QJsonValue.undefined, _, h, _ => by simp [sameShape] at h
/-- The statement of `sameShape_wellFormed` for the members of an object. -/
theorem sameShapeMembers_wellFormed :
    ∀ (o o' : List (String × QJsonValue)) (depth : Nat), sameShapeMembers o o' = true →
      wellFormedMembers depth o → wellFormedMembers depth o'
  | [], [], _, _, _ => by simp [wellFormedMembers]
  | [], _ :: _, _, h, _ => by simp [sameShapeMembers] at h
  | _ :: _, [], _, h, _ => by simp [sameShapeMembers] at h
  | (k, v) :: t, (k', v') :: t', depth, h, hw => by
    simp only [sameShapeMembers, Bool.and_eq_true, beq_iff_eq] at h
    obtain ⟨⟨hk, hv⟩, ht⟩ := h
    simp only [wellFormedMembers] at hw ⊢
    obtain ⟨hwv, hkeys, hwt⟩ := hw
    refine ⟨sameShape_wellFormed v v' depth hv hwv, ?_,
      sameShapeMembers_wellFormed t t' depth ht hwt⟩
    intro m hm
    have hmem : m.1 ∈ t'.map Prod.fst := List.mem_map_of_mem Prod.fst hm
    rw [KVTranslator.sameShapeMembers_keys t t' ht] at hmem
    obtain ⟨m0, hm0, hm0k⟩ := List.mem_map.1 hmem
    have := hkeys m0 hm0
    rw [hm0k, hk] at this
    exact this
/-- The statement of `sameShape_wellFormed` for the elements of an array. -/
theorem sameShapeElements_wellFormed :
    ∀ (a a' : List QJsonValue) (depth : Nat), sameShapeElements a a' = true →
      wellFormedElements depth a → wellFormedElements depth a'
  | [], [], _, _, _ => by simp [wellFormedElements]
  | [], _ :: _, _, h, _ => by simp [sameShapeElements] at h
  | _ :: _, [], _, h, _ => by simp [sameShapeElements] at h
  | v :: t, v' :: t', depth, h, hw => by
    simp only [sameShapeElements, Bool.and_eq_true] at h
    simp only [wellFormedElements] at hw ⊢
    exact ⟨sameShape_wellFormed v v' depth h.1 hw.1,
      sameShapeElements_wellFormed t t' depth h.2 hw.2⟩
end

namespace KVTranslator

/-! ## A second visit of a visited document -/

theorem lookup_mem (k : String) (v : QVariant) :
    ∀ (m : QVariantMap), m.lookup k = some v → ∃ kv ∈ m, kv.1 = k
  | [], h => by simp [List.lookup] at h
  | (k', v') :: t, h => by
    by_cases hk : k = k'
    · exact ⟨(k', v'), by simp, hk.symm⟩
    · have hb : (k == k') = false := by simpa using hk
      simp only [List.lookup, hb] at h
      obtain ⟨kv, hkv, hkk⟩ := lookup_mem k v t h
      exact ⟨kv, by simp [hkv], hkk⟩

/-- What the line translator returns: its input, or the text of the non-null
value the dictionary holds for the input. -/
theorem translateLine_fst_cases (P : Platform) (K : KVTranslator) (s e k : String) :
    (translateLine P K s e k).1 = s
      ∨ ∃ v, K.translation.lookup (hashKey (P.unescape s)) = some v ∧ v.isNull = false
          ∧ (translateLine P K s e k).1 = v.toString := by
  by_cases hne : P.unescape s = ""
  · left; rw [translateLine_placeholder P K s e k (Or.inl hne)]
  by_cases hdash : P.unescape s = "-"
  · left; rw [translateLine_placeholder P K s e k (Or.inr hdash)]
  cases hnum : P.toFloatOk (P.unescape s) with
  | true => left; rw [translateLine_numeric P K s e k hnum]
  | false =>
    cases hbl : blacklisted K e k with
    | true => left; rw [translateLine_blacklisted P K s e k hbl]
    | false =>
      rw [translateLine_lookup P K s e k hne hdash hnum hbl]
      cases hl : K.translation.lookup (hashKey (P.unescape s)) with
      | none => left; rfl
      | some v =>
        cases hv : v.isNull with
        | true => left; simp [hv]
        | false => right; exact ⟨v, rfl, hv, by simp [hv]⟩

/-- When no translation is itself translated to another text, the line
translator returns what it returned for a line when it is given that again. -/
theorem translateLine_twice (P : Platform) (K : KVTranslator) (s e k : String)
    (hdict : chainFree P K = true) :
    (translateLine P K (translateLine P K s e k).1 e k).1 = (translateLine P K s e k).1 := by
  rcases translateLine_fst_cases P K s e k with h | ⟨v, hl, hv, h⟩
  · rw [h, h]
  · rw [h]
    obtain ⟨kv, hkv, hk⟩ := lookup_mem _ v K.translation hl
    unfold chainFree at hdict
    have hc := List.all_eq_true.1 hdict kv hkv
    simp only [QVariantMap.value, hk, hl, Option.getD_some, hv, Bool.false_or,
      Bool.or_eq_true, beq_iff_eq] at hc
    rcases hc with (((hc | hc) | hc) | hc) | hc
    · rw [translateLine_placeholder P K _ e k (Or.inl ((data_isEmpty_iff _).1 hc))]
    · rw [translateLine_placeholder P K _ e k (Or.inr hc)]
    · rw [translateLine_numeric P K _ e k hc]
    · rcases translateLine_fst_cases P K v.toString e k with h2 | ⟨v2, hl2, hv2, _⟩
      · exact h2
      · rw [hl2, Option.getD_some, hv2] at hc
        exact absurd hc (by decide)
    · rcases translateLine_fst_cases P K v.toString e k with h2 | ⟨v2, hl2, _, h2⟩
      · exact h2
      · rw [hl2, Option.getD_some] at hc
        rw [h2, hc]

/-- When the platform reads the date-time it has written for a stamp back as
that date-time, `fixTime` returns what it returned for a stamp when it is
given that again. -/
theorem fixTime_twice (P : Platform) (s : String)
    (hdate : ∀ t, (P.dateFromString t).valid = true →
      P.dateFromString (P.dateToString (P.dateFromString t).toLocalTime)
        = (P.dateFromString t).toLocalTime) :
    fixTime P (fixTime P s) = fixTime P s := by
  cases hv : (P.dateFromString s).valid with
  | false =>
    have h1 : fixTime P s = s := by rw [fixTime_eq]; simp [hv]
    rw [h1, h1]
  | true =>
    have h1 : fixTime P s = P.dateToString (P.dateFromString s).toLocalTime := by
      rw [fixTime_eq]; simp [hv]
    rw [h1, fixTime_eq, hdate s hv]
    simp [QDateTime.toLocalTime, hv]

mutual
/-- In state `loaded`, when no translation is itself translated to another text
and the platform reads back the date-times it writes, every string leaf of a
visited value is stable. -/
theorem walk_stable (P : Platform) (wake : Option QNetworkReply) (K : KVTranslator) (e : String)
    (hstate : K.state = State.loaded) (hdict : chainFree P K = true)
    (hdate : ∀ t, (P.dateFromString t).valid = true →
      P.dateFromString (P.dateToString (P.dateFromString t).toLocalTime)
        = (P.dateFromString t).toLocalTime) :
    ∀ (v : QJsonValue) (key : String) (v' : QJsonValue) (K' : KVTranslator) (ev : List Event),
      _walk P wake K v e key = some (v', K', ev) → leavesAll (stableLeaf P K e) key v' = true
  | QJsonValue.object o, _, v', K', ev, h => by
    simp only [_walk] at h
    split at h
    · next o' K1 ev1 ho =>
      simp only [Option.some.injEq, Prod.mk.injEq] at h
      rw [← h.1]
      simp only [leavesAll]
      exact walkObject_stable P wake K e hstate hdict hdate o o' K1 ev1 ho
    · cases h
  | QJsonValue.array a, key, v', K', ev, h => by
    simp only [_walk] at h
    split at h
    · next a' K1 ev1 ha =>
      simp only [Option.some.injEq, Prod.mk.injEq] at h
      rw [← h.1]
      simp only [leavesAll]
      exact walkArray_stable P wake K e hstate hdict hdate a key a' K1 ev1 ha
    · cases h
  | QJsonValue.string s, key, v', K', ev, h => by
    by_cases hk : key = "api_complete_time_str"
    · simp only [_walk, hk, beq_self_eq_true, if_true, Option.some.injEq, Prod.mk.injEq] at h
      rw [← h.1]
      simp only [leavesAll, stableLeaf, hk, beq_self_eq_true, if_true, beq_iff_eq]
      exact fixTime_twice P s hdate
    · have hb : (key == "api_complete_time_str") = false := by simpa using hk
      simp only [_walk, hb, translate_loaded P K wake s e key hstate, Bool.false_eq_true,
        if_false, Option.some.injEq, Prod.mk.injEq] at h
      rw [← h.1]
      simp only [leavesAll, stableLeaf, hb, Bool.false_eq_true, if_false, beq_iff_eq]
      exact translateLine_twice P K s e key hdict
  | QJsonValue.null, _, v', K', ev, h => by
    simp only [_walk, Option.some.injEq, Prod.mk.injEq] at h
    rw [← h.1]; simp [leavesAll]
  | QJsonValue.bool b, _, v', K', ev, h => by
    simp only [_walk, Option.some.injEq, Prod.mk.injEq] at h
    rw [← h.1]; simp [leavesAll]
  | QJsonValue.double d, _, v', K', ev, h => by
    simp only [_walk, Option.some.injEq, Prod.mk.injEq] at h
    rw [← h.1]; simp [leavesAll]
  | QJsonValue.undefined, _, v', K', ev, h => by
    simp only [_walk, Option.some.injEq, Prod.mk.injEq] at h
    rw [← h.1]; simp [leavesAll]
/-- The statement of `walk_stable` for the loop over the members of an object. -/
theorem walkObject_stable (P : Platform) (wake : Option QNetworkReply) (K : KVTranslator)
    (e : String) (hstate : K.state = State.loaded) (hdict : chainFree P K = true)
    (hdate : ∀ t, (P.dateFromString t).valid = true →
      P.dateFromString (P.dateToString (P.dateFromString t).toLocalTime)
        = (P.dateFromString t).toLocalTime) :
    ∀ (o o' : List (String × QJsonValue)) (K' : KVTranslator) (ev : List Event),
      walkObject P wake K o e = some (o', K', ev) → membersAll (stableLeaf P K e) o' = true
  | [], o', K', ev, h => by
    simp only [walkObject, Option.some.injEq, Prod.mk.injEq] at h
    rw [← h.1]; simp [membersAll]
  | (k, v) :: t, o', K', ev, h => by
    have hs : K.state ≠ State.loading := by rw [hstate]; decide
    obtain ⟨v1, ev1, hv⟩ := walk_settled P wake K e v k hs
    simp only [walkObject, hv] at h
    split at h
    · cases h
    · next t1 K1 ev2 ht =>
      simp only [Option.some.injEq, Prod.mk.injEq] at h
      rw [← h.1]
      simp only [membersAll, Bool.and_eq_true]
      exact ⟨walk_stable P wake K e hstate hdict hdate v k v1 K ev1 hv,
        walkObject_stable P wake K e hstate hdict hdate t t1 K1 ev2 ht⟩
/-- The statement of `walk_stable` for the loop over the elements of an array. -/
theorem walkArray_stable (P : Platform) (wake : Option QNetworkReply) (K : KVTranslator)
    (e : String) (hstate : K.state = State.loaded) (hdict : chainFree P K = true)
    (hdate : ∀ t, (P.dateFromString t).valid = true →
      P.dateFromString (P.dateToString (P.dateFromString t).toLocalTime)
        = (P.dateFromString t).toLocalTime) :
    ∀ (a : List QJsonValue) (key : String) (a' : List QJsonValue) (K' : KVTranslator)
      (ev : List Event),
      walkArray P wake K a e key = some (a', K', ev) → elementsAll (stableLeaf P K e) key a' = true
  | [], _, a', K', ev, h => by
    simp only [walkArray, Option.some.injEq, Prod.mk.injEq] at h
    rw [← h.1]; simp [elementsAll]
  | v :: t, key, a', K', ev, h => by
    have hs : K.state ≠ State.loading := by rw [hstate]; decide
    obtain ⟨v1, ev1, hv⟩ := walk_settled P wake K e v key hs
    simp only [walkArray, hv] at h
    split at h
    · cases h
    · next t1 K1 ev2 ht =>
      simp only [Option.some.injEq, Prod.mk.injEq] at h
      rw [← h.1]
      simp only [elementsAll, Bool.and_eq_true]
      exact ⟨walk_stable P wake K e hstate hdict hdate v key v1 K ev1 hv,
        walkArray_stable P wake K e hstate hdict hdate t key t1 K1 ev2 ht⟩
end

end KVTranslator

/-! ## The calendar reads back what it writes -/

/-- The year of the era is recovered from the day of the era. -/
theorem civil_yearOfEra (yoe doy : Nat) (hy : yoe < 400) (hdoy : doy ≤ 365)
    (hleap : doy = 365 → ((yoe + 1) % 4 = 0 ∧ (yoe + 1) % 100 ≠ 0) ∨ (yoe + 1) % 400 = 0) :
    (yoe * 365 + yoe / 4 - yoe / 100 + doy
      - (yoe * 365 + yoe / 4 - yoe / 100 + doy) / 1460
      + (yoe * 365 + yoe / 4 - yoe / 100 + doy) / 36524
      - (yoe * 365 + yoe / 4 - yoe / 100 + doy) / 146096) / 365 = yoe := by
  obtain ⟨c, q, r, rfl, hq, hr⟩ : ∃ c q r, yoe = 100 * c + 4 * q + r ∧ q < 25 ∧ r < 4 :=
    ⟨yoe / 100, yoe % 100 / 4, yoe % 4, by omega, by omega, by omega⟩
  have hc : c < 4 := by omega
  have e4 : (100 * c + 4 * q + r) / 4 = 25 * c + q := by omega
  have e100 : (100 * c + 4 * q + r) / 100 = c := by omega
  have hl : doy = 365 → r = 3 ∧ (q = 24 → c = 3) := by
    intro h
    have := hleap h
    omega
  clear hleap hy
  rw [e4, e100]
  have hdoe : (100 * c + 4 * q + r) * 365 + (25 * c + q) - c + doy
      = 36524 * c + 1461 * q + 365 * r + doy := by omega
  rw [hdoe]
  clear hdoe e4 e100
  by_cases hlast : c = 3 ∧ q = 24 ∧ r = 3 ∧ doy = 365
  · obtain ⟨rfl, rfl, rfl, rfl⟩ := hlast
    decide
  · have hlt : 1461 * q + 365 * r + doy < 36524 := by omega
    have e3 : (36524 * c + 1461 * q + 365 * r + doy) / 146096 = 0 := by omega
    have e2 : (36524 * c + 1461 * q + 365 * r + doy) / 36524 = c := by omega
    by_cases hd : 1460 ≤ 24 * c + q + 365 * r + doy
    · have e1 : (36524 * c + 1461 * q + 365 * r + doy) / 1460 = 25 * c + q + 1 := by omega
      rw [e1, e2, e3]
      clear e1 e2 e3
      omega
    · have e1 : (36524 * c + 1461 * q + 365 * r + doy) / 1460 = 25 * c + q := by omega
      rw [e1, e2, e3]
      clear e1 e2 e3
      omega

/-- The date of a day number counted from a year `Y` that starts in March, a
month `mp` counted from March and a day: the inverse step of `civilFromDays`. -/
theorem civilFromDays_era (Y mp d : Nat) (hmp : mp ≤ 11) (hd1 : 1 ≤ d)
    (hmonth : (5 * ((153 * mp + 2) / 5 + d - 1) + 2) / 153 = mp)
    (hdoy : (153 * mp + 2) / 5 + d - 1 ≤ 365)
    (hleap : (153 * mp + 2) / 5 + d - 1 = 365 →
      ((Y % 400 + 1) % 4 = 0 ∧ (Y % 400 + 1) % 100 ≠ 0) ∨ (Y % 400 + 1) % 400 = 0) :
    civilFromDays ((Y / 400) * 146097
        + (Y % 400 * 365 + Y % 400 / 4 - Y % 400 / 100 + ((153 * mp + 2) / 5 + d - 1)))
      = (Y + (if (if mp < 10 then mp + 3 else mp - 9) ≤ 2 then 1 else 0) - 400,
          (if mp < 10 then mp + 3 else mp - 9), d) := by
  have hy : Y % 400 < 400 := Nat.mod_lt _ (by decide)
  have hcrux := civil_yearOfEra (Y % 400) ((153 * mp + 2) / 5 + d - 1) hy hdoy hleap
  generalize hdoyd : (153 * mp + 2) / 5 + d - 1 = doy at *
  generalize hyoe : Y % 400 = yoe at *
  have hdoe : yoe * 365 + yoe / 4 - yoe / 100 + doy < 146097 := by omega
  have h1 : ((Y / 400) * 146097 + (yoe * 365 + yoe / 4 - yoe / 100 + doy)) % 146097
      = yoe * 365 + yoe / 4 - yoe / 100 + doy := by
    rw [Nat.mul_comm, Nat.mul_add_mod]
    exact Nat.mod_eq_of_lt hdoe
  have h2 : ((Y / 400) * 146097 + (yoe * 365 + yoe / 4 - yoe / 100 + doy)) / 146097
      = Y / 400 := by
    rw [Nat.mul_comm, Nat.mul_add_div (by decide), Nat.div_eq_of_lt hdoe]
    rfl
  unfold civilFromDays
  simp only [h1, h2, hcrux]
  have h3 : yoe * 365 + yoe / 4 - yoe / 100 + doy - (365 * yoe + yoe / 4 - yoe / 100) = doy := by
    omega
  rw [h3, hmonth]
  have h4 : doy - (153 * mp + 2) / 5 + 1 = d := by omega
  have h5 : yoe + Y / 400 * 400 = Y := by omega
  rw [h4, h5]

/-- The date of the day number of a date is that date. -/
theorem civilFromDays_daysFromCivil (y m d : Nat) (hm1 : 1 ≤ m) (hm12 : m ≤ 12) (hd1 : 1 ≤ d)
    (hd : d ≤ daysInMonth y m) : civilFromDays (daysFromCivil y m d) = (y, m, d) := by
  unfold daysFromCivil
  simp only
  have hera := civilFromDays_era (y + 400 - (if m ≤ 2 then 1 else 0))
    (if 2 < m then m - 3 else m + 9) d
  unfold daysInMonth at hd
  interval_cases m
  all_goals simp only [Nat.reduceLeDiff, Nat.reduceLT, Nat.reduceAdd, Nat.reduceSub,
    Nat.reduceMul, Nat.reduceDiv, Nat.reduceEqDiff, if_true, if_false, ite_true, ite_false,
    false_or, or_false, or_true, true_or, Nat.lt_irrefl, Nat.le_refl] at hera hd ⊢
  case «2» =>
    have hd29 : d ≤ 29 := by split_ifs at hd <;> omega
    have hl : d = 29 → (y % 4 = 0 ∧ y % 100 ≠ 0) ∨ y % 400 = 0 := by
      intro h29
      split_ifs at hd with hc
      · exact hc
      · omega
    rw [hera trivial hd1 (by omega) (by omega) (by intro h; have := hl (by omega); omega)]
    simp only [Prod.mk.injEq, and_true]
    omega
  all_goals
    rw [hera trivial hd1 (by omega) (by omega) (by omega)]
    simp only [Prod.mk.injEq, and_true]
    omega

/-! ## Padded decimal numbers read back -/

theorem digitsValue_cons (a : Nat) (L : List Nat) :
    digitsValue (a :: L) = a * 10 ^ L.length + digitsValue L := by
  have h := digitsValue_append [a] L
  simp only [List.singleton_append] at h
  rw [h]
  simp [digitsValue]

theorem digitsValue_lt : ∀ (L : List Nat), (∀ d ∈ L, d < 10) → digitsValue L < 10 ^ L.length
  | [], _ => by simp [digitsValue]
  | a :: L, hd => by
    have ha : a < 10 := hd a (by simp)
    have ih := digitsValue_lt L (fun d h => hd d (by simp [h]))
    rw [digitsValue_cons, List.length_cons, Nat.pow_succ]
    nlinarith

/-- Two lists of decimal digits of one length and one value are equal. -/
theorem digits_unique : ∀ (A B : List Nat), A.length = B.length → (∀ d ∈ A, d < 10) →
    (∀ d ∈ B, d < 10) → digitsValue A = digitsValue B → A = B
  | [], [], _, _, _, _ => rfl
  | [], _ :: _, h, _, _, _ => by simp at h
  | _ :: _, [], h, _, _, _ => by simp at h
  | a :: A, b :: B, hlen, hA, hB, hv => by
    have hl : A.length = B.length := by simpa using hlen
    have hA1 := digitsValue_lt A (fun d h => hA d (by simp [h]))
    have hB1 := digitsValue_lt B (fun d h => hB d (by simp [h]))
    rw [digitsValue_cons, digitsValue_cons, hl] at hv
    rw [hl] at hA1
    have hpos : 0 < 10 ^ B.length := Nat.pos_pow_of_pos _ (by decide)
    have hdiv := congrArg (fun x => x / 10 ^ B.length) hv
    have hmod := congrArg (fun x => x % 10 ^ B.length) hv
    simp only [Nat.add_comm (a * _), Nat.add_comm (b * _), Nat.add_mul_div_right _ _ hpos,
      Nat.add_mul_mod_self_right, Nat.div_eq_of_lt hA1, Nat.div_eq_of_lt hB1,
      Nat.mod_eq_of_lt hA1, Nat.mod_eq_of_lt hB1, Nat.zero_add] at hdiv hmod
    rw [hdiv, digits_unique A B hl (fun d h => hA d (by simp [h]))
      (fun d h => hB d (by simp [h])) hmod]

/-- The characters of `toString n` are its decimal digits. -/
theorem toString_chars (n : Nat) :
    ∃ L : List Nat, (toString n).data = L.map Nat.digitChar ∧ (∀ d ∈ L, d < 10)
      ∧ digitsValue L = n ∧ L ≠ [] ∧ (n ≠ 0 → 10 ^ (L.length - 1) ≤ n) := by
  obtain ⟨L, hL, hd, hv, hne, _, _, hlen⟩ := toDigitsCore_digits (n + 1) n [] (by omega)
  refine ⟨L, ?_, hd, hv, hne, hlen⟩
  show (Nat.repr n).data = _
  unfold Nat.repr Nat.toDigits
  rw [hL]
  simp [List.asString]

/-- The padded decimal text of the value of a list of digits is that list. -/
theorem padDigits_digits (ds : List Nat) (hd : ∀ d ∈ ds, d < 10) (hne : ds ≠ []) :
    padDigits ds.length (digitsValue ds) = ds.map Nat.digitChar := by
  obtain ⟨L, hL, hLd, hLv, hLne, hLlen⟩ := toString_chars (digitsValue ds)
  have hpos : 0 < ds.length := List.length_pos.2 hne
  have hLpos : 0 < L.length := List.length_pos.2 hLne
  have hle : L.length ≤ ds.length := by
    by_cases h0 : digitsValue ds = 0
    · by_contra hgt
      have h1 : 10 ^ 1 ≤ 10 ^ (L.length - 1) := Nat.pow_le_pow_right (by decide) (by omega)
      have h2 := digitsValue_lt L hLd
      have h3 : 10 ^ (L.length - 1) * 10 = 10 ^ L.length := by
        rw [← Nat.pow_succ]
        congr 1
        omega
      have h4 : digitsValue L = 0 := by rw [hLv, h0]
      -- a list of digits of value zero that `toString` writes has one digit
      obtain ⟨L0, hL0, _, _, _, hz, _, _⟩ := toDigitsCore_digits (0 + 1) 0 [] (by omega)
      have hz0 := hz rfl
      subst hz0
      have hs : (toString (digitsValue ds)).data = ['0'] := by rw [h0]; rfl
      rw [hs] at hL
      have := congrArg List.length hL
      simp at this
      omega
    · have h1 := hLlen h0
      have h2 := digitsValue_lt ds hd
      have h3 : 10 ^ (L.length - 1) < 10 ^ ds.length := Nat.lt_of_le_of_lt h1 h2
      have h4 := (Nat.pow_lt_pow_iff_right (by decide : 1 < 10)).1 h3
      omega
  have heq : List.replicate (ds.length - L.length) 0 ++ L = ds := by
    apply digits_unique
    · simp; omega
    · intro d hdm
      rcases List.mem_append.1 hdm with h | h
      · have := List.eq_of_mem_replicate h
        omega
      · exact hLd d h
    · exact hd
    · rw [digitsValue_zeros, hLv]
  unfold padDigits
  have hlen : (toString (digitsValue ds)).length = L.length := by
    show (toString (digitsValue ds)).data.length = _
    rw [hL]
    simp
  rw [hlen, hL]
  conv_rhs => rw [← heq]
  simp only [List.map_append, List.map_replicate]
  rfl

theorem digitChar_ofNat (k : Nat) (h1 : 48 ≤ k) (h2 : k ≤ 57) :
    Nat.digitChar (k - 48) = Char.ofNat k := by
  interval_cases k <;> rfl

/-- A character with a digit value is the digit character of that value. -/
theorem digitOf_digitChar (c : Char) (d : Nat) (h : digitOf c = some d) :
    d < 10 ∧ Nat.digitChar d = c := by
  unfold digitOf at h
  split_ifs at h with hc
  simp only [Option.some.injEq] at h
  simp only [Char.isDigit, Bool.and_eq_true, decide_eq_true_eq] at hc
  have h1 : 48 ≤ c.toNat := hc.1
  have h2 : c.toNat ≤ 57 := hc.2
  rw [← h]
  refine ⟨by omega, ?_⟩
  rw [digitChar_ofNat c.toNat h1 h2]
  exact Char.ofNat_toNat c

/-- The characters a list of digit values was read from. -/
theorem mapM_digitOf : ∀ (cs : List Char) (ds : List Nat), cs.mapM digitOf = some ds →
    cs = ds.map Nat.digitChar ∧ (∀ d ∈ ds, d < 10) ∧ ds.length = cs.length
  | [], ds, h => by
    simp only [List.mapM_nil, Option.pure_def, Option.some.injEq] at h
    rw [← h]
    simp
  | c :: cs, ds, h => by
    simp only [List.mapM_cons, Option.pure_def, Option.bind_eq_bind, Option.bind_eq_some,
      Option.some.injEq] at h
    obtain ⟨d, hdc, ds1, hds, hcons⟩ := h
    obtain ⟨h1, h2⟩ := digitOf_digitChar c d hdc
    obtain ⟨i1, i2, i3⟩ := mapM_digitOf cs ds1 hds
    rw [← hcons]
    refine ⟨by simp [h2, ← i1], ?_, by simp [i3]⟩
    intro x hx
    rcases List.mem_cons.1 hx with hx | hx
    · rw [hx]; exact h1
    · exact i2 x hx

/-- The padded decimal text of the number a list of digit characters writes is
that list. -/
theorem padDigits_numberOf (cs : List Char) (n : Nat) (hne : cs ≠ [])
    (h : numberOf cs = some n) : padDigits cs.length n = cs := by
  cases cs with
  | nil => exact absurd rfl hne
  | cons c t =>
    simp only [numberOf, Option.map_eq_some'] at h
    obtain ⟨ds, hds, hn⟩ := h
    obtain ⟨h1, h2, h3⟩ := mapM_digitOf (c :: t) ds hds
    have hdne : ds ≠ [] := by
      intro h0
      rw [h0] at h3
      simp at h3
    rw [← hn, ← h3, padDigits_digits ds h2 hdne, ← h1]

/-- The calendar writes a date-time it has read as the text it was read from. -/
theorem calendarToString_fromString (t : String) (h : (calendarFromString t).valid = true) :
    calendarToString (calendarFromString t) = t := by
  unfold calendarFromString at h ⊢
  split at h
  · next y1 y2 y3 y4 m1 m2 d1 d2 h1 h2 i1 i2 s1 s2 hdata =>
    split at h
    · next y m d hh mi s hy hm hd hhh hmi hs =>
      split_ifs at h with hc
      have hcond := hc
      obtain ⟨c1, c2, c3, c4, c5, c6, c7⟩ := hc
      have hcivil := civilFromDays_daysFromCivil y m d c1 c2 c3 c4
      have e1 : (daysFromCivil y m d * 86400 + hh * 3600 + mi * 60 + s) / 86400
          = daysFromCivil y m d := by omega
      have e2 : (daysFromCivil y m d * 86400 + hh * 3600 + mi * 60 + s) % 86400
          = hh * 3600 + mi * 60 + s := by omega
      have e3 : (hh * 3600 + mi * 60 + s) / 3600 = hh := by omega
      have e4 : (hh * 3600 + mi * 60 + s) % 3600 / 60 = mi := by omega
      have e5 : (hh * 3600 + mi * 60 + s) % 60 = s := by omega
      have py := padDigits_numberOf [y1, y2, y3, y4] y (by simp) hy
      have pm := padDigits_numberOf [m1, m2] m (by simp) hm
      have pd := padDigits_numberOf [d1, d2] d (by simp) hd
      have ph := padDigits_numberOf [h1, h2] hh (by simp) hhh
      have pi := padDigits_numberOf [i1, i2] mi (by simp) hmi
      have ps := padDigits_numberOf [s1, s2] s (by simp) hs
      simp only [List.length_cons, List.length_nil, Nat.zero_add, Nat.reduceAdd] at py pm pd ph pi ps
      have ht : t = String.mk t.data := rfl
      rw [ht, hdata]
      rw [if_pos hcond]
      unfold calendarToString
      have hneg : ¬ ((daysFromCivil y m d * 86400 + hh * 3600 + mi * 60 + s : Nat) : Int) < 0 := by
        omega
      simp only [Bool.true_eq_false, false_or, hneg, if_false, Int.toNat_ofNat, e1, e2, e3, e4,
        e5, hcivil, py, pm, pd, ph, pi, ps]
      rfl
    · simp at h
  · simp at h

theorem calendarFromString_spec (t : String) :
    (calendarFromString t).spec = TimeSpec.localTime := by
  unfold calendarFromString
  split
  · split
    · split_ifs <;> rfl
    · rfl
  · rfl

/-- The platform with the calendar reads the text it has written for a
date-time it has read back as that date-time. -/
theorem calendarPlatform_readback (t : String)
    (h : (calendarPlatform.dateFromString t).valid = true) :
    calendarPlatform.dateFromString
        (calendarPlatform.dateToString (calendarPlatform.dateFromString t).toLocalTime)
      = (calendarPlatform.dateFromString t).toLocalTime := by
  have hlocal : (calendarFromString t).toLocalTime = calendarFromString t := by
    unfold QDateTime.toLocalTime
    rw [← calendarFromString_spec t]
  show calendarFromString (calendarToString (calendarFromString t).toLocalTime)
    = (calendarFromString t).toLocalTime
  rw [hlocal, calendarToString_fromString t h]

namespace KVTranslator

/-- C16, amended: idempotence holds for the dictionaries in which no translation
is itself translated to another text. In state `loaded`, when for every key of
the dictionary with a non-null value the text of that value, unescaped as
`translate` does it, is empty, `-` or numeric, or its hash key is absent from
the dictionary, or has a null value, or has a value with the same text, and the
platform reads the date-time it has written for a time stamp back as that
date-time, then for every input `d`, JSON or not, and every endpoint `e` a
first `translateJson(d, e)` returns some bytes `out` and `translateJson(out, e)`
returns `out`, byte for byte. The engine is the same after both passes. -/
theorem translateJson_idempotent (P : Platform) (K : KVTranslator) (wake : Option QNetworkReply)
    (d : QByteArray) (e : String) (hstate : K.state = State.loaded)
    (hdict : chainFree P K = true)
    (hdate : ∀ t, (P.dateFromString t).valid = true →
      P.dateFromString (P.dateToString (P.dateFromString t).toLocalTime)
        = (P.dateFromString t).toLocalTime) :
    ∃ out ev1 ev2, translateJson P K wake d e = some (out, K, ev1)
      ∧ translateJson P K wake out e = some (out, K, ev2) := by
  have hs : K.state ≠ State.loading := by rw [hstate]; decide
  -- the first pass
  obtain ⟨v1, ev1, hw1⟩ := walk_settled P wake K e
    (QJsonValue.object (QJsonDocument.fromJson (payload d)).1.toObject) "" hs
  have hshape := (walk_returns P wake e _ K "" _ hw1).2
  have hwf : wellFormed 0 v1 :=
    sameShape_wellFormed _ v1 0 hshape (fromJson_wellFormed (payload d))
  have hstable := walk_stable P wake K e hstate hdict hdate _ "" v1 K ev1 hw1
  obtain ⟨o1, ho1⟩ : ∃ o1, v1 = QJsonValue.object o1 := by
    cases v1 with
    | object o => exact ⟨o, rfl⟩
    | _ => simp [sameShape] at hshape
  subst ho1
  have hfirst : translateJson P K wake d e
      = some (framing d ++ valueToJson (QJsonValue.object o1), K, ev1) := by
    rw [translateJson_eq, hw1]
    rfl
  -- the bytes of the first pass, split again
  have hv : valueToJson (QJsonValue.object o1) = 123 :: (objectContentToJson o1 ++ [125]) := by
    simp [valueToJson]
  have hfp := framing_payload_output (hasPrefix d) (objectContentToJson o1 ++ [125])
  rw [← hv] at hfp
  have hframing : framing d = (if hasPrefix d then toUtf8 "svdata=" else []) := rfl
  rw [← hframing] at hfp
  -- the second pass
  obtain ⟨ev2, hw2⟩ := walk_fixed P wake K e (stableLeaf P K e)
    (walk_stableLeaf P wake K e hstate) (QJsonValue.object o1) "" hstable
  refine ⟨framing d ++ valueToJson (QJsonValue.object o1), ev1, ev2, hfirst, ?_⟩
  rw [translateJson_eq, hfp.2, fromJson_written o1 hwf]
  simp only [QJsonDocument.toObject, hw2, QJsonValue.toObject, hfp.1]

/-- Witness of C16 as amended: on the platform with the calendar, the
dictionary of the scenarios (its one translation, `Bonjour`, has no entry) and
a document with a translatable text, a time stamp and a blacklisted field behind
the prefix `svdata=`. -/
theorem translateJson_idempotent_witness :
    ∃ out ev1 ev2,
      translateJson calendarPlatform lobbyEngine none
          (toUtf8 ("svdata=\x7b\"msg\":\"Hello\","
            ++ "\"api_complete_time_str\":\"2020-01-01 12:00:00\",\"id\":42\x7d")) "lobby"
        = some (out, lobbyEngine, ev1)
      ∧ translateJson calendarPlatform lobbyEngine none out "lobby"
        = some (out, lobbyEngine, ev2) :=
  translateJson_idempotent calendarPlatform lobbyEngine none
    (toUtf8 ("svdata=\x7b\"msg\":\"Hello\","
      ++ "\"api_complete_time_str\":\"2020-01-01 12:00:00\",\"id\":42\x7d")) "lobby"
    rfl (by decide) calendarPlatform_readback

end KVTranslator
